import Mathlib

/-!
# redisTool: lock, cache and queue over a Redis store

A shallow embedding of the Go package `redisTool` (lock.go, cache.go, queue.go,
helper.go, config.go, redis.go, types.go, global.go) and properties of its
lock, its cache and its queue.

Conventions of the embedding.

* Time.  `time.Now()` is an instant in nanoseconds since the epoch, a `Nat`.
  A `time.Duration` is a signed number of nanoseconds.  One call of an
  operation reads the clock at one instant `now`, an argument of the call.
* Store.  The Redis server is not part of the package.  It is modelled by the
  documented behaviour of the commands the package sends: `SET NX PX` (which
  rejects a non-positive `PX`), `GET`, `DEL`, `PEXPIRE`, the hash, sorted-set
  and list commands, and `BLPOP`.  A key is used at one Redis type only, so
  the store keeps one map per type.  A string key carries an optional absolute
  deadline; it is present at the instants strictly before its deadline.
  Scores are whole numbers: the package writes epoch milliseconds only.
  A Lua script is one command.
* Failures.  A `World` is a store together with a schedule of command
  failures.  Each command sent consumes one entry of the schedule.  A failure
  is a command that did not reach the server: it has no effect and the
  connection reports a transport error.  A command that the server ran and
  whose reply was lost is not in the schedule, and nothing is stated here
  about it.  `World.up db` is the store `db` with an empty schedule: every
  command is answered.
* Values.  A `Cache[T]` or `Queue[T]` carries the serializer of its client at
  the type `T` and a flag that tells whether `T` is an interface type; the
  zero value of `T` is `default`.  Bytes are strings.
* Endings.  `Cache.Get` and `Queue.Take` can end without returning: a
  blocking pop without limit never returns, and `reflect.New` panics on the
  nil type of an interface type.  Their result is an `Ending`.
* Floating point.  A finite binary64 number is a whole number of units of
  2^-1074; `Duration.Seconds` is computed with the rounding of binary64.
* Methods that change the receiver return the new receiver.  The random draw
  of `Cache.Set` and the fresh token of `NewLock` are arguments.
-/

namespace RedisTool

/-! ## Time -/

/-- Go `time.Duration`: a signed count of nanoseconds. -/
abbrev Duration := Int

/-- An instant returned by `time.Now()`: nanoseconds since the epoch. -/
abbrev Time := Nat

/-- The constant `time.Millisecond`. -/
def Millisecond : Duration := 1000000

/-- The constant `time.Second`. -/
def Second : Duration := 1000000000

/-- The constant `time.Minute`. -/
def Minute : Duration := 60000000000

/-- Go `Duration.Milliseconds`: integer division by 10^6, truncated toward zero. -/
def Duration.Milliseconds (d : Duration) : Int := Int.tdiv d 1000000

/-- The whole number nearest to `a / b`; of two nearest ones, the even one. -/
def roundHalfEven (a b : Nat) : Nat :=
  if 2 * (a % b) < b then a / b
  else if b < 2 * (a % b) then a / b + 1
  else if (a / b) % 2 = 0 then a / b
  else a / b + 1

/-- The number of units in 1, that is 2^1074. One unit is 2^-1074, the least
positive binary64 number; the magnitude of every finite binary64 number is a
whole number of units. -/
def float64Unit : Nat := (2 ^ 179) ^ 6

/-- Rounding to binary64 (to nearest, ties to the even mantissa) of the
magnitude `p / q` units: while the quotient has more than 53 bits the unit is
doubled, then the quotient is rounded to a whole number. The first argument
bounds the number of doublings. -/
def float64Round : Nat → Nat → Nat → Nat
  | 0, p, q => roundHalfEven p q
  | fuel + 1, p, q =>
    if p / q < 2 ^ 53 then roundHalfEven p q else 2 * float64Round fuel p (2 * q)

/-- The binary64 number nearest to `p / q` units, in units. Every finite
binary64 magnitude is below 2^2098 units, so 2046 doublings are enough;
overflow to infinity does not occur on the magnitudes met here. -/
def float64 (p q : Nat) : Nat := float64Round 2046 p q

/-- The magnitude, in units, of Go `Duration.Seconds` of a duration of `n`
nanoseconds in absolute value: `float64(sec) + float64(nsec)/1e9` with
`sec = d / Second` and `nsec = d % Second`, each conversion, the quotient and
the sum rounded to binary64. -/
def secondsMagnitude (n : Nat) : Nat :=
  float64 (float64 (n / 1000000000 * float64Unit) 1 +
    float64 (float64 (n % 1000000000 * float64Unit) 1) 1000000000) 1

/-- Go `Duration.Seconds`, a binary64 number given as a signed number of
units. The integer division and remainder of Go are truncated toward zero and
the rounding of binary64 is symmetric about zero, so the result has the sign
of `d` and the magnitude computed from the magnitude of `d`. -/
def Duration.Seconds (d : Duration) : Int := Int.sign d * Int.ofNat (secondsMagnitude d.natAbs)

/-- Go `int(x)` of a binary64 number given in units: the fraction is dropped. -/
def float64ToInt (x : Int) : Int := Int.tdiv x float64Unit

/-- Go `Time.UnixMilli` of the instant `t` (nanoseconds): the floor of `t / 10^6`. -/
def UnixMilli (t : Int) : Int := t / 1000000

/-- Go `time.UnixMilli(ms)` as an instant in nanoseconds. -/
def fromUnixMilli (ms : Int) : Int := ms * 1000000

/-! ## Errors -/

/-- The error values the package returns.  Each `fmt.Errorf` site is one
constructor; `store` is an error handed back by the connection. -/
inductive Error where
  | store (msg : String)
  | lockTimeout (max : Duration)
  | lockFailed
  | unlockNotHeld
  | lockNotHeld
  | refreshNotHeld
  | queueFull (max : Int)
  | serializer (msg : String)
  deriving DecidableEq

/-- Results are compared by comparing the error or the value. -/
instance Except.decEq {ε α : Type} [DecidableEq ε] [DecidableEq α] :
    DecidableEq (Except ε α)
  | .ok a, .ok b => if h : a = b then isTrue (by rw [h]) else isFalse (fun e => h (by cases e; rfl))
  | .error a, .error b =>
    if h : a = b then isTrue (by rw [h]) else isFalse (fun e => h (by cases e; rfl))
  | .ok _, .error _ => isFalse (fun e => by cases e)
  | .error _, .ok _ => isFalse (fun e => by cases e)

/-- The three errors whose message says that the lock is not held. -/
def Error.isLockNotHeld : Error → Bool
  | .unlockNotHeld => true
  | .lockNotHeld => true
  | .refreshNotHeld => true
  | _ => false

/-! ## The store -/

/-- A string key: its value and, when it was written with a lease, the
instant (nanoseconds) at which the lease ends. -/
structure StrEntry where
  val : String
  deadline : Option Int
  deriving DecidableEq

/-- A string entry is present at the instants strictly before its deadline. -/
def StrEntry.live (e : StrEntry) (now : Time) : Bool :=
  match e.deadline with
  | none => true
  | some d => decide ((now : Int) < d)

/-- The contents of the Redis server, one map per Redis type. A hash is a list
of field/value pairs, a sorted set a list of member/score pairs (each field or
member at most once), a list is a list of values from head to tail. -/
structure Store where
  strs : String → Option StrEntry
  hashes : String → List (String × String)
  zsets : String → List (String × Int)
  lists : String → List String

/-- The empty server. -/
def Store.empty : Store :=
  { strs := fun _ => none, hashes := fun _ => [], zsets := fun _ => [], lists := fun _ => [] }

/-- A store with a schedule of command failures: `true` makes the next command
fail before it reaches the server. -/
structure World where
  db : Store
  faults : List Bool

/-- The store `db` on a connection that answers every command. -/
def World.up (db : Store) : World := { db := db, faults := [] }

/-- Send one command (or one script, which the server runs indivisibly). A
command that fails did not reach the server and leaves the store as it was; a
reply lost after the server ran the command is not modelled. -/
def World.exec {α : Type} (w : World) (cmd : Store → Except Error α × Store) :
    Except Error α × World :=
  match w.faults with
  | true :: rest => (.error (.store "connection failure"), { db := w.db, faults := rest })
  | false :: rest => ((cmd w.db).1, { db := (cmd w.db).2, faults := rest })
  | [] => ((cmd w.db).1, { db := (cmd w.db).2, faults := [] })

/-! ### Association lists (hash fields, sorted-set members) -/

/-- Look a key up. -/
def kvGet {β : Type} (k : String) : List (String × β) → Option β
  | [] => none
  | (k1, v) :: t => if k1 = k then some v else kvGet k t

/-- Remove every key of `ks`. -/
def kvDel {β : Type} (ks : List String) (l : List (String × β)) : List (String × β) :=
  l.filter (fun p => decide (p.1 ∉ ks))

/-- Insert or replace the binding of `k`; a new key goes to the end. -/
def kvPut {β : Type} (k : String) (v : β) : List (String × β) → List (String × β)
  | [] => [(k, v)]
  | (k1, v1) :: t => if k1 = k then (k, v) :: t else (k1, v1) :: kvPut k v t

/-! ### String commands -/

/-- The value `GET key` returns at instant `now`. -/
def Store.GET (s : Store) (key : String) (now : Time) : Option String :=
  match s.strs key with
  | some e => if e.live now then some e.val else none
  | none => none

/-- Whether the key exists (at any type) at instant `now`. -/
def Store.EXISTS (s : Store) (key : String) (now : Time) : Bool :=
  (s.GET key now).isSome || !(s.hashes key).isEmpty || !(s.zsets key).isEmpty
    || !(s.lists key).isEmpty

/-- Remove one key, whatever its type. -/
def Store.remove (s : Store) (key : String) : Store :=
  { strs := Function.update s.strs key none
    hashes := Function.update s.hashes key []
    zsets := Function.update s.zsets key []
    lists := Function.update s.lists key [] }

/-- `SET key val NX PX ms`: Redis rejects a non-positive `PX` argument with an
error; otherwise the key is written, with a lease of `ms` milliseconds, when it
does not exist. The reply is `true` for `OK` and `false` for the nil reply. -/
def cmdSetNXPX (key val : String) (ms : Int) (now : Time) (s : Store) :
    Except Error Bool × Store :=
  if ms ≤ 0 then (.error (.store "ERR invalid expire time in set command"), s)
  else if s.EXISTS key now then (.ok false, s)
  else (.ok true,
    { s with strs := (Function.update s.strs key
        (some { val := val, deadline := some ((now : Int) + ms * 1000000) })) })

/-- `DEL key ...`: the reply is the number of keys that existed. -/
def cmdDEL (keys : List String) (now : Time) (s : Store) : Except Error Int × Store :=
  (.ok ((keys.filter (fun k => s.EXISTS k now)).length : Int), keys.foldl Store.remove s)

/-- `PEXPIRE key ms` on a string key: reply 0 when the key does not exist;
a non-positive `ms` deletes the key; otherwise the lease is reset to `ms`
milliseconds from now. -/
def cmdPEXPIRE (key : String) (ms : Int) (now : Time) (s : Store) : Except Error Int × Store :=
  match s.GET key now with
  | none => (.ok 0, s)
  | some v =>
    if ms ≤ 0 then (.ok 1, s.remove key)
    else (.ok 1,
      { s with strs := (Function.update s.strs key
          (some { val := v, deadline := some ((now : Int) + ms * 1000000) })) })

/-! ### Hash commands -/

/-- `HSET key field val`; the reply is the number of fields added. -/
def cmdHSET (key field val : String) (s : Store) : Except Error Int × Store :=
  (.ok (if (kvGet field (s.hashes key)).isSome then 0 else 1),
    { s with hashes := (Function.update s.hashes key (kvPut field val (s.hashes key))) })

/-- `HGET key field`; `none` is the nil reply. -/
def cmdHGET (key field : String) (s : Store) : Except Error (Option String) × Store :=
  (.ok (kvGet field (s.hashes key)), s)

/-- `HDEL key field ...`; the reply is the number of fields removed. -/
def cmdHDEL (key : String) (fields : List String) (s : Store) : Except Error Int × Store :=
  (.ok (((s.hashes key).length - (kvDel fields (s.hashes key)).length : Nat) : Int),
    { s with hashes := (Function.update s.hashes key (kvDel fields (s.hashes key))) })

/-- `HEXISTS key field`. -/
def cmdHEXISTS (key field : String) (s : Store) : Except Error Int × Store :=
  (.ok (if (kvGet field (s.hashes key)).isSome then 1 else 0), s)

/-- `HLEN key`. -/
def cmdHLEN (key : String) (s : Store) : Except Error Int × Store :=
  (.ok ((s.hashes key).length : Int), s)

/-- `HKEYS key`. -/
def cmdHKEYS (key : String) (s : Store) : Except Error (List String) × Store :=
  (.ok ((s.hashes key).map Prod.fst), s)

/-! ### Sorted-set commands -/

/-- The order of a sorted set: by score, members of equal score by their bytes. -/
def zsetLe (a b : String × Int) : Prop :=
  a.2 < b.2 ∨ (a.2 = b.2 ∧ a.1.data ≤ b.1.data)

instance zsetLe.decidable : DecidableRel zsetLe := fun a b => by
  unfold zsetLe; infer_instance

/-- The members whose score lies in `[lo, hi]`, in the order of the set. -/
def zrangeByScore (lo hi : Int) (z : List (String × Int)) : List String :=
  ((z.filter (fun p => decide (lo ≤ p.2 ∧ p.2 ≤ hi))).insertionSort zsetLe).map Prod.fst

/-- `ZADD key score member`; the reply is the number of members added. -/
def cmdZADD (key : String) (score : Int) (member : String) (s : Store) :
    Except Error Int × Store :=
  (.ok (if (kvGet member (s.zsets key)).isSome then 0 else 1),
    { s with zsets := (Function.update s.zsets key (kvPut member score (s.zsets key))) })

/-- `ZSCORE key member`; `none` is the nil reply. -/
def cmdZSCORE (key member : String) (s : Store) : Except Error (Option Int) × Store :=
  (.ok (kvGet member (s.zsets key)), s)

/-- `ZREM key member ...`; the reply is the number of members removed. -/
def cmdZREM (key : String) (members : List String) (s : Store) : Except Error Int × Store :=
  (.ok (((s.zsets key).length - (kvDel members (s.zsets key)).length : Nat) : Int),
    { s with zsets := (Function.update s.zsets key (kvDel members (s.zsets key))) })

/-- `ZRANGEBYSCORE key lo hi`. -/
def cmdZRANGEBYSCORE (key : String) (lo hi : Int) (s : Store) :
    Except Error (List String) × Store :=
  (.ok (zrangeByScore lo hi (s.zsets key)), s)

/-- `ZCARD key`. -/
def cmdZCARD (key : String) (s : Store) : Except Error Int × Store :=
  (.ok ((s.zsets key).length : Int), s)

/-! ### List commands -/

/-- `LLEN key`. -/
def cmdLLEN (key : String) (s : Store) : Except Error Int × Store :=
  (.ok ((s.lists key).length : Int), s)

/-- `RPUSH key val`; the reply is the new length. -/
def cmdRPUSH (key val : String) (s : Store) : Except Error Int × Store :=
  (.ok (((s.lists key).length + 1 : Nat) : Int),
    { s with lists := (Function.update s.lists key (s.lists key ++ [val])) })

/-- `LPOP key`; `none` is the nil reply of an empty list. -/
def cmdLPOP (key : String) (s : Store) : Except Error (Option String) × Store :=
  match s.lists key with
  | [] => (.ok none, s)
  | x :: rest => (.ok (some x), { s with lists := (Function.update s.lists key rest) })

/-- What a blocking pop gives its caller when nothing else writes to the list. -/
inductive BlockingReply where
  | value (key val : String)
  | timedOut
  | blocksForever
  deriving DecidableEq

/-- `BLPOP key timeout` (seconds) with no concurrent producer: a non-empty list
is popped at once; on an empty list a positive timeout ends with the nil reply,
the timeout 0 blocks without limit, a negative timeout is an error. -/
def cmdBLPOP (key : String) (timeout : Int) (s : Store) : Except Error BlockingReply × Store :=
  if timeout < 0 then (.error (.store "ERR timeout is negative"), s)
  else
    match s.lists key with
    | x :: rest => (.ok (.value key x), { s with lists := (Function.update s.lists key rest) })
    | [] => if timeout = 0 then (.ok .blocksForever, s) else (.ok .timedOut, s)

/-! ## config.go, types.go, redis.go -/

/-- The enumeration `RedisType`. -/
inductive RedisType where
  | String_ | List_ | Set_ | ZSet_ | Hash_ | Queue_ | Cache_ | Lock_ | SafeTypeMap_
  deriving DecidableEq

/-- `RedisType.String()`. -/
def RedisType.name : RedisType → String
  | .String_ => "string"
  | .List_ => "list"
  | .Set_ => "set"
  | .ZSet_ => "zset"
  | .Hash_ => "hash"
  | .Queue_ => "queue"
  | .Cache_ => "cache"
  | .Lock_ => "lock"
  | .SafeTypeMap_ => "safetypemap"

/-- `Config`, the fields that name keys. The name creator is handed the
configuration in Go and reads its `Prefix`; here it is handed the `Prefix`. -/
structure Config where
  Prefix : String
  NameCreator : String → RedisType → List String → String
  SafeTypeMapName : String

/-- `DefaultNameCreator`. -/
def DefaultNameCreator ( Prefix : String) (types : RedisType) (name : List String) : String :=
  if name.length = 0 then Prefix ++ types.name
  else Prefix ++ types.name ++ ":" ++ String.intercalate ":" name

/-- `DefaultConfig`. -/
def DefaultConfig : Config :=
  { Prefix := "", NameCreator := DefaultNameCreator, SafeTypeMapName := "__SafeTypeMap__" }

/-- The client `Redis`; the connection pool is the `World` the operations thread. -/
structure Redis where
  config : Config

/-- `Redis.CreateName`. -/
def Redis.CreateName (r : Redis) (redisType : RedisType) (name : List String) : String :=
  r.config.NameCreator r.config.Prefix redisType name

/-- `LockConfig`. -/
structure LockConfig where
  WaitTime : Duration
  RetryTime : Duration
  MaxGetLockWaitTime : Duration
  deriving DecidableEq

/-! ## lock.go -/

/-- The struct `Lock`. -/
structure Lock where
  redis : Redis
  name : String
  token : String
  config : LockConfig
  locked : Bool

/-- `Redis.NewLock`; the fresh UUID is the argument `token`. -/
def Redis.NewLock (r : Redis) (name : String) (config : List LockConfig) (token : String) : Lock :=
  let cfg : LockConfig :=
    { WaitTime := 5 * Second, RetryTime := Second, MaxGetLockWaitTime := 30 * Second }
  let cfg : LockConfig :=
    match config with
    | [] => cfg
    | c0 :: _ =>
      { WaitTime := if c0.WaitTime > 0 then c0.WaitTime else cfg.WaitTime
        RetryTime := if c0.RetryTime > 0 then c0.RetryTime else cfg.RetryTime
        MaxGetLockWaitTime :=
          if c0.MaxGetLockWaitTime ≥ 0 then c0.MaxGetLockWaitTime else cfg.MaxGetLockWaitTime }
  { redis := r, name := r.CreateName .Lock_ [name], token := token, config := cfg, locked := false }

/-- `Lock.tryAcquire`: one `SET name token NX PX ms`. -/
def Lock.tryAcquire (l : Lock) (now : Time) (w : World) : Bool × World :=
  match w.exec (cmdSetNXPX l.name l.token (Duration.Milliseconds l.config.WaitTime) now) with
  | (.ok true, w1) => (true, w1)
  | (_, w1) => (false, w1)

/-- `Lock.TryLock`. -/
def Lock.TryLock (l : Lock) (now : Time) (w : World) : Bool × Lock × World :=
  match l.tryAcquire now w with
  | (true, w1) => (true, { l with locked := true }, w1)
  | (false, w1) => (false, l, w1)

/-- The method `Lock` of `Lock` (named `lockLoop` here, `Lock.Lock` being the
type). The loop makes its attempts at the instants `startTime`,
`startTime + RetryTime`, and so on; `now` is the instant of the current turn and
`fuel` bounds the number of turns (`none`: the bound was reached). -/
def Lock.lockLoop (l : Lock) (startTime : Time) : Nat → Time → World →
    Option (Option Error × Lock × World)
  | 0, _, _ => none
  | fuel + 1, now, w =>
    match l.tryAcquire now w with
    | (true, w1) => some (none, { l with locked := true }, w1)
    | (false, w1) =>
      if l.config.MaxGetLockWaitTime > 0 ∧
          (now : Int) - (startTime : Int) ≥ l.config.MaxGetLockWaitTime then
        some (some (.lockTimeout l.config.MaxGetLockWaitTime), l, w1)
      else if l.config.MaxGetLockWaitTime = 0 then some (some .lockFailed, l, w1)
      else Lock.lockLoop l startTime fuel (now + (l.config.RetryTime).toNat) w1

/-- The Lua script of `Unlock`: delete the key when it holds `token`. -/
def unlockScript (key token : String) (now : Time) (s : Store) : Except Error Int × Store :=
  if s.GET key now = some token then cmdDEL [key] now s else (.ok 0, s)

/-- `Lock.Unlock`. -/
def Lock.Unlock (l : Lock) (now : Time) (w : World) : Option Error × Lock × World :=
  if !l.locked then (none, l, w)
  else
    match w.exec (unlockScript l.name l.token now) with
    | (.error err, w1) => (some err, l, w1)
    | (.ok result, w1) =>
      if result = 1 then (none, { l with locked := false }, w1)
      else (some .unlockNotHeld, l, w1)

/-- The Lua script of `Refresh`: reset the lease when the key holds `token`. -/
def refreshScript (key token : String) (ms : Int) (now : Time) (s : Store) :
    Except Error Int × Store :=
  if s.GET key now = some token then cmdPEXPIRE key ms now s else (.ok 0, s)

/-- `Lock.Refresh`. -/
def Lock.Refresh (l : Lock) (now : Time) (w : World) : Option Error × Lock × World :=
  if !l.locked then (some .lockNotHeld, l, w)
  else
    match w.exec (refreshScript l.name l.token (Duration.Milliseconds l.config.WaitTime) now) with
    | (.error err, w1) => (some err, l, w1)
    | (.ok result, w1) =>
      if result = 0 then (some .refreshNotHeld, { l with locked := false }, w1)
      else (none, l, w1)

/-- `Lock.IsLocked`. -/
def Lock.IsLocked (l : Lock) : Bool := l.locked

/-- What a closure passed to `LockFunc` or `TryLockFunc` has done when it ends:
whether it ended by a panic, the instant at which it ended, the held flag then
(the closure may call the methods of the lock), and the store then. -/
structure FnOutcome where
  panicked : Bool
  time : Time
  locked : Bool
  world : World

/-- The outcome of a call that may run a closure: the value returned (`none`
when the panic of the closure leaves the call), whether the closure ran, and
the lock and the store afterwards. -/
structure FuncResult (α : Type) where
  ret : Option α
  ran : Bool
  lock : Lock
  world : World

/-- `Lock.TryLockFunc`; the closure is given the store and tells its outcome.
The deferred `Unlock` runs when the closure ends, also by a panic, and its
error is dropped. -/
def Lock.TryLockFunc (l : Lock) (fn : World → FnOutcome) (now : Time) (w : World) :
    FuncResult Bool :=
  match l.TryLock now w with
  | (false, l1, w1) => { ret := some false, ran := false, lock := l1, world := w1 }
  | (true, l1, w1) =>
    { ret := if (fn w1).panicked then none else some true
      ran := true
      lock := (({ l1 with locked := (fn w1).locked } : Lock).Unlock (fn w1).time (fn w1).world).2.1
      world := (({ l1 with locked := (fn w1).locked } : Lock).Unlock (fn w1).time
        (fn w1).world).2.2 }

/-- `Lock.LockFunc`, with the bound `fuel` on the turns of the loop of `Lock`
(`none`: the bound was reached). -/
def Lock.LockFunc (l : Lock) (fn : World → FnOutcome) (fuel : Nat) (now : Time) (w : World) :
    Option (FuncResult (Option Error)) :=
  match l.lockLoop now fuel now w with
  | none => none
  | some (some err, l1, w1) => some { ret := some (some err), ran := false, lock := l1, world := w1 }
  | some (none, l1, w1) =>
    some
      { ret := if (fn w1).panicked then none else some none
        ran := true
        lock := (({ l1 with locked := (fn w1).locked } : Lock).Unlock (fn w1).time
          (fn w1).world).2.1
        world := (({ l1 with locked := (fn w1).locked } : Lock).Unlock (fn w1).time
          (fn w1).world).2.2 }

/-! ## helper.go -/

/-- Read a run of decimal digits. -/
def parseDigits : List Char → Nat → Option Nat
  | [], acc => some acc
  | c :: cs, acc =>
    if c.isDigit then parseDigits cs (acc * 10 + (c.toNat - 48)) else none

/-- The reply conversion `redis.Int64` on a bulk string: an optional sign and
decimal digits, within the range of `int64`. -/
def parseInt64 (b : String) : Option Int :=
  let signed : Option Int :=
    match b.data with
    | [] => none
    | '-' :: cs => if cs = [] then none else (parseDigits cs 0).map (fun n => - (n : Int))
    | '+' :: cs => if cs = [] then none else (parseDigits cs 0).map (fun n => (n : Int))
    | cs => (parseDigits cs 0).map (fun n => (n : Int))
  match signed with
  | some n => if -9223372036854775808 ≤ n ∧ n ≤ 9223372036854775807 then some n else none
  | none => none

/-- An `int64` command argument as the client writes it: decimal digits. -/
def formatInt64 (n : Int) : String := toString n

/-- The Lua script of `LastUseTime`: read the old marker, write the new one. -/
def lastUseScript (mapName key : String) (nowMs : Int) (s : Store) :
    Except Error (Option String) × Store :=
  (.ok (kvGet key (s.hashes mapName)), (cmdHSET mapName key (formatInt64 nowMs) s).2)

/-- The key of the hash of time markers. -/
def Redis.safeTypeMapName (r : Redis) : String :=
  r.CreateName .SafeTypeMap_ [r.config.SafeTypeMapName]

/-- `Redis.LastUseTime`; the result is the marker in epoch milliseconds, `none`
for the zero `time.Time`. -/
def Redis.LastUseTime (r : Redis) (key : String) (update : Bool) (now : Time) (w : World) :
    Option Int × World :=
  if update then
    match w.exec (lastUseScript r.safeTypeMapName key (UnixMilli now)) with
    | (.ok (some result), w1) =>
      (match parseInt64 result with
        | some lastTimeMs => if lastTimeMs > 0 then some lastTimeMs else none
        | none => none, w1)
    | (_, w1) => (none, w1)
  else
    match w.exec (cmdHGET r.safeTypeMapName key) with
    | (.ok (some reply), w1) =>
      (match parseInt64 reply with
        | some lastTimeMs => if lastTimeMs > 0 then some lastTimeMs else none
        | none => none, w1)
    | (_, w1) => (none, w1)

/-- `Redis.AcrossTime`; the result `none` is the run-time failure of an integer
division by zero. -/
def Redis.AcrossTime (r : Redis) (key : String) (duration : Duration) (now : Time) (w : World) :
    Option Bool × World :=
  match r.LastUseTime key false now w with
  | (none, w1) => (some true, (r.LastUseTime key true now w1).2)
  | (some lastTime, w1) =>
    if Duration.Milliseconds duration = 0 then (none, w1)
    else
      let lastInterval := Int.tdiv lastTime (Duration.Milliseconds duration)
      let nowInterval := Int.tdiv (UnixMilli now) (Duration.Milliseconds duration)
      if nowInterval > lastInterval then (some true, (r.LastUseTime key true now w1).2)
      else (some false, w1)

/-- `Redis.AcrossMinute`. The divisor is 60000, so the division cannot fail;
the unreachable case is mapped to `false`. -/
def Redis.AcrossMinute (r : Redis) (key : String) (now : Time) (w : World) : Bool × World :=
  match r.AcrossTime key Minute now w with
  | (some b, w1) => (b, w1)
  | (none, w1) => (false, w1)

/-! ## serializer interface, cache.go -/

/-- The interface `SerializerFunc` at the element type `T`. `Deserialize data v`
is the value the target holds afterwards when it held `v` before. -/
structure SerializerFunc (T : Type) where
  Serialize : T → Except Error String
  Deserialize : String → T → Except Error T

/-- How a call of `Get` or `Take` ends: it returns its results, it never
returns (a blocking pop without limit on a list that stays empty), or it
panics. -/
inductive Ending (α : Type) where
  | returns (a : α)
  | blocks
  | panics
  deriving DecidableEq

/-- `CacheConfig`. -/
structure CacheConfig where
  DefaultExpire : Duration
  deriving DecidableEq

/-- The struct `Cache[T]`; `ser` is the serializer of the client, and
`elemIsInterface` tells whether the type argument `T` is an interface type
(such as `any`), whose zero value is the nil interface. -/
structure Cache (T : Type) where
  redis : Redis
  ser : SerializerFunc T
  elemIsInterface : Bool
  dataName : String
  expireName : String
  config : CacheConfig

/-- `NewCache`; the serializer and the kind of the type argument are given. -/
def NewCache {T : Type} (name : String) (config : CacheConfig) (r : Redis)
    (ser : SerializerFunc T) (elemIsInterface : Bool) : Cache T :=
  let baseName := r.CreateName .Cache_ [name]
  { redis := r, ser := ser, elemIsInterface := elemIsInterface,
    dataName := baseName ++ ":data", expireName := baseName ++ ":expire", config := config }

/-- `Cache.Delete`. -/
def Cache.Delete {T : Type} (c : Cache T) (keys : List String) (w : World) :
    Option Error × World :=
  if keys.length = 0 then (none, w)
  else
    match w.exec (cmdHDEL c.dataName keys) with
    | (.error err, w1) => (some err, w1)
    | (.ok _, w1) =>
      match w1.exec (cmdZREM c.expireName keys) with
      | (.error err, w2) => (some err, w2)
      | (.ok _, w2) => (none, w2)

/-- `Cache.ClearExpired`. -/
def Cache.ClearExpired {T : Type} (c : Cache T) (now : Time) (w : World) :
    Option Error × World :=
  match w.exec (cmdZRANGEBYSCORE c.expireName 0 (UnixMilli now)) with
  | (.error err, w1) => (some err, w1)
  | (.ok keys, w1) => if keys.length > 0 then c.Delete keys w1 else (none, w1)

/-- The last block of `Cache.Set`: when the random draw `roll` (the value of
`rand.Intn(10)`) is 0 and a minute boundary was crossed, a background
`ClearExpired` is started. The flag tells whether it was started. -/
def Cache.setCleanup {T : Type} (c : Cache T) (now : Time) (roll : Nat) (w : World) :
    Option Error × Bool × World :=
  if roll = 0 then
    match c.redis.AcrossMinute (c.dataName ++ ":cleanup") now w with
    | (true, w1) => (none, true, w1)
    | (false, w1) => (none, false, w1)
  else (none, false, w)

/-- `Cache.Set`. -/
def Cache.Set {T : Type} (c : Cache T) (key : String) (value : T) (expire : Duration)
    (now : Time) (roll : Nat) (w : World) : Option Error × Bool × World :=
  match c.ser.Serialize value with
  | .error err => (some err, false, w)
  | .ok data =>
    match w.exec (cmdHSET c.dataName key data) with
    | (.error err, w1) => (some err, false, w1)
    | (.ok _, w1) =>
      if expire > 0 then
        match w1.exec (cmdZADD c.expireName (UnixMilli ((now : Int) + expire)) key) with
        | (.error err, w2) => (some err, false, w2)
        | (.ok _, w2) => c.setCleanup now roll w2
      else if c.config.DefaultExpire > 0 then
        match w1.exec
          (cmdZADD c.expireName (UnixMilli ((now : Int) + c.config.DefaultExpire)) key) with
        | (.error err, w2) => (some err, false, w2)
        | (.ok _, w2) => c.setCleanup now roll w2
      else c.setCleanup now roll w1

/-- `Cache.isExpired`. -/
def Cache.isExpired {T : Type} (c : Cache T) (key : String) (now : Time) (w : World) :
    Bool × World :=
  match w.exec (cmdZSCORE c.expireName key) with
  | (.ok (some score), w1) => (decide (fromUnixMilli score < (now : Int)), w1)
  | (_, w1) => (false, w1)

/-- `Cache.Get`. The target of the decoding is
`reflect.New(reflect.TypeOf(zero))`: for an interface type `T` the type of the
zero value is nil and `reflect.New` panics. -/
def Cache.Get {T : Type} [Inhabited T] (c : Cache T) (key : String) (now : Time) (w : World) :
    Ending (T × Bool) × World :=
  match c.isExpired key now w with
  | (true, w1) => (.returns (default, false), (c.Delete [key] w1).2)
  | (false, w1) =>
    match w1.exec (cmdHGET c.dataName key) with
    | (.ok (some data), w2) =>
      if data.length = 0 then (.returns (default, false), w2)
      else if c.elemIsInterface = true then (.panics, w2)
      else
        match c.ser.Deserialize data default with
        | .error _ => (.returns (default, false), w2)
        | .ok v => (.returns (v, true), w2)
    | (_, w2) => (.returns (default, false), w2)

/-- `Cache.Exists`. -/
def Cache.Exists {T : Type} (c : Cache T) (key : String) (now : Time) (w : World) :
    Bool × World :=
  match c.isExpired key now w with
  | (true, w1) => (false, (c.Delete [key] w1).2)
  | (false, w1) =>
    match w1.exec (cmdHEXISTS c.dataName key) with
    | (.ok n, w2) => (decide (n = 1), w2)
    | (.error _, w2) => (false, w2)

/-- `Cache.Clear`. -/
def Cache.Clear {T : Type} (c : Cache T) (now : Time) (w : World) : Option Error × World :=
  match w.exec (cmdDEL [c.dataName, c.expireName] now) with
  | (.error err, w1) => (some err, w1)
  | (.ok _, w1) => (none, w1)

/-- `Cache.Length`; the error of the sweep is dropped. -/
def Cache.Length {T : Type} (c : Cache T) (now : Time) (w : World) : Int × World :=
  match (c.ClearExpired now w).2.exec (cmdHLEN c.dataName) with
  | (.ok length, w1) => (length, w1)
  | (.error _, w1) => (0, w1)

/-- `Cache.Keys`; the error of the sweep is dropped. -/
def Cache.Keys {T : Type} (c : Cache T) (now : Time) (w : World) :
    Except Error (List String) × World :=
  match (c.ClearExpired now w).2.exec (cmdHKEYS c.dataName) with
  | (.ok keys, w1) => (.ok keys, w1)
  | (.error err, w1) => (.error err, w1)

/-- `Cache.GetTTL`. -/
def Cache.GetTTL {T : Type} (c : Cache T) (key : String) (now : Time) (w : World) :
    (Duration × Bool) × World :=
  match w.exec (cmdZSCORE c.expireName key) with
  | (.ok (some score), w1) =>
    if fromUnixMilli score - (now : Int) ≤ 0 then ((0, false), w1)
    else ((fromUnixMilli score - (now : Int), true), w1)
  | (_, w1) => ((0, false), w1)

/-- `Cache.SetTTL`. -/
def Cache.SetTTL {T : Type} (c : Cache T) (key : String) (expire : Duration) (now : Time)
    (w : World) : Option Error × World :=
  match c.Exists key now w with
  | (false, w1) => (none, w1)
  | (true, w1) =>
    match w1.exec (cmdZADD c.expireName (UnixMilli ((now : Int) + expire)) key) with
    | (.error err, w2) => (some err, w2)
    | (.ok _, w2) => (none, w2)

/-! ## queue.go -/

/-- `QueueConfig`. The error handler is given the value and the error; its
result is the delay it returns together with the arguments of its calls of the
storage callback, in order (`none` for an argument that is not a `T`). -/
structure QueueConfig (T : Type) where
  MaxLength : Int
  MaxWaitTime : Duration
  MaxRetry : Int
  ErrorHandler : Option (T → Error → Duration × List (Option T))

/-- The struct `Queue[T]`; `ser` is the serializer of the client, and
`elemIsInterface` tells whether the type argument `T` is an interface type. -/
structure Queue (T : Type) where
  redis : Redis
  ser : SerializerFunc T
  elemIsInterface : Bool
  name : String
  delayedName : String
  processingName : String
  retryName : String
  config : QueueConfig T

/-- `NewQueue`; the serializer and the kind of the type argument are given. -/
def NewQueue {T : Type} (name : String) (config : QueueConfig T) (r : Redis)
    (ser : SerializerFunc T) (elemIsInterface : Bool) : Queue T :=
  let baseName := r.CreateName .Queue_ [name]
  { redis := r, ser := ser, elemIsInterface := elemIsInterface, name := baseName,
    delayedName := baseName ++ ":delayed",
    processingName := baseName ++ ":processing", retryName := baseName ++ ":retry",
    config := config }

/-- The second half of `Queue.Add`: encode the value and push it at the tail. -/
def Queue.addPush {T : Type} (q : Queue T) (value : T) (w : World) : Option Error × World :=
  match q.ser.Serialize value with
  | .error err => (some err, w)
  | .ok data =>
    match w.exec (cmdRPUSH q.name data) with
    | (.error err, w1) => (some err, w1)
    | (.ok _, w1) => (none, w1)

/-- `Queue.Add`. -/
def Queue.Add {T : Type} (q : Queue T) (value : T) (w : World) : Option Error × World :=
  if q.config.MaxLength > 0 then
    match w.exec (cmdLLEN q.name) with
    | (.error err, w1) => (some err, w1)
    | (.ok length, w1) =>
      if length ≥ q.config.MaxLength then (some (.queueFull q.config.MaxLength), w1)
      else q.addPush value w1
  else q.addPush value w

/-- `Queue.AddDelayed`. -/
def Queue.AddDelayed {T : Type} (q : Queue T) (value : T) (delay : Duration) (now : Time)
    (w : World) : Option Error × World :=
  match q.ser.Serialize value with
  | .error err => (some err, w)
  | .ok data =>
    match w.exec (cmdZADD q.delayedName (UnixMilli ((now : Int) + delay)) data) with
    | (.error err, w1) => (some err, w1)
    | (.ok _, w1) => (none, w1)

/-- One turn of the loop of the script of `processDelayedTasks`. -/
def moveItem (delayed ready : String) (s : Store) (item : String) : Store :=
  (cmdRPUSH ready item (cmdZREM delayed [item] s).2).2

/-- The Lua script of `processDelayedTasks`: every member of the delayed set
with a score in `[0, now]` is removed from it and pushed at the tail of the
ready list. -/
def moveDelayedScript (delayed ready : String) (nowMs : Int) (s : Store) :
    Except Error Int × Store :=
  let items := zrangeByScore 0 nowMs (s.zsets delayed)
  (.ok (items.length : Int), items.foldl (moveItem delayed ready) s)

/-- `Queue.processDelayedTasks`; the reply and the error of the script are dropped. -/
def Queue.processDelayedTasks {T : Type} (q : Queue T) (now : Time) (w : World) : World :=
  (w.exec (moveDelayedScript q.delayedName q.name (UnixMilli now))).2

/-- The second half of `Queue.Take`: decode the popped item and, with retry
tracking, record it in the processing set. The target of the decoding is
`reflect.New(reflect.TypeOf(zero))`: for an interface type `T` the type of the
zero value is nil and `reflect.New` panics. -/
def Queue.takeDecode {T : Type} [Inhabited T] (q : Queue T) (data : String) (now : Time)
    (w : World) : Ending (T × Bool) × World :=
  if q.elemIsInterface = true then (.panics, w)
  else
    match q.ser.Deserialize data default with
    | .error _ => (.returns (default, false), w)
    | .ok value =>
      if q.config.MaxRetry > 0 then
        (.returns (value, true), (w.exec (cmdZADD q.processingName (UnixMilli now) data)).2)
      else (.returns (value, true), w)

/-- `Queue.Take`. The call never returns when the blocking pop was sent with
the timeout 0 and the ready list is empty. -/
def Queue.Take {T : Type} [Inhabited T] (q : Queue T) (now : Time) (w : World) :
    Ending (T × Bool) × World :=
  let w0 := q.processDelayedTasks now w
  if q.config.MaxWaitTime > 0 then
    match w0.exec
      (cmdBLPOP q.name (float64ToInt (Duration.Seconds q.config.MaxWaitTime))) with
    | (.ok (.value _ data), w1) => q.takeDecode data now w1
    | (.ok .blocksForever, w1) => (.blocks, w1)
    | (_, w1) => (.returns (default, false), w1)
  else
    match w0.exec (cmdLPOP q.name) with
    | (.ok (some data), w1) =>
      if data.length = 0 then (.returns (default, false), w1)
      else q.takeDecode data now w1
    | (_, w1) => (.returns (default, false), w1)

/-- `Queue.Complete`. -/
def Queue.Complete {T : Type} (q : Queue T) (value : T) (w : World) : Option Error × World :=
  if q.config.MaxRetry = 0 then (none, w)
  else
    match q.ser.Serialize value with
    | .error err => (some err, w)
    | .ok data =>
      match w.exec (cmdZREM q.processingName [data]) with
      | (.error err, w1) => (some err, w1)
      | (.ok _, w1) => (none, w1)

/-! ## Interleaved calls on one lock name -/

/-- The calls of an interleaving. `tryLock` is one acquisition attempt: the
whole of `TryLock`, and one turn of the loop of `Lock` (`Lock.lockLoop`). -/
inductive LockCall where
  | tryLock
  | unlock
  | refresh
  deriving DecidableEq

/-- One call: the instance that makes it, the call, the instant of the call. -/
structure LockEvent where
  who : Nat
  call : LockCall
  time : Time
  deriving DecidableEq

/-- A family of lock instances over one store. -/
structure LockSys where
  locks : Nat → Lock
  world : World

/-- Run one call; the flag tells whether it succeeded (`TryLock` returned
true, `Unlock` or `Refresh` returned no error). -/
def LockSys.step (s : LockSys) (ev : LockEvent) : Bool × LockSys :=
  match ev.call with
  | .tryLock =>
    (((s.locks ev.who).TryLock ev.time s.world).1,
      { locks := Function.update s.locks ev.who ((s.locks ev.who).TryLock ev.time s.world).2.1
        world := ((s.locks ev.who).TryLock ev.time s.world).2.2 })
  | .unlock =>
    (((s.locks ev.who).Unlock ev.time s.world).1.isNone,
      { locks := Function.update s.locks ev.who ((s.locks ev.who).Unlock ev.time s.world).2.1
        world := ((s.locks ev.who).Unlock ev.time s.world).2.2 })
  | .refresh =>
    (((s.locks ev.who).Refresh ev.time s.world).1.isNone,
      { locks := Function.update s.locks ev.who ((s.locks ev.who).Refresh ev.time s.world).2.1
        world := ((s.locks ev.who).Refresh ev.time s.world).2.2 })

/-- The state after a sequence of calls. -/
def LockSys.after (s : LockSys) : List LockEvent → LockSys
  | [] => s
  | ev :: rest => LockSys.after (s.step ev).2 rest

/-- The calls of a sequence, each with its outcome. -/
def LockSys.log (s : LockSys) : List LockEvent → List (LockEvent × Bool)
  | [] => []
  | ev :: rest => (ev, (s.step ev).1) :: LockSys.log (s.step ev).2 rest

/-- How one logged call changes whether instance `i` has an acquisition that
it has not released. -/
def holdStep (i : Nat) (h : Bool) (p : LockEvent × Bool) : Bool :=
  if p.1.who = i ∧ p.2 = true then
    match p.1.call with
    | .tryLock => true
    | .unlock => false
    | .refresh => h
  else h

/-- Instance `i` has a successful acquisition that was not followed by a
successful `Unlock` of its own. -/
def holds (i : Nat) (log : List (LockEvent × Bool)) : Bool :=
  log.foldl (holdStep i) false

/-- No lease ends during the sequence: at each call the lock key, when the
store still keeps it, is within its lease. -/
def LockSys.leasesLive (s : LockSys) (key : String) : List LockEvent → Bool
  | [] => true
  | ev :: rest =>
    (match s.world.db.strs key with
      | some e => e.live ev.time
      | none => true) && LockSys.leasesLive (s.step ev).2 key rest

/-- The key is not in the store at any type. -/
def Store.absent (s : Store) (key : String) : Prop :=
  s.strs key = none ∧ s.hashes key = [] ∧ s.zsets key = [] ∧ s.lists key = []

/-- The invariant of an interleaving on the lock name `nm`; `h i` tells
whether instance `i` has an acquisition that it has not released. -/
structure LockInv (s : LockSys) (nm : String) (h : Nat → Bool) : Prop where
  name : ∀ i, (s.locks i).name = nm
  tok : ∀ i j, (s.locks i).token = (s.locks j).token → i = j
  held : ∀ i, h i = true → ∃ e, s.world.db.strs nm = some e ∧ e.val = (s.locks i).token
  flag : ∀ i, (s.locks i).locked = true →
    ∃ e, s.world.db.strs nm = some e ∧ e.val = (s.locks i).token
  hflag : ∀ i, h i = true → (s.locks i).locked = true
  lease : ∀ e i, s.world.db.strs nm = some e → e.val = (s.locks i).token →
    0 < Duration.Milliseconds (s.locks i).config.WaitTime
  other : s.world.db.hashes nm = [] ∧ s.world.db.zsets nm = [] ∧ s.world.db.lists nm = []

/-! ## Concrete instances used to evaluate the operations -/

/-- The client with the default configuration. -/
def demoRedis : Redis := { config := DefaultConfig }

/-- The lock instance number `i` on the name `job`: its token is `i + 1`
letters, its lease `wait`. -/
def demoLock (i : Nat) (wait : Duration) : Lock :=
  demoRedis.NewLock "job"
    [{ WaitTime := wait, RetryTime := 0, MaxGetLockWaitTime := 0 }]
    (String.mk (List.replicate (i + 1) 'a'))

/-- Instances with a lease of five seconds, except instance 1 whose `WaitTime`
is 500 microseconds. -/
def shortLeaseLocks (i : Nat) : Lock :=
  demoLock i (if i = 1 then 500000 else 5 * Second)

/-- Instance 0 acquires and releases; then instance 1 and instance 0 attempt. -/
def shortLeaseCalls : List LockEvent :=
  [⟨0, .tryLock, 0⟩, ⟨0, .unlock, 1⟩, ⟨1, .tryLock, 2⟩, ⟨0, .tryLock, 3⟩]

/-- Instances with a lease of five seconds each. -/
def fiveSecondLocks (i : Nat) : Lock := demoLock i (5 * Second)

/-- Instance 0 acquires, instance 1 is refused, instance 0 releases, instance 1
acquires, instance 2 is refused. -/
def handOverCalls : List LockEvent :=
  [⟨0, .tryLock, 0⟩, ⟨1, .tryLock, 1⟩, ⟨0, .unlock, 2⟩, ⟨1, .tryLock, 3⟩, ⟨2, .tryLock, 4⟩]

/-- Instance 0 acquires; its lease of five seconds ends; instance 1 acquires;
the `Refresh` of instance 0 fails and clears its flag. -/
def staleCalls : List LockEvent :=
  [⟨0, .tryLock, 0⟩, ⟨1, .tryLock, 6000000000⟩, ⟨0, .refresh, 6000000001⟩]

/-- A store in which the key `lock:job` holds the token `other` with a lease
of five seconds from instant 0. -/
def otherHolderStore : Store :=
  (cmdSetNXPX "lock:job" "other" 5000 0 Store.empty).2

/-- The store `b` differs from `a` at most in the hash `mapName`. -/
def Store.sameBut (mapName : String) (a b : Store) : Prop :=
  b.strs = a.strs ∧ b.zsets = a.zsets ∧ b.lists = a.lists ∧
    ∀ k, k ≠ mapName → b.hashes k = a.hashes k

/-- The cache keeps `data` under `key` with no expiry score. -/
def Cache.Retains {T : Type} (c : Cache T) (key data : String) (db : Store) : Prop :=
  kvGet key (db.hashes c.dataName) = some data ∧ kvGet key (db.zsets c.expireName) = none

/-- A serializer of strings that stores the characters as they are: the
string case of the default serializer. -/
def stringSerializer : SerializerFunc String :=
  { Serialize := fun v => .ok v
    Deserialize := fun data v => if data.length = 0 then .ok v else .ok data }

/-- A cache of strings named `c` on the default client, without a default expiry. -/
def demoCache : Cache String :=
  NewCache "c" { DefaultExpire := 0 } demoRedis stringSerializer false

/-- A client whose name creator gives the hash of time markers the name of the
data hash of the cache `m`. -/
def clashRedis : Redis :=
  { config :=
      { Prefix := ""
        NameCreator := fun _ t _ => if t = RedisType.SafeTypeMap_ then "m:data" else "m"
        SafeTypeMapName := "__SafeTypeMap__" } }

/-- A cache of strings on `clashRedis`. -/
def clashCache : Cache String :=
  NewCache "m" { DefaultExpire := 0 } clashRedis stringSerializer false

/-- A sequence of `Add` calls, in order; the errors are dropped. -/
def Queue.addAll {T : Type} (q : Queue T) (w : World) (xs : List T) : World :=
  xs.foldl (fun w1 x => (q.Add x w1).2) w

/-- One `Take` at each instant of the list, in order, with the results. -/
def Queue.takes {T : Type} [Inhabited T] (q : Queue T) (w : World) :
    List Time → List (Ending (T × Bool)) × World
  | [] => ([], w)
  | t :: ts => ((q.Take t w).1 :: (Queue.takes q (q.Take t w).2 ts).1,
      (Queue.takes q (q.Take t w).2 ts).2)

/-- The value is encoded to `data`, which is not empty and decodes back. -/
def SerializerFunc.Codes {T : Type} [Inhabited T] (ser : SerializerFunc T) (x : T)
    (data : String) : Prop :=
  ser.Serialize x = .ok data ∧ data.length ≠ 0 ∧ ser.Deserialize data default = .ok x

/-- A queue of strings named `q` on the default client. -/
def demoQueue (maxLength : Int) (maxWait : Duration) (maxRetry : Int) : Queue String :=
  NewQueue "q"
    { MaxLength := maxLength
      MaxWaitTime := maxWait
      MaxRetry := maxRetry
      ErrorHandler := none }
    demoRedis stringSerializer false

/-- The store after `Add("a")` and `AddDelayed("b", 1ms)` at instant 0 on the
empty store, for a queue with `MaxLength = 1`: the ready list holds `a`, and
`b` is due from the millisecond 1 on. -/
def fullQueueWorld : World :=
  ((demoQueue 1 0 0).AddDelayed "b" Millisecond 0
    ((demoQueue 1 0 0).Add "a" (World.up Store.empty)).2).2

/-- What the deferred `Unlock` of `LockFunc` and `TryLockFunc` does for the
instance `l`, when the closure ended with outcome `o` and the call left the
lock `lock1` and the store `world1`: provided the closure left the held flag
set and the connection answers, a key that still holds the token of the
instance is deleted and the flag cleared; a key that holds it no longer (its
lease ended, or another instance has it) is left alone and the flag stays
set. -/
def Lock.ReleaseRule (l : Lock) (o : FnOutcome) (lock1 : Lock) (world1 : World) : Prop :=
  o.locked = true → o.world.faults = [] →
    (o.world.db.GET l.name o.time = some l.token →
      lock1.IsLocked = false ∧ ∀ t, world1.db.GET l.name t = none) ∧
    (o.world.db.GET l.name o.time ≠ some l.token →
      lock1.IsLocked = true ∧ world1.db = o.world.db)

/-- A closure that sleeps for six seconds and touches nothing. -/
def sleepSixSeconds (start : Time) (w : World) : FnOutcome :=
  { panicked := false, time := start + 6000000000, locked := true, world := w }

/-- A closure that panics at the instant `start`, having touched nothing. -/
def panicAtOnce (start : Time) (w : World) : FnOutcome :=
  { panicked := true, time := start, locked := true, world := w }

/-- The cache `demoCache` after `Set` of the key `k` with a ttl of one hour, in
November 2023, and `SetTTL` of the key one nanosecond later with a duration of
minus 2 * 10^18 nanoseconds (about 63 years): the score of the key is negative. -/
def negativeScoreWorld : World :=
  (demoCache.SetTTL "k" (-2000000000000000000) 1700000000000000001
    (demoCache.Set "k" "v" (3600 * Second) 1700000000000000000 1 (World.up Store.empty)).2.2).2

/-- JSON white space. -/
def isJSONSpace (c : Char) : Bool :=
  c = ' ' || c = '\t' || c = '\n' || c = '\r'

/-- The digits of a JSON integer: no leading zero. -/
def jsonDigits : List Char → Option Nat
  | [] => none
  | ['0'] => some 0
  | '0' :: _ => none
  | cs => parseDigits cs 0

/-- What `json.Unmarshal` into an `int64` reads from `data`: `none` is an
error, `some none` the literal `null` (the target is left as it is). The
accepted texts are `null` and an integer literal within the range of `int64`,
with white space around. -/
def jsonInt64 (data : String) : Option (Option Int) :=
  let cs := ((data.data.dropWhile isJSONSpace).reverse.dropWhile isJSONSpace).reverse
  if cs = ['n', 'u', 'l', 'l'] then some none
  else
    let n : Option Int :=
      match cs with
      | '-' :: ds => (jsonDigits ds).map (fun n => - (n : Int))
      | ds => (jsonDigits ds).map (fun n => (n : Int))
    match n with
    | some n =>
      if -9223372036854775808 ≤ n ∧ n ≤ 9223372036854775807 then some (some n) else none
    | none => none

/-- The default serializer at the type `int64`: `json.Marshal` writes the
decimal digits, `json.Unmarshal` reads them; empty bytes leave the target as
it is. -/
def int64Serializer : SerializerFunc Int :=
  { Serialize := fun v => .ok (formatInt64 v)
    Deserialize := fun data v =>
      if data.length = 0 then .ok v
      else
        match jsonInt64 data with
        | some (some n) => .ok n
        | some none => .ok v
        | none => .error (.serializer "json: cannot unmarshal into Go value of type int64") }

/-- A cache of `int64` values on the name `c`, the name of `demoCache`. -/
def intCache : Cache Int :=
  NewCache "c" { DefaultExpire := 0 } demoRedis int64Serializer false

/-- A queue of `int64` values on the name `q`, the name of `demoQueue`. -/
def intQueue : Queue Int :=
  NewQueue "q" { MaxLength := 0, MaxWaitTime := 0, MaxRetry := 0, ErrorHandler := none }
    demoRedis int64Serializer false

/-- One enqueue call: `Add(value)`, or `AddDelayed(value, delay)` made at the
instant `now`. -/
inductive EnqueueCall (T : Type) where
  | add (value : T)
  | addDelayed (value : T) (delay : Duration) (now : Time)

/-- The value an enqueue call passes. -/
def EnqueueCall.value {T : Type} : EnqueueCall T → T
  | .add v => v
  | .addDelayed v _ _ => v

/-- Make one enqueue call. -/
def Queue.enqueue {T : Type} (q : Queue T) (w : World) : EnqueueCall T → Option Error × World
  | .add v => q.Add v w
  | .addDelayed v delay now => q.AddDelayed v delay now w

/-- A sequence of enqueue calls, in order, with the errors they return. -/
def Queue.enqueueAll {T : Type} (q : Queue T) (w : World) :
    List (EnqueueCall T) → List (Option Error) × World
  | [] => ([], w)
  | c :: cs => ((q.enqueue w c).1 :: (Queue.enqueueAll q (q.enqueue w c).2 cs).1,
      (Queue.enqueueAll q (q.enqueue w c).2 cs).2)

/-- The queue carries the value as `data`: the value is encoded to `data`,
which decodes back to it and, for a queue that pops without blocking, is not
empty. -/
def Queue.Carries {T : Type} [Inhabited T] (q : Queue T) (x : T) (data : String) : Prop :=
  q.ser.Serialize x = .ok data ∧ q.ser.Deserialize data default = .ok x ∧
    (q.config.MaxWaitTime ≤ 0 → data.length ≠ 0)

/-- The encodings that a sequence of enqueue calls, each paired with the
encoding of its value, pushes on the ready list. -/
def readyData {T : Type} : List (EnqueueCall T × String) → List String
  | [] => []
  | (.add _, d) :: rest => d :: readyData rest
  | (.addDelayed _ _ _, _) :: rest => readyData rest

/-- The members and scores that a sequence of enqueue calls, each paired with
the encoding of its value, writes to the delayed set. -/
def delayedEntries {T : Type} : List (EnqueueCall T × String) → List (String × Int)
  | [] => []
  | (.add _, _) :: rest => delayedEntries rest
  | (.addDelayed _ delay now, d) :: rest =>
    (d, UnixMilli ((now : Int) + delay)) :: delayedEntries rest

/-- A serializer of strings, as a client may supply one, that drops the
spaces at the head of what it reads. -/
def trimmingSerializer : SerializerFunc String :=
  { Serialize := fun v => .ok v
    Deserialize := fun data _ => .ok (String.mk (data.data.dropWhile (fun c => c = ' '))) }

/-- A queue of strings named `q` on a client with `trimmingSerializer`. -/
def trimmingQueue : Queue String :=
  NewQueue "q" { MaxLength := 0, MaxWaitTime := 0, MaxRetry := 0, ErrorHandler := none }
    demoRedis trimmingSerializer false

/-- The storage callback that `Fail` hands to the error handler: an argument
that is a `T` replaces the value, any other argument is ignored. -/
def storageCallback {T : Type} (value : T) (v : Option T) : T :=
  match v with
  | some updatedValue => updatedValue
  | none => value

/-- `Queue.Fail`. The handler tells its delay and the arguments of its calls of
the storage callback, in order. `now` is the instant of the call of
`AddDelayed`. -/
def Queue.Fail {T : Type} (q : Queue T) (value : T) (err : Error) (now : Time) (w : World) :
    Option Error × World :=
  match q.config.ErrorHandler with
  | none => q.Complete value w
  | some handler =>
    if (handler value err).1 < 0 then
      q.Complete ((handler value err).2.foldl storageCallback value) w
    else if (handler value err).1 > 0 then
      q.AddDelayed ((handler value err).2.foldl storageCallback value) (handler value err).1
        now w
    else q.Add ((handler value err).2.foldl storageCallback value) w

/-- A queue of strings named `q` with retry tracking, whose error handler
returns the delay `delay` and passes `stored` to the storage callback. -/
def retryQueue (maxLength : Int) (delay : Duration) (stored : List (Option String)) :
    Queue String :=
  NewQueue "q"
    { MaxLength := maxLength
      MaxWaitTime := 0
      MaxRetry := 3
      ErrorHandler := some (fun _ _ => (delay, stored)) }
    demoRedis stringSerializer false

/-- `Redis.SetLastUseTime`; the argument is the instant `t` in nanoseconds. -/
def Redis.SetLastUseTime (r : Redis) (key : String) (t : Int) (w : World) :
    Option Error × World :=
  match w.exec (cmdHSET r.safeTypeMapName key (formatInt64 (UnixMilli t))) with
  | (.error err, w1) => (some err, w1)
  | (.ok _, w1) => (none, w1)

/-! ## map.go and `CleanSafeTypeMap` of helper.go -/

/-- `HGETALL key`: the fields with their values. -/
def cmdHGETALL (key : String) (s : Store) : Except Error (List (String × String)) × Store :=
  (.ok (s.hashes key), s)

/-- The struct `RedisMap`. -/
structure RedisMap where
  redis : Redis
  name : String

/-- `Redis.NewMap`. -/
def Redis.NewMap (r : Redis) (name : String) : RedisMap :=
  { redis := r, name := r.CreateName .Hash_ [name] }

/-- `RedisMap.Delete`. -/
def RedisMap.Delete (m : RedisMap) (keys : List String) (w : World) : Option Error × World :=
  if keys.length = 0 then (none, w)
  else
    match w.exec (cmdHDEL m.name keys) with
    | (.error err, w1) => (some err, w1)
    | (.ok _, w1) => (none, w1)

/-- `RedisTypeMap[int64].ToArray` with the default serializer: every value is
read as a string by `RedisMap.ToArray`, written back as its bytes and read
into an `int64`; a value that does not read is left out. The Go map is given
as the list of its entries. -/
def RedisMap.ToArrayInt64 (m : RedisMap) (w : World) :
    Except Error (List (String × Int)) × World :=
  match w.exec (cmdHGETALL m.name) with
  | (.error err, w1) => (.error err, w1)
  | (.ok data, w1) =>
    (.ok (data.filterMap (fun p =>
      match int64Serializer.Deserialize p.2 0 with
      | .ok value => some (p.1, value)
      | .error _ => none)), w1)

/-- `Redis.GetSafeTypeMap`: `NewTypeMap[int64](r.config.SafeTypeMapName, r)`,
which wraps `r.NewMap(name)`. -/
def Redis.GetSafeTypeMap (r : Redis) : RedisMap :=
  r.NewMap r.config.SafeTypeMapName

/-- The value of an `int64` computation whose exact result is `n`: the result
wraps around modulo 2^64. -/
def wrapInt64 (n : Int) : Int :=
  (n + 9223372036854775808) % 18446744073709551616 - 9223372036854775808

/-- `Redis.CleanSafeTypeMap`; the difference `now - lastTimeMs` is an `int64`
subtraction. -/
def Redis.CleanSafeTypeMap (r : Redis) (expireDuration : Duration) (now : Time) (w : World) :
    Option Error × World :=
  match r.GetSafeTypeMap.ToArrayInt64 w with
  | (.error err, w1) => (some err, w1)
  | (.ok all, w1) =>
    if ((all.filter (fun p =>
        decide (wrapInt64 (UnixMilli now - p.2) > Duration.Milliseconds expireDuration))).map
          Prod.fst).length > 0 then
      r.GetSafeTypeMap.Delete ((all.filter (fun p =>
        decide (wrapInt64 (UnixMilli now - p.2) > Duration.Milliseconds expireDuration))).map
          Prod.fst) w1
    else (none, w1)

/-- One call on a queue by its consumer, with the instant of the call where
the call reads the clock. -/
inductive QueueCall (T : Type) where
  | add (value : T)
  | addDelayed (value : T) (delay : Duration) (now : Time)
  | take (now : Time)
  | complete (value : T)
  | fail (value : T) (err : Error) (now : Time)

/-- The store after one call. -/
def Queue.call {T : Type} [Inhabited T] (q : Queue T) (w : World) : QueueCall T → World
  | .add value => (q.Add value w).2
  | .addDelayed value delay now => (q.AddDelayed value delay now w).2
  | .take now => (q.Take now w).2
  | .complete value => (q.Complete value w).2
  | .fail value err now => (q.Fail value err now w).2

/-- The store after a sequence of calls, in order. -/
def Queue.calls {T : Type} [Inhabited T] (q : Queue T) (w : World) (cs : List (QueueCall T)) :
    World :=
  cs.foldl q.call w

/-- The call puts nothing in the delayed set: it is not `AddDelayed`, and when
it is `Fail`, the error handler of the queue does not answer with a positive
delay. -/
def QueueCall.noDelay {T : Type} (q : Queue T) : QueueCall T → Prop
  | .addDelayed _ _ _ => False
  | .fail value err _ =>
    ∀ handler, q.config.ErrorHandler = some handler → (handler value err).1 ≤ 0
  | _ => True

/-- `Cache.GetOrSet`; the factory gives the value and its ttl. The call ends
as its `Get` does when that does not return. -/
def Cache.GetOrSet {T : Type} [Inhabited T] (c : Cache T) (key : String)
    (factory : String → T × Duration) (now : Time) (roll : Nat) (w : World) :
    Ending T × World :=
  match c.Get key now w with
  | (.returns (value, true), w1) => (.returns value, w1)
  | (.returns (_, false), w1) =>
    (.returns (factory key).1, (c.Set key (factory key).1 (factory key).2 now roll w1).2.2)
  | (.blocks, w1) => (.blocks, w1)
  | (.panics, w1) => (.panics, w1)

/-- One call on a cache, with the instant of the call where the call reads the
clock; `set` and `getOrSet` carry the random draw of `Set` as well. A run of
the sweep that `Set` starts in the background is a `clearExpired`. -/
inductive CacheCall (T : Type) where
  | set (key : String) (value : T) (expire : Duration) (now : Time) (roll : Nat)
  | get (key : String) (now : Time)
  | getOrSet (key : String) (factory : String → T × Duration) (now : Time) (roll : Nat)
  | delete (keys : List String)
  | exist (key : String) (now : Time)
  | clear (now : Time)
  | clearExpired (now : Time)
  | length (now : Time)
  | keys (now : Time)
  | getTTL (key : String) (now : Time)
  | setTTL (key : String) (expire : Duration) (now : Time)

/-- The store after one call. -/
def Cache.call {T : Type} [Inhabited T] (c : Cache T) (w : World) : CacheCall T → World
  | .set key value expire now roll => (c.Set key value expire now roll w).2.2
  | .get key now => (c.Get key now w).2
  | .getOrSet key factory now roll => (c.GetOrSet key factory now roll w).2
  | .delete keys => (c.Delete keys w).2
  | .exist key now => (c.Exists key now w).2
  | .clear now => (c.Clear now w).2
  | .clearExpired now => (c.ClearExpired now w).2
  | .length now => (c.Length now w).2
  | .keys now => (c.Keys now w).2
  | .getTTL key now => (c.GetTTL key now w).2
  | .setTTL key expire now => (c.SetTTL key expire now w).2

/-- The store after a sequence of calls, in order. -/
def Cache.calls {T : Type} [Inhabited T] (c : Cache T) (w : World) (cs : List (CacheCall T)) :
    World :=
  cs.foldl c.call w

/-- The call is not a `Clear`, and not a `Set`, a `Delete` or a `SetTTL` of
`key`: it neither writes nor removes the entry of `key` and gives it no score.
Every other call is allowed, on `key` as well. -/
def CacheCall.keeps {T : Type} (key : String) : CacheCall T → Prop
  | .set k _ _ _ _ => k ≠ key
  | .delete ks => key ∉ ks
  | .clear _ => False
  | .setTTL k _ _ => k ≠ key
  | _ => True

/-- The Go values of the basic types that `Serialize` writes without `gob`:
strings, byte slices (the nil and the empty slice are not told apart), the
integers of a signedness and a width in bits, booleans. -/
inductive GoValue where
  | str (s : String)
  | bytes (b : String)
  | int (signed : Bool) (bits : Nat) (n : Int)
  | bool (b : Bool)
  deriving DecidableEq

/-- The least value of an integer type. -/
def intMin (signed : Bool) (bits : Nat) : Int :=
  if signed then -(2 ^ (bits - 1) : Int) else 0

/-- The greatest value of an integer type. -/
def intMax (signed : Bool) (bits : Nat) : Int :=
  if signed then (2 ^ (bits - 1) : Int) - 1 else (2 ^ bits : Int) - 1

/-- The value is a value of its type: an integer lies in the range of its
width. -/
def GoValue.valid : GoValue → Prop
  | .int signed bits n => intMin signed bits ≤ n ∧ n ≤ intMax signed bits
  | _ => True

/-- The two values have the same Go type. -/
def GoValue.sameType : GoValue → GoValue → Prop
  | .str _, .str _ => True
  | .bytes _, .bytes _ => True
  | .int s1 b1 _, .int s2 b2 _ => s1 = s2 ∧ b1 = b2
  | .bool _, .bool _ => True
  | _, _ => False

/-- The second argument of `Deserialize`: a pointer to a variable, given with
what the variable holds; a value that is not a pointer; or a target whose type
implements the interface `Serializer`, pointer or not, given with what its own
`Deserialize` returns. -/
inductive Target where
  | pointer (var : GoValue)
  | value (v : GoValue)
  | custom (isPointer : Bool) (deserialize : String → Option Error)

/-- What the variable behind a pointer holds. -/
def Target.held : Target → Option GoValue
  | .pointer var => some var
  | _ => none

/-- `defaultSerializer.Serialize` on the basic types: the bytes of a string or
of a byte slice, `json.Marshal` of an integer or a boolean. -/
def defaultSerialize : GoValue → Except Error String
  | .str val => .ok val
  | .bytes val => .ok val
  | .int _ _ n => .ok (toString n)
  | .bool b => .ok (if b then "true" else "false")

/-- White space around a JSON text is skipped. -/
def jsonTrim (cs : List Char) : List Char :=
  ((cs.dropWhile isJSONSpace).reverse.dropWhile isJSONSpace).reverse

/-- What `json.Unmarshal` into an integer of the given type reads from `data`:
`none` is an error, `some none` the literal `null` (the target is left as it
is). The accepted texts are `null` and an integer literal within the range of
the type; a minus sign is an error for an unsigned type. -/
def jsonInteger (signed : Bool) (bits : Nat) (data : String) : Option (Option Int) :=
  if jsonTrim data.data = ['n', 'u', 'l', 'l'] then some none
  else
    (if (jsonTrim data.data).head? = some '-' then
      if signed then (jsonDigits (jsonTrim data.data).tail).map (fun n => - (n : Int))
      else none
    else (jsonDigits (jsonTrim data.data)).map (fun n => (n : Int))).bind
      (fun n => if intMin signed bits ≤ n ∧ n ≤ intMax signed bits then some (some n)
        else none)

/-- What `json.Unmarshal` into a `bool` reads from `data`. -/
def jsonBool (data : String) : Option (Option Bool) :=
  if jsonTrim data.data = ['t', 'r', 'u', 'e'] then some (some true)
  else if jsonTrim data.data = ['f', 'a', 'l', 's', 'e'] then some (some false)
  else if jsonTrim data.data = ['n', 'u', 'l', 'l'] then some none
  else none

/-- `defaultSerializer.Deserialize` on the targets above: the target
afterwards, or the error. -/
def defaultDeserialize (data : String) (v : Target) : Except Error Target :=
  if data.length = 0 then .ok v
  else
    match v with
    | .custom _ deserialize =>
      match deserialize data with
      | some err => .error err
      | none => .ok v
    | .value _ => .error (.serializer "v must be a pointer")
    | .pointer (.str _) => .ok (.pointer (.str data))
    | .pointer (.bytes _) => .ok (.pointer (.bytes data))
    | .pointer (.int signed bits n) =>
      match jsonInteger signed bits data with
      | some (some m) => .ok (.pointer (.int signed bits m))
      | some none => .ok (.pointer (.int signed bits n))
      | none => .error (.serializer "json: cannot unmarshal into Go value")
    | .pointer (.bool b) =>
      match jsonBool data with
      | some (some m) => .ok (.pointer (.bool m))
      | some none => .ok (.pointer (.bool b))
      | none => .error (.serializer "json: cannot unmarshal into Go value")

/-- The values of the interface type `any` met here: nil, or a value of a
basic type. The zero value is nil. -/
abbrev GoAny := Option GoValue

/-- The default serializer at the element type `any`. `Serialize` of nil gives
no bytes. `Deserialize` into a pointer to a variable of type `any` leaves the
variable as it is for empty data and stores the data as a string otherwise. -/
def anySerializer : SerializerFunc GoAny :=
  { Serialize := fun v =>
      match v with
      | none => .ok ""
      | some val => defaultSerialize val
    Deserialize := fun data v => if data.length = 0 then .ok v else .ok (some (.str data)) }

/-- A cache of `any` values, `Cache[any]`, on the default client. -/
def anyCache : Cache GoAny :=
  NewCache "c" { DefaultExpire := 0 } demoRedis anySerializer true

/-- A queue of `any` values, `Queue[any]`, on the default client. -/
def anyQueue (maxWait : Duration) : Queue GoAny :=
  NewQueue "q" { MaxLength := 0, MaxWaitTime := maxWait, MaxRetry := 0, ErrorHandler := none }
    demoRedis anySerializer true

/-! # Properties -/

/-! ## Rounding to binary64 -/

theorem roundHalfEven_le {a b M : Nat} (hb : 0 < b) (h : a ≤ M * b) : roundHalfEven a b ≤ M := by
  have hq : a / b ≤ M := Nat.div_le_of_le_mul (by rw [Nat.mul_comm]; exact h)
  have hdm := Nat.div_add_mod a b
  have hr := Nat.mod_lt a hb
  have hstep : ¬ 2 * (a % b) < b → a / b + 1 ≤ M := by
    intro hn
    by_contra hc
    have he : a / b = M := by omega
    rw [he, Nat.mul_comm] at hdm
    omega
  unfold roundHalfEven
  split_ifs with h1 h2 h3
  · exact hq
  · exact hstep h1
  · exact hq
  · exact hstep h1

theorem le_roundHalfEven {a b M : Nat} (hb : 0 < b) (h : M * b ≤ a) : M ≤ roundHalfEven a b := by
  have hq : M ≤ a / b := (Nat.le_div_iff_mul_le hb).mpr h
  unfold roundHalfEven
  split_ifs <;> omega

theorem float64Round_le (fuel p M : Nat) (hM : M < 2 ^ 53) :
    ∀ (q j : Nat), 0 < q → p ≤ M * 2 ^ j * q → float64Round fuel p q ≤ M * 2 ^ j := by
  induction fuel with
  | zero =>
    intro q j hq h
    exact roundHalfEven_le hq h
  | succ n ih =>
    intro q j hq h
    unfold float64Round
    split_ifs with h1
    · exact roundHalfEven_le hq h
    · have hle : p / q ≤ M * 2 ^ j := Nat.div_le_of_le_mul (by rw [Nat.mul_comm]; exact h)
      rcases j with _ | j
      · simp only [pow_zero, Nat.mul_one] at hle
        omega
      · have := ih (2 * q) j (by omega) (by rw [pow_succ] at h; nlinarith [h])
        have e : M * 2 ^ (j + 1) = 2 * (M * 2 ^ j) := by ring
        rw [e]
        omega

theorem le_float64Round (fuel p : Nat) :
    ∀ (M q j : Nat), M < 2 ^ 53 → 0 < q → M * 2 ^ j * q ≤ p →
      M * 2 ^ j ≤ float64Round fuel p q := by
  induction fuel with
  | zero =>
    intro M q j _ hq h
    exact le_roundHalfEven hq h
  | succ n ih =>
    intro M q j hM hq h
    unfold float64Round
    split_ifs with h1
    · exact le_roundHalfEven hq h
    · have h2 : 2 ^ 53 * q ≤ p := (Nat.le_div_iff_mul_le hq).mp (by omega)
      rcases j with _ | j
      · have := ih 1 (2 * q) 52 (by norm_num) (by omega) (by omega)
        simp only [pow_zero, Nat.mul_one]
        omega
      · have := ih M (2 * q) j hM (by omega) (by rw [pow_succ] at h; nlinarith [h])
        have e : M * 2 ^ (j + 1) = 2 * (M * 2 ^ j) := by ring
        rw [e]
        omega

theorem float64Unit_eq : float64Unit = 2 ^ 1074 := by
  rw [float64Unit, ← pow_mul]

/-- A whole number below 2^53 is a binary64 number. -/
theorem float64_whole (n : Nat) (h : n < 2 ^ 53) : float64 (n * float64Unit) 1 = n * float64Unit := by
  rw [float64Unit_eq]
  exact le_antisymm (float64Round_le _ _ n h 1 1074 (by norm_num) (by omega))
    (le_float64Round _ _ n 1 1074 h (by norm_num) (by omega))


/-- The quotient of the nanoseconds below one second by 10^9 is a binary64
number below 1. -/
theorem float64_fraction_le (r : Nat) (hr : r < 1000000000) :
    float64 (r * float64Unit) 1000000000 ≤ (2 ^ 53 - 1) * 2 ^ 1021 := by
  apply float64Round_le _ _ _ (by norm_num) _ _ (by norm_num)
  rw [float64Unit_eq]
  have e : (2 : Nat) ^ 1074 = 2 ^ 53 * 2 ^ 1021 := by rw [← pow_add]
  rw [e]
  have : r * 2 ^ 53 ≤ (2 ^ 53 - 1) * 1000000000 := by omega
  calc r * (2 ^ 53 * 2 ^ 1021) = r * 2 ^ 53 * 2 ^ 1021 := by ring
    _ ≤ (2 ^ 53 - 1) * 1000000000 * 2 ^ 1021 := Nat.mul_le_mul_right _ this
    _ = (2 ^ 53 - 1) * 2 ^ 1021 * 1000000000 := by ring

theorem below_one_lt_unit : (2 ^ 53 - 1) * 2 ^ 1021 < float64Unit := by
  rw [float64Unit_eq]
  have e : (2 : Nat) ^ 1074 = 2 ^ 53 * 2 ^ 1021 := by rw [← pow_add]
  rw [e]
  exact Nat.mul_lt_mul_of_pos_right (by norm_num) (by positivity)

/-- The magnitude lies between the whole seconds and one more. -/
theorem secondsMagnitude_bounds (n : Nat) (h : n / 1000000000 + 1 < 2 ^ 53) :
    n / 1000000000 * float64Unit ≤ secondsMagnitude n ∧
    secondsMagnitude n ≤ (n / 1000000000 + 1) * float64Unit := by
  have hr : n % 1000000000 < 1000000000 := Nat.mod_lt _ (by norm_num)
  unfold secondsMagnitude
  rw [float64_whole _ (by omega), float64_whole _ (by omega)]
  have hfrac := float64_fraction_le _ hr
  have hlt := below_one_lt_unit
  constructor
  · rw [float64Unit_eq]
    apply le_float64Round _ _ _ _ _ (by omega) (by norm_num)
    omega
  · rw [float64Unit_eq] at hfrac hlt ⊢
    apply float64Round_le _ _ _ (by omega) _ _ (by norm_num)
    have e : (n / 1000000000 + 1) * 2 ^ 1074 = n / 1000000000 * 2 ^ 1074 + 2 ^ 1074 := by ring
    omega

/-- Below one second the magnitude is below 1. -/
theorem secondsMagnitude_lt_unit (n : Nat) (h : n < 1000000000) :
    secondsMagnitude n < float64Unit := by
  unfold secondsMagnitude
  have h0 : n / 1000000000 = 0 := Nat.div_eq_of_lt h
  have h1 : n % 1000000000 = n := Nat.mod_eq_of_lt h
  have hz : float64 0 1 = 0 := by decide
  rw [h0, h1, Nat.zero_mul, hz, Nat.zero_add, float64_whole _ (by omega)]
  have hfrac := float64_fraction_le _ h
  have hlt := below_one_lt_unit
  have : float64 (float64 (n * float64Unit) 1000000000) 1 ≤ (2 ^ 53 - 1) * 2 ^ 1021 := by
    apply float64Round_le _ _ _ (by norm_num) _ _ (by norm_num)
    omega
  omega

/-- From one second on the magnitude is at least 1. -/
theorem unit_le_secondsMagnitude (n : Nat) (h : 1000000000 ≤ n) :
    float64Unit ≤ secondsMagnitude n := by
  unfold secondsMagnitude
  have h1 : 1 ≤ n / 1000000000 := (Nat.le_div_iff_mul_le (by norm_num)).mpr (by omega)
  have hu : float64Unit = 1 * 2 ^ 1074 := by rw [float64Unit_eq, Nat.one_mul]
  have hconv : 1 * 2 ^ 1074 ≤ float64 (n / 1000000000 * float64Unit) 1 := by
    apply le_float64Round _ _ _ _ _ (by norm_num) (by norm_num)
    rw [float64Unit_eq]
    nlinarith [h1, Nat.one_le_two_pow (n := 1074)]
  have key : 1 * 2 ^ 1074 ≤ float64 (float64 (n / 1000000000 * float64Unit) 1 +
      float64 (float64 (n % 1000000000 * float64Unit) 1) 1000000000) 1 := by
    apply le_float64Round _ _ _ _ _ (by norm_num) (by norm_num)
    omega
  calc float64Unit = 1 * 2 ^ 1074 := hu
    _ ≤ _ := key

/-- The timeout that `Take` computes from a positive wait: the whole units of
the binary64 seconds. -/
theorem timeout_of_pos {d : Int} (h : 0 < d) :
    float64ToInt (Duration.Seconds d) = Int.ofNat (secondsMagnitude d.toNat / float64Unit) := by
  unfold float64ToInt Duration.Seconds
  rw [Int.sign_eq_one_of_pos h, Int.one_mul]
  have e : d.natAbs = d.toNat := by omega
  rw [e]
  rfl

theorem timeout_nonneg {d : Int} (h : 0 < d) : ¬ float64ToInt (Duration.Seconds d) < 0 := by
  rw [timeout_of_pos h]
  exact not_lt.mpr (Int.ofNat_nonneg _)

/-- A wait under one second gives the timeout 0. -/
theorem timeout_zero {d : Int} (h0 : 0 < d) (h1 : d < 1000000000) :
    float64ToInt (Duration.Seconds d) = 0 := by
  rw [timeout_of_pos h0]
  have := secondsMagnitude_lt_unit d.toNat (by omega)
  rw [Nat.div_eq_of_lt this]
  rfl

/-- A wait of one second or more gives a positive timeout. -/
theorem timeout_pos {d : Int} (h : 1000000000 ≤ d) :
    0 < float64ToInt (Duration.Seconds d) := by
  rw [timeout_of_pos (by omega)]
  have := unit_le_secondsMagnitude d.toNat (by omega)
  have hu : 0 < float64Unit := by rw [float64Unit_eq]; positivity
  have : 1 ≤ secondsMagnitude d.toNat / float64Unit :=
    (Nat.le_div_iff_mul_le hu).mpr (by omega)
  show (0 : Int) < ((secondsMagnitude d.toNat / float64Unit : Nat) : Int)
  omega

/-- The timeout is the whole seconds of the wait, or one more. -/
theorem timeout_bounds {d : Int} (h : 0 < d) (hmax : d ≤ 9223372036854775807) :
    Int.tdiv d Second ≤ float64ToInt (Duration.Seconds d) ∧
    float64ToInt (Duration.Seconds d) ≤ Int.tdiv d Second + 1 := by
  rw [timeout_of_pos h]
  have hu : 0 < float64Unit := by rw [float64Unit_eq]; positivity
  have hs : Int.tdiv d Second = ((d.toNat / 1000000000 : Nat) : Int) := by
    unfold Second
    rw [Int.tdiv_eq_ediv (le_of_lt h) (by norm_num)]
    omega
  obtain ⟨hlo, hhi⟩ := secondsMagnitude_bounds d.toNat (by omega)
  have h1 : d.toNat / 1000000000 ≤ secondsMagnitude d.toNat / float64Unit :=
    (Nat.le_div_iff_mul_le hu).mpr hlo
  have h2 : secondsMagnitude d.toNat / float64Unit ≤ d.toNat / 1000000000 + 1 :=
    Nat.div_le_of_le_mul (by rw [Nat.mul_comm]; exact hhi)
  rw [hs]
  show ((d.toNat / 1000000000 : Nat) : Int) ≤
      ((secondsMagnitude d.toNat / float64Unit : Nat) : Int) ∧
    ((secondsMagnitude d.toNat / float64Unit : Nat) : Int) ≤
      ((d.toNat / 1000000000 : Nat) : Int) + 1
  omega

set_option maxRecDepth 100000 in
/-- The sum of 16777216 and 0.999999999 rounds up to 16777217. -/
theorem timeout_rounds_up :
    float64ToInt (Duration.Seconds 16777216999999999) = 16777217 := by
  decide

/-! ## The connection -/

theorem World.exec_up {α : Type} (db : Store) (cmd : Store → Except Error α × Store) :
    (World.up db).exec cmd = ((cmd db).1, World.up (cmd db).2) := rfl

theorem World.exec_cases {α : Type} (w : World) (cmd : Store → Except Error α × Store) :
    ((∃ m, (w.exec cmd).1 = .error (.store m)) ∧ (w.exec cmd).2.db = w.db ∧ w.faults ≠ []) ∨
    ((w.exec cmd).1 = (cmd w.db).1 ∧ (w.exec cmd).2.db = (cmd w.db).2) := by
  unfold World.exec
  rcases hf : w.faults with _ | ⟨b, rest⟩
  · right; simp
  · cases b
    · right; simp
    · left; simp

theorem World.exec_faults {α : Type} (w : World) (cmd : Store → Except Error α × Store) :
    (w.exec cmd).2.faults = w.faults.tail := by
  unfold World.exec
  rcases hf : w.faults with _ | ⟨b, rest⟩
  · simp
  · cases b <;> simp

theorem Lock.TryLock_spec (l : Lock) (now : Time) (w : World) :
    ((l.TryLock now w).1 = true ∧ (l.TryLock now w).2.1 = { l with locked := true } ∧
      w.db.EXISTS l.name now = false ∧ 0 < Duration.Milliseconds l.config.WaitTime ∧
      (l.TryLock now w).2.2.db = { w.db with strs := (Function.update w.db.strs l.name
        (some { val := l.token, deadline := some ((now : Int) +
          Duration.Milliseconds l.config.WaitTime * 1000000) })) }) ∨
    ((l.TryLock now w).1 = false ∧ (l.TryLock now w).2.1 = l ∧
      (l.TryLock now w).2.2.db = w.db) := by
  unfold Lock.TryLock Lock.tryAcquire
  rcases World.exec_cases w (cmdSetNXPX l.name l.token
    (Duration.Milliseconds l.config.WaitTime) now) with ⟨⟨m, h1⟩, h2, _⟩ | ⟨h1, h2⟩
  · right
    rcases hx : w.exec (cmdSetNXPX l.name l.token
      (Duration.Milliseconds l.config.WaitTime) now) with ⟨r, w1⟩
    rw [hx] at h1 h2
    simp at h1 h2
    subst h1
    simp [h2]
  · rcases hx : w.exec (cmdSetNXPX l.name l.token
      (Duration.Milliseconds l.config.WaitTime) now) with ⟨r, w1⟩
    rw [hx] at h1 h2
    simp only at h1 h2
    unfold cmdSetNXPX at h1 h2
    by_cases hms : Duration.Milliseconds l.config.WaitTime ≤ 0
    · right
      simp [hms] at h1 h2
      subst h1
      simp [h2]
    · by_cases hex : w.db.EXISTS l.name now = true
      · right
        simp [hms, hex] at h1 h2
        subst h1
        simp [h2]
      · left
        simp [hms, hex] at h1 h2
        subst h1
        simp [h2]
        refine ⟨by simpa using hex, by omega⟩

/-- A turn of the loop of `Lock` whose attempt succeeds ends the call the way
`TryLock` does: no error, the flag set, the same store. -/
theorem Lock.lockLoop_turn (l : Lock) (startTime now : Time) (fuel : Nat) (w : World)
    (h : (l.TryLock now w).1 = true) :
    l.lockLoop startTime (fuel + 1) now w =
      some (none, (l.TryLock now w).2.1, (l.TryLock now w).2.2) := by
  unfold Lock.TryLock at h ⊢
  unfold Lock.lockLoop
  rcases hx : l.tryAcquire now w with ⟨b, w1⟩
  rw [hx] at h
  cases b
  · simp at h
  · rfl

theorem Store.EXISTS_of_GET {s : Store} {key v : String} {now : Time}
    (h : s.GET key now = some v) : s.EXISTS key now = true := by
  simp [Store.EXISTS, h]

theorem unlockScript_hit {key token : String} {now : Time} {s : Store}
    (h : s.GET key now = some token) :
    unlockScript key token now s = (.ok 1, s.remove key) := by
  simp [unlockScript, h, cmdDEL, Store.EXISTS_of_GET h]

theorem unlockScript_miss {key token : String} {now : Time} {s : Store}
    (h : s.GET key now ≠ some token) :
    unlockScript key token now s = (.ok 0, s) := by
  simp [unlockScript, h]

theorem Lock.Unlock_spec (l : Lock) (now : Time) (w : World) :
    (l.locked = false ∧ l.Unlock now w = (none, l, w)) ∨
    (l.locked = true ∧ (l.Unlock now w).1 = none ∧
      (l.Unlock now w).2.1 = { l with locked := false } ∧
      w.db.GET l.name now = some l.token ∧
      (l.Unlock now w).2.2.db = w.db.remove l.name) ∨
    (l.locked = true ∧ (l.Unlock now w).1 ≠ none ∧ (l.Unlock now w).2.1 = l ∧
      (l.Unlock now w).2.2.db = w.db) := by
  unfold Lock.Unlock
  by_cases hl : l.locked = true
  · right
    rcases World.exec_cases w (unlockScript l.name l.token now) with ⟨⟨m, h1⟩, h2, _⟩ | ⟨h1, h2⟩
    · right
      rcases hx : w.exec (unlockScript l.name l.token now) with ⟨r, w1⟩
      rw [hx] at h1 h2
      simp at h1 h2
      subst h1
      simp [hl, h2]
    · rcases hx : w.exec (unlockScript l.name l.token now) with ⟨r, w1⟩
      rw [hx] at h1 h2
      simp only at h1 h2
      by_cases hg : w.db.GET l.name now = some l.token
      · left
        rw [unlockScript_hit hg] at h1 h2
        simp at h1 h2
        subst h1
        simp [hl, h2, hg]
      · right
        rw [unlockScript_miss hg] at h1 h2
        simp at h1 h2
        subst h1
        simp [hl, h2]
  · left
    simp at hl
    simp [hl]

theorem refreshScript_hit {key token : String} {ms : Int} {now : Time} {s : Store}
    (h : s.GET key now = some token) :
    refreshScript key token ms now s =
      (.ok 1, if ms ≤ 0 then s.remove key else
        { s with strs := (Function.update s.strs key
          (some { val := token, deadline := some ((now : Int) + ms * 1000000) })) }) := by
  simp only [refreshScript, h, cmdPEXPIRE, if_true]
  split <;> rfl

theorem refreshScript_miss {key token : String} {ms : Int} {now : Time} {s : Store}
    (h : s.GET key now ≠ some token) :
    refreshScript key token ms now s = (.ok 0, s) := by
  simp [refreshScript, h]

theorem Lock.Refresh_spec (l : Lock) (now : Time) (w : World) :
    (l.locked = false ∧ l.Refresh now w = (some .lockNotHeld, l, w)) ∨
    (l.locked = true ∧ (l.Refresh now w).1 = none ∧ (l.Refresh now w).2.1 = l ∧
      w.db.GET l.name now = some l.token ∧
      (l.Refresh now w).2.2.db =
        (refreshScript l.name l.token (Duration.Milliseconds l.config.WaitTime) now w.db).2) ∨
    (l.locked = true ∧ (∃ m, (l.Refresh now w).1 = some (.store m)) ∧
      (l.Refresh now w).2.1 = l ∧ (l.Refresh now w).2.2.db = w.db ∧ w.faults ≠ []) ∨
    (l.locked = true ∧ (l.Refresh now w).1 = some .refreshNotHeld ∧
      (l.Refresh now w).2.1 = { l with locked := false } ∧
      w.db.GET l.name now ≠ some l.token ∧ (l.Refresh now w).2.2.db = w.db) := by
  unfold Lock.Refresh
  by_cases hl : l.locked = true
  · right
    rcases World.exec_cases w (refreshScript l.name l.token
      (Duration.Milliseconds l.config.WaitTime) now) with ⟨⟨m, h1⟩, h2, h3⟩ | ⟨h1, h2⟩
    · right; left
      rcases hx : w.exec (refreshScript l.name l.token
        (Duration.Milliseconds l.config.WaitTime) now) with ⟨r, w1⟩
      rw [hx] at h1 h2
      simp at h1 h2
      subst h1
      simp [hl, h2, h3]
    · rcases hx : w.exec (refreshScript l.name l.token
        (Duration.Milliseconds l.config.WaitTime) now) with ⟨r, w1⟩
      rw [hx] at h1 h2
      simp only at h1 h2
      by_cases hg : w.db.GET l.name now = some l.token
      · left
        rw [refreshScript_hit hg] at h1
        simp at h1
        subst h1
        simp [hl, hg, h2]
      · right; right
        rw [refreshScript_miss hg] at h1 h2
        simp at h1 h2
        subst h1
        simp [hl, h2, hg]
  · left
    simp at hl
    simp [hl]

theorem Store.GET_eq_some {s : Store} {key v : String} {now : Time} :
    s.GET key now = some v ↔ ∃ e, s.strs key = some e ∧ e.live now = true ∧ e.val = v := by
  unfold Store.GET
  rcases hs : s.strs key with _ | e
  · simp
  · by_cases hl : e.live now = true <;> simp [hl]

/-- A key that the store keeps within its lease, or not at all, and that does
not exist, is absent. -/
theorem Store.strs_none_of_not_EXISTS {s : Store} {key : String} {now : Time}
    (hex : s.EXISTS key now = false)
    (hl : (match s.strs key with
      | some e => e.live now
      | none => true) = true) : s.strs key = none := by
  rcases hs : s.strs key with _ | e
  · rfl
  · rw [hs] at hl
    simp only at hl
    have : s.GET key now = some e.val := Store.GET_eq_some.mpr ⟨e, hs, hl, rfl⟩
    simp [Store.EXISTS, this] at hex

/-- A step changes the `locked` flag of the calling instance only. -/
theorem LockSys.step_locks (s : LockSys) (ev : LockEvent) :
    ∃ b, (s.step ev).2.locks =
      Function.update s.locks ev.who { s.locks ev.who with locked := b } := by
  obtain ⟨k, call, t⟩ := ev
  cases call
  · rcases Lock.TryLock_spec (s.locks k) t s.world with ⟨-, h2, -⟩ | ⟨-, h2, -⟩
    · exact ⟨true, by simp [LockSys.step, h2]⟩
    · exact ⟨(s.locks k).locked, by simp [LockSys.step, h2]⟩
  · rcases Lock.Unlock_spec (s.locks k) t s.world with ⟨-, h2⟩ | ⟨-, -, h2, -⟩ | ⟨-, -, h2, -⟩
    · exact ⟨(s.locks k).locked, by simp [LockSys.step, h2]⟩
    · exact ⟨false, by simp [LockSys.step, h2]⟩
    · exact ⟨(s.locks k).locked, by simp [LockSys.step, h2]⟩
  · rcases Lock.Refresh_spec (s.locks k) t s.world with ⟨-, h2⟩ | ⟨-, -, h2, -⟩ |
      ⟨-, -, h2, -⟩ | ⟨-, -, h2, -⟩
    · exact ⟨(s.locks k).locked, by simp [LockSys.step, h2]⟩
    · exact ⟨(s.locks k).locked, by simp [LockSys.step, h2]⟩
    · exact ⟨(s.locks k).locked, by simp [LockSys.step, h2]⟩
    · exact ⟨false, by simp [LockSys.step, h2]⟩

theorem LockSys.step_static (s : LockSys) (ev : LockEvent) (i : Nat) :
    ((s.step ev).2.locks i).name = (s.locks i).name ∧
    ((s.step ev).2.locks i).token = (s.locks i).token ∧
    ((s.step ev).2.locks i).config = (s.locks i).config := by
  obtain ⟨b, hb⟩ := s.step_locks ev
  rw [hb]
  by_cases hi : i = ev.who
  · subst hi; simp
  · simp [Function.update_noteq hi]

theorem LockSys.step_locked_other (s : LockSys) (ev : LockEvent) (i : Nat) (hi : i ≠ ev.who) :
    ((s.step ev).2.locks i).locked = (s.locks i).locked := by
  obtain ⟨b, hb⟩ := s.step_locks ev
  rw [hb, Function.update_noteq hi]

/-- What one call can do: acquire, release, renew, lose the flag, or nothing. -/
theorem LockSys.step_cases (s : LockSys) (k : Nat) (call : LockCall) (t : Time) :
    (call = .tryLock ∧ (s.step ⟨k, call, t⟩).1 = true ∧
      ((s.step ⟨k, call, t⟩).2.locks k).locked = true ∧
      s.world.db.EXISTS (s.locks k).name t = false ∧
      0 < Duration.Milliseconds (s.locks k).config.WaitTime ∧
      (s.step ⟨k, call, t⟩).2.world.db = { s.world.db with strs :=
        (Function.update s.world.db.strs (s.locks k).name
          (some { val := (s.locks k).token, deadline := some ((t : Int) +
            Duration.Milliseconds (s.locks k).config.WaitTime * 1000000) })) }) ∨
    (call = .unlock ∧ (s.step ⟨k, call, t⟩).1 = true ∧ (s.locks k).locked = true ∧
      ((s.step ⟨k, call, t⟩).2.locks k).locked = false ∧
      s.world.db.GET (s.locks k).name t = some (s.locks k).token ∧
      (s.step ⟨k, call, t⟩).2.world.db = s.world.db.remove (s.locks k).name) ∨
    (call = .refresh ∧ (s.step ⟨k, call, t⟩).1 = true ∧ (s.locks k).locked = true ∧
      ((s.step ⟨k, call, t⟩).2.locks k).locked = true ∧
      s.world.db.GET (s.locks k).name t = some (s.locks k).token ∧
      (s.step ⟨k, call, t⟩).2.world.db = (refreshScript (s.locks k).name (s.locks k).token
        (Duration.Milliseconds (s.locks k).config.WaitTime) t s.world.db).2) ∨
    (call = .refresh ∧ (s.step ⟨k, call, t⟩).1 = false ∧
      ((s.step ⟨k, call, t⟩).2.locks k).locked = false ∧
      s.world.db.GET (s.locks k).name t ≠ some (s.locks k).token ∧
      (s.step ⟨k, call, t⟩).2.world.db = s.world.db) ∨
    (((s.step ⟨k, call, t⟩).1 = true → call = .unlock ∧ (s.locks k).locked = false) ∧
      ((s.step ⟨k, call, t⟩).2.locks k).locked = (s.locks k).locked ∧
      (s.step ⟨k, call, t⟩).2.world.db = s.world.db) := by
  cases call
  · rcases Lock.TryLock_spec (s.locks k) t s.world with ⟨h1, h2, h3, h4, h5⟩ | ⟨h1, h2, h3⟩
    · left
      simp [LockSys.step, h1, h2, h3, h4, h5]
    · right; right; right; right
      simp [LockSys.step, h1, h2, h3]
  · rcases Lock.Unlock_spec (s.locks k) t s.world with ⟨h1, h2⟩ | ⟨h1, h2, h3, h4, h5⟩ |
      ⟨h1, h2, h3, h4⟩
    · right; right; right; right
      simp [LockSys.step, h1, h2]
    · right; left
      simp [LockSys.step, h1, h2, h3, h4, h5]
    · right; right; right; right
      rcases hx : ((s.locks k).Unlock t s.world).1 with _ | err
      · exact absurd hx h2
      · simp [LockSys.step, h3, h4, hx]
  · rcases Lock.Refresh_spec (s.locks k) t s.world with ⟨h1, h2⟩ | ⟨h1, h2, h3, h4, h5⟩ |
      ⟨h1, ⟨m, h2⟩, h3, h4, _⟩ | ⟨h1, h2, h3, h4, h5⟩
    · right; right; right; right
      simp [LockSys.step, h1, h2]
    · right; right; left
      simp [LockSys.step, h1, h2, h3, h4, h5]
    · right; right; right; right
      simp [LockSys.step, h2, h3, h4]
    · right; right; right; left
      simp [LockSys.step, h2, h3, h4, h5]

theorem LockInv.step {s : LockSys} {nm : String} {h : Nat → Bool} (inv : LockInv s nm h)
    (ev : LockEvent)
    (hl : (match s.world.db.strs nm with
      | some e => e.live ev.time
      | none => true) = true) :
    LockInv (s.step ev).2 nm (fun i => holdStep i (h i) (ev, (s.step ev).1)) := by
  obtain ⟨k, call, t⟩ := ev
  have hnm := inv.name k
  have hN : ∀ i, ((s.step ⟨k, call, t⟩).2.locks i).name = (s.locks i).name :=
    fun i => (s.step_static _ i).1
  have hT : ∀ i, ((s.step ⟨k, call, t⟩).2.locks i).token = (s.locks i).token :=
    fun i => (s.step_static _ i).2.1
  have hC : ∀ i, ((s.step ⟨k, call, t⟩).2.locks i).config = (s.locks i).config :=
    fun i => (s.step_static _ i).2.2
  have hO : ∀ i, i ≠ k → ((s.step ⟨k, call, t⟩).2.locks i).locked = (s.locks i).locked :=
    fun i hi => s.step_locked_other _ i hi
  have hname : ∀ i, ((s.step ⟨k, call, t⟩).2.locks i).name = nm := fun i => by
    rw [hN]; exact inv.name i
  have htok : ∀ i j, ((s.step ⟨k, call, t⟩).2.locks i).token =
      ((s.step ⟨k, call, t⟩).2.locks j).token → i = j := fun i j hij => by
    rw [hT, hT] at hij; exact inv.tok i j hij
  -- an instance whose token is stored is the one whose token `GET` returns
  have honly : ∀ i, s.world.db.GET nm t = some (s.locks k).token →
      (∃ e, s.world.db.strs nm = some e ∧ e.val = (s.locks i).token) → i = k := by
    rintro i hg ⟨e2, he2, hv2⟩
    obtain ⟨e, he, -, hval⟩ := Store.GET_eq_some.mp hg
    rw [he] at he2
    cases he2
    exact inv.tok i k (by rw [← hv2, hval])
  rcases s.step_cases k call t with ⟨hc, hb, hk, hex, hms, hdb⟩ | ⟨hc, hb, hlk, hk, hg, hdb⟩ |
    ⟨hc, hb, hlk, hk, hg, hdb⟩ | ⟨hc, hb, hk, hg, hdb⟩ | ⟨hb, hk, hdb⟩
  · -- acquire
    subst hc
    rw [hnm] at hex hdb
    have hnone := Store.strs_none_of_not_EXISTS hex hl
    have hfalse : ∀ i, (s.locks i).locked = false := by
      intro i
      by_contra hcon
      obtain ⟨e, he, _⟩ := inv.flag i (by simpa using hcon)
      rw [hnone] at he; cases he
    have hhfalse : ∀ i, h i = false := by
      intro i
      by_contra hcon
      obtain ⟨e, he, _⟩ := inv.held i (by simpa using hcon)
      rw [hnone] at he; cases he
    have hh : ∀ i, holdStep i (h i) (⟨k, .tryLock, t⟩, (s.step ⟨k, .tryLock, t⟩).1) = true →
        i = k := by
      intro i hi
      by_contra hik
      have hki : ¬ k = i := fun e => hik e.symm
      simp [holdStep, hb, hki, hhfalse i] at hi
    have hstr : (s.step ⟨k, .tryLock, t⟩).2.world.db.strs nm = some
        { val := (s.locks k).token, deadline := some ((t : Int) +
            Duration.Milliseconds (s.locks k).config.WaitTime * 1000000) } := by
      rw [hdb]; simp
    refine ⟨hname, htok, ?_, ?_, ?_, ?_, ?_⟩
    · intro i hi
      have := hh i hi
      subst this
      exact ⟨_, hstr, by rw [hT]⟩
    · intro i hi
      by_cases hik : i = k
      · subst hik
        exact ⟨_, hstr, by rw [hT]⟩
      · rw [hO i hik, hfalse i] at hi; cases hi
    · intro i hi
      have := hh i hi
      subst this
      exact hk
    · intro e i he hv
      rw [hstr] at he
      cases he
      rw [hT] at hv
      have := inv.tok _ _ hv
      subst this
      rw [hC]; exact hms
    · rw [hdb]; exact inv.other
  · -- release
    subst hc
    rw [hnm] at hg hdb
    have hstr : (s.step ⟨k, .unlock, t⟩).2.world.db.strs nm = none := by
      rw [hdb]; simp [Store.remove]
    have hh : ∀ i, holdStep i (h i) (⟨k, .unlock, t⟩, (s.step ⟨k, .unlock, t⟩).1) = false := by
      intro i
      by_cases hik : k = i
      · subst hik; simp [holdStep, hb]
      · by_contra hcon
        have hi2 : h i = true := by simpa [holdStep, hik] using hcon
        exact hik (honly i hg (inv.held i hi2)).symm
    refine ⟨hname, htok, ?_, ?_, ?_, ?_, ?_⟩
    · intro i hi
      rw [hh i] at hi; cases hi
    · intro i hi
      by_cases hik : i = k
      · subst hik; rw [hk] at hi; cases hi
      · rw [hO i hik] at hi
        exact absurd (honly i hg (inv.flag i hi)) hik
    · intro i hi
      rw [hh i] at hi; cases hi
    · intro e i he
      rw [hstr] at he; cases he
    · rw [hdb]; simp [Store.remove]
  · -- renew
    subst hc
    rw [hnm] at hg hdb
    obtain ⟨e, he, hlive, hval⟩ := Store.GET_eq_some.mp hg
    have hms := inv.lease e k he hval
    rw [refreshScript_hit hg, if_neg (by omega)] at hdb
    have hstr : (s.step ⟨k, .refresh, t⟩).2.world.db.strs nm = some
        { val := (s.locks k).token, deadline := some ((t : Int) +
            Duration.Milliseconds (s.locks k).config.WaitTime * 1000000) } := by
      rw [hdb]; simp
    have hh : ∀ i, holdStep i (h i) (⟨k, .refresh, t⟩, (s.step ⟨k, .refresh, t⟩).1) = h i := by
      intro i; simp [holdStep]
    have hlocked : ∀ i, ((s.step ⟨k, .refresh, t⟩).2.locks i).locked = (s.locks i).locked := by
      intro i
      by_cases hik : i = k
      · subst hik; rw [hk, hlk]
      · exact hO i hik
    refine ⟨hname, htok, ?_, ?_, ?_, ?_, ?_⟩
    · intro i hi
      rw [hh i] at hi
      have := honly i hg (inv.held i hi)
      subst this
      exact ⟨_, hstr, by rw [hT]⟩
    · intro i hi
      rw [hlocked i] at hi
      have := honly i hg (inv.flag i hi)
      subst this
      exact ⟨_, hstr, by rw [hT]⟩
    · intro i hi
      rw [hh i] at hi
      rw [hlocked i]
      exact inv.hflag i hi
    · intro e2 i he2 hv
      rw [hstr] at he2
      cases he2
      rw [hT] at hv
      have := inv.tok _ _ hv
      subst this
      rw [hC]; exact hms
    · rw [hdb]; exact inv.other
  · -- the flag is lost
    subst hc
    rw [hnm] at hg
    have hnot : ¬ ∃ e, s.world.db.strs nm = some e ∧ e.val = (s.locks k).token := by
      rintro ⟨e, he, hv⟩
      rw [he] at hl
      exact hg (Store.GET_eq_some.mpr ⟨e, he, hl, hv⟩)
    have hh : ∀ i, holdStep i (h i) (⟨k, .refresh, t⟩, (s.step ⟨k, .refresh, t⟩).1) = h i := by
      intro i; simp [holdStep]
    refine ⟨hname, htok, ?_, ?_, ?_, ?_, ?_⟩
    · intro i hi
      rw [hh i] at hi
      rw [hdb, hT]
      exact inv.held i hi
    · intro i hi
      by_cases hik : i = k
      · subst hik; rw [hk] at hi; cases hi
      · rw [hO i hik] at hi
        rw [hdb, hT]
        exact inv.flag i hi
    · intro i hi
      rw [hh i] at hi
      by_cases hik : i = k
      · subst hik
        exact absurd (inv.held i hi) hnot
      · rw [hO i hik]
        exact inv.hflag i hi
    · intro e i he hv
      rw [hdb] at he
      rw [hT] at hv
      rw [hC]
      exact inv.lease e i he hv
    · rw [hdb]; exact inv.other
  · -- nothing changes
    have hh : ∀ i, holdStep i (h i) (⟨k, call, t⟩, (s.step ⟨k, call, t⟩).1) = h i := by
      intro i
      by_cases hbt : (s.step ⟨k, call, t⟩).1 = true
      · obtain ⟨hc, hlk⟩ := hb hbt
        subst hc
        by_cases hik : k = i
        · subst hik
          have : h k = false := by
            by_contra hcon
            have := inv.hflag k (by simpa using hcon)
            rw [hlk] at this; cases this
          simp [holdStep, this]
        · simp [holdStep, hik]
      · simp [holdStep, hbt]
    have hlocked : ∀ i, ((s.step ⟨k, call, t⟩).2.locks i).locked = (s.locks i).locked := by
      intro i
      by_cases hik : i = k
      · subst hik; exact hk
      · exact hO i hik
    refine ⟨hname, htok, ?_, ?_, ?_, ?_, ?_⟩
    · intro i hi
      rw [hh i] at hi
      rw [hdb, hT]
      exact inv.held i hi
    · intro i hi
      rw [hlocked i] at hi
      rw [hdb, hT]
      exact inv.flag i hi
    · intro i hi
      rw [hh i] at hi
      rw [hlocked i]
      exact inv.hflag i hi
    · intro e i he hv
      rw [hdb] at he
      rw [hT] at hv
      rw [hC]
      exact inv.lease e i he hv
    · rw [hdb]; exact inv.other

theorem LockSys.log_append (s : LockSys) (a b : List LockEvent) :
    s.log (a ++ b) = s.log a ++ (s.after a).log b := by
  induction a generalizing s with
  | nil => rfl
  | cons ev rest ih => simp [LockSys.log, LockSys.after, ih]

theorem LockSys.after_append (s : LockSys) (a b : List LockEvent) :
    s.after (a ++ b) = (s.after a).after b := by
  induction a generalizing s with
  | nil => rfl
  | cons ev rest ih => simp [LockSys.after, ih]

theorem LockSys.leasesLive_append (s : LockSys) (key : String) (a b : List LockEvent) :
    s.leasesLive key (a ++ b) = (s.leasesLive key a && (s.after a).leasesLive key b) := by
  induction a generalizing s with
  | nil => simp [LockSys.leasesLive, LockSys.after]
  | cons ev rest ih => simp [LockSys.leasesLive, LockSys.after, ih, Bool.and_assoc]

/-- The invariant holds along a run during which no lease ends. -/
theorem LockInv.run {s : LockSys} {nm : String} {h : Nat → Bool} (inv : LockInv s nm h)
    (evs : List LockEvent) (hl : s.leasesLive nm evs = true) :
    LockInv (s.after evs) nm (fun i => (s.log evs).foldl (holdStep i) (h i)) := by
  induction evs generalizing s h with
  | nil => simpa [LockSys.after, LockSys.log] using inv
  | cons ev rest ih =>
    simp only [LockSys.leasesLive, Bool.and_eq_true] at hl
    have := ih (inv.step ev hl.1) hl.2
    simpa [LockSys.after, LockSys.log] using this

/-- The invariant holds when no instance has the flag and the key is absent. -/
theorem LockInv.init (locks : Nat → Lock) (nm : String) (w0 : World)
    (hname : ∀ i, (locks i).name = nm)
    (htok : ∀ i j, (locks i).token = (locks j).token → i = j)
    (hnew : ∀ i, (locks i).locked = false)
    (habs : w0.db.absent nm) :
    LockInv { locks := locks, world := w0 } nm (fun _ => false) := by
  refine ⟨hname, htok, ?_, ?_, ?_, ?_, ?_⟩
  · intro i hi; cases hi
  · intro i hi; rw [hnew i] at hi; cases hi
  · intro i hi; cases hi
  · intro e i he; rw [habs.1] at he; cases he
  · exact habs.2

theorem LockSys.step_faults (s : LockSys) (ev : LockEvent) (hf : s.world.faults = []) :
    (s.step ev).2.world.faults = [] := by
  obtain ⟨k, call, t⟩ := ev
  cases call
  · simp only [LockSys.step, Lock.TryLock, Lock.tryAcquire]
    have := World.exec_faults s.world (cmdSetNXPX (s.locks k).name (s.locks k).token
      (Duration.Milliseconds (s.locks k).config.WaitTime) t)
    rw [hf] at this
    rcases hx : s.world.exec (cmdSetNXPX (s.locks k).name (s.locks k).token
      (Duration.Milliseconds (s.locks k).config.WaitTime) t) with ⟨r, w1⟩
    rw [hx] at this
    rcases r with e | b
    · simpa using this
    · cases b <;> simpa using this
  · simp only [LockSys.step, Lock.Unlock]
    by_cases hl : (s.locks k).locked = true
    · have := World.exec_faults s.world (unlockScript (s.locks k).name (s.locks k).token t)
      rw [hf] at this
      rcases hx : s.world.exec (unlockScript (s.locks k).name (s.locks k).token t) with ⟨r, w1⟩
      rw [hx] at this
      rcases r with e | n
      · simpa [hl] using this
      · by_cases hn : n = 1 <;> simpa [hl, hn] using this
    · simp at hl
      simp [hl, hf]
  · simp only [LockSys.step, Lock.Refresh]
    by_cases hl : (s.locks k).locked = true
    · have := World.exec_faults s.world (refreshScript (s.locks k).name (s.locks k).token
        (Duration.Milliseconds (s.locks k).config.WaitTime) t)
      rw [hf] at this
      rcases hx : s.world.exec (refreshScript (s.locks k).name (s.locks k).token
        (Duration.Milliseconds (s.locks k).config.WaitTime) t) with ⟨r, w1⟩
      rw [hx] at this
      rcases r with e | n
      · simpa [hl] using this
      · by_cases hn : n = 0 <;> simpa [hl, hn] using this
    · simp at hl
      simp [hl, hf]

theorem LockSys.after_faults (s : LockSys) (evs : List LockEvent) (hf : s.world.faults = []) :
    (s.after evs).world.faults = [] := by
  induction evs generalizing s with
  | nil => exact hf
  | cons ev rest ih => exact ih _ (s.step_faults ev hf)

theorem LockSys.after_static (s : LockSys) (evs : List LockEvent) (i : Nat) :
    ((s.after evs).locks i).name = (s.locks i).name ∧
    ((s.after evs).locks i).token = (s.locks i).token ∧
    ((s.after evs).locks i).config = (s.locks i).config := by
  induction evs generalizing s with
  | nil => exact ⟨rfl, rfl, rfl⟩
  | cons ev rest ih =>
    obtain ⟨h1, h2, h3⟩ := ih (s.step ev).2
    obtain ⟨g1, g2, g3⟩ := s.step_static ev i
    exact ⟨h1.trans g1, h2.trans g2, h3.trans g3⟩

/-- On a connection without failures an attempt on a key that does not exist,
with a lease of at least one millisecond, succeeds. -/
theorem Lock.TryLock_up (l : Lock) (now : Time) (w : World) (hf : w.faults = [])
    (hex : w.db.EXISTS l.name now = false)
    (hms : 0 < Duration.Milliseconds l.config.WaitTime) : (l.TryLock now w).1 = true := by
  unfold Lock.TryLock Lock.tryAcquire
  rcases World.exec_cases w (cmdSetNXPX l.name l.token
    (Duration.Milliseconds l.config.WaitTime) now) with ⟨-, -, h3⟩ | ⟨h1, h2⟩
  · exact absurd hf h3
  · rcases hx : w.exec (cmdSetNXPX l.name l.token
      (Duration.Milliseconds l.config.WaitTime) now) with ⟨r, w1⟩
    rw [hx] at h1
    have hms2 : ¬ Duration.Milliseconds l.config.WaitTime ≤ 0 := by omega
    simp [cmdSetNXPX, hms2, hex] at h1
    subst h1
    rfl

/-- An attempt on a key that exists fails and changes nothing. -/
theorem LockSys.tryLock_of_EXISTS (s : LockSys) (k : Nat) (t : Time)
    (hex : s.world.db.EXISTS (s.locks k).name t = true) :
    (s.step ⟨k, .tryLock, t⟩).1 = false ∧
    (s.step ⟨k, .tryLock, t⟩).2.world.db = s.world.db ∧
    ∀ i, ((s.step ⟨k, .tryLock, t⟩).2.locks i).locked = (s.locks i).locked := by
  rcases Lock.TryLock_spec (s.locks k) t s.world with ⟨h1, h2, h3, h4, h5⟩ | ⟨h1, h2, h3⟩
  · rw [hex] at h3; cases h3
  · refine ⟨by simp [LockSys.step, h1], by simp [LockSys.step, h3], ?_⟩
    intro i
    simp [LockSys.step, h2]

theorem Store.EXISTS_of_absent {s : Store} {key : String} (h : s.absent key) (now : Time) :
    s.EXISTS key now = false := by
  obtain ⟨h1, h2, h3, h4⟩ := h
  simp [Store.EXISTS, Store.GET, h1, h2, h3, h4]

/-- While the key is absent and no instance has the flag, calls other than an
acquisition attempt change neither. -/
theorem LockSys.idle_step (s : LockSys) (nm : String) (ev : LockEvent)
    (habs : s.world.db.absent nm) (hfl : ∀ i, (s.locks i).locked = false)
    (hcall : ev.call ≠ .tryLock) :
    (s.step ev).2.world.db.absent nm ∧ ∀ i, ((s.step ev).2.locks i).locked = false := by
  obtain ⟨k, call, t⟩ := ev
  have hO : ∀ i, i ≠ k → ((s.step ⟨k, call, t⟩).2.locks i).locked = false :=
    fun i hi => by rw [s.step_locked_other _ i hi]; exact hfl i
  have hall : ((s.step ⟨k, call, t⟩).2.locks k).locked = false →
      ∀ i, ((s.step ⟨k, call, t⟩).2.locks i).locked = false := by
    intro hk i
    by_cases hik : i = k
    · subst hik; exact hk
    · exact hO i hik
  rcases s.step_cases k call t with ⟨hc, -⟩ | ⟨-, -, hlk, -⟩ | ⟨-, -, hlk, -⟩ |
    ⟨-, -, hk, -, hdb⟩ | ⟨-, hk, hdb⟩
  · exact absurd hc hcall
  · rw [hfl k] at hlk; cases hlk
  · rw [hfl k] at hlk; cases hlk
  · rw [hdb]; exact ⟨habs, hall hk⟩
  · rw [hdb]; exact ⟨habs, hall (by rw [hk]; exact hfl k)⟩

theorem LockSys.idle_run (s : LockSys) (nm : String) (q : List LockEvent)
    (hname : ∀ i, (s.locks i).name = nm)
    (habs : s.world.db.absent nm) (hfl : ∀ i, (s.locks i).locked = false)
    (hcall : ∀ ev ∈ q, ev.call ≠ .tryLock) :
    (s.after q).world.db.absent nm ∧ ∀ i, ((s.after q).locks i).locked = false := by
  induction q generalizing s with
  | nil => exact ⟨habs, hfl⟩
  | cons ev rest ih =>
    obtain ⟨h1, h2⟩ := s.idle_step nm ev habs hfl (hcall ev (List.mem_cons_self _ _))
    exact ih (s.step ev).2 (fun i => by rw [(s.step_static ev i).1]; exact hname i) h1 h2
      (fun e he => hcall e (List.mem_cons_of_mem _ he))

/-- While instance `j` keeps the key and no other instance has the flag, a call
other than an `Unlock` of `j` leaves it so, and an acquisition attempt fails. -/
theorem LockSys.held_step (s : LockSys) (nm : String) (j : Nat) (ev : LockEvent)
    (hname : ∀ i, (s.locks i).name = nm)
    (hms : 0 < Duration.Milliseconds (s.locks j).config.WaitTime)
    (hkey : ∃ e, s.world.db.strs nm = some e ∧ e.val = (s.locks j).token)
    (hfl : ∀ i, i ≠ j → (s.locks i).locked = false)
    (hl : (match s.world.db.strs nm with
      | some e => e.live ev.time
      | none => true) = true)
    (hno : ev.who = j → ev.call ≠ .unlock) :
    (∃ e, (s.step ev).2.world.db.strs nm = some e ∧ e.val = (s.locks j).token) ∧
    (∀ i, i ≠ j → ((s.step ev).2.locks i).locked = false) ∧
    (ev.call = .tryLock → (s.step ev).1 = false) := by
  obtain ⟨k, call, t⟩ := ev
  obtain ⟨e, he, hv⟩ := hkey
  rw [he] at hl
  simp only at hl
  have hget : s.world.db.GET nm t = some (s.locks j).token :=
    Store.GET_eq_some.mpr ⟨e, he, hl, hv⟩
  have hO : ∀ i, i ≠ k → ((s.step ⟨k, call, t⟩).2.locks i).locked = (s.locks i).locked :=
    fun i hi => s.step_locked_other _ i hi
  have hall : (k ≠ j → ((s.step ⟨k, call, t⟩).2.locks k).locked = false) →
      ∀ i, i ≠ j → ((s.step ⟨k, call, t⟩).2.locks i).locked = false := by
    intro hk i hij
    by_cases hik : i = k
    · subst hik; exact hk hij
    · rw [hO i hik]; exact hfl i hij
  have hkj : (s.locks k).locked = true → k = j := by
    intro hlk
    by_contra hne
    rw [hfl k hne] at hlk; cases hlk
  rcases s.step_cases k call t with ⟨hc, hb, hk, hex, -⟩ | ⟨hc, hb, hlk, hk, hg, hdb⟩ |
    ⟨hc, hb, hlk, hk, hg, hdb⟩ | ⟨hc, hb, hk, hg, hdb⟩ | ⟨hb, hk, hdb⟩
  · rw [hname k, Store.EXISTS_of_GET hget] at hex; cases hex
  · exact absurd hc (hno (hkj hlk))
  · have := hkj hlk
    subst this
    rw [hname k] at hdb hg
    rw [refreshScript_hit hg, if_neg (by omega)] at hdb
    refine ⟨by rw [hdb]; simp, hall (fun h => absurd rfl h), ?_⟩
    intro hct; rw [hc] at hct; cases hct
  · refine ⟨⟨e, by rw [hdb]; exact he, hv⟩, hall (fun _ => hk), ?_⟩
    intro hct; rw [hc] at hct; cases hct
  · refine ⟨⟨e, by rw [hdb]; exact he, hv⟩, hall (fun h => by rw [hk]; exact hfl k h), ?_⟩
    intro hct
    by_contra hbt
    have := (hb (by simpa using hbt)).1
    simp only at hct
    rw [hct] at this; cases this

theorem LockSys.held_run (s : LockSys) (nm : String) (j : Nat) (rest : List LockEvent)
    (hname : ∀ i, (s.locks i).name = nm)
    (hms : 0 < Duration.Milliseconds (s.locks j).config.WaitTime)
    (hkey : ∃ e, s.world.db.strs nm = some e ∧ e.val = (s.locks j).token)
    (hfl : ∀ i, i ≠ j → (s.locks i).locked = false)
    (hl : s.leasesLive nm rest = true)
    (hno : ∀ ev ∈ rest, ev.who = j → ev.call ≠ .unlock) :
    ∀ p ∈ s.log rest, p.1.call = .tryLock → p.2 = false := by
  induction rest generalizing s with
  | nil => intro p hp; simp [LockSys.log] at hp
  | cons ev rest ih =>
    simp only [LockSys.leasesLive, Bool.and_eq_true] at hl
    obtain ⟨h1, h2, h3⟩ := s.held_step nm j ev hname hms hkey hfl hl.1
      (hno ev (List.mem_cons_self _ _))
    obtain ⟨g1, g2, g3⟩ := s.step_static ev j
    intro p hp
    simp only [LockSys.log, List.mem_cons] at hp
    rcases hp with rfl | hp
    · exact h3
    · refine ih (s.step ev).2 (fun i => by rw [(s.step_static ev i).1]; exact hname i)
        (by rw [g3]; exact hms) ?_ h2 hl.2
        (fun e he => hno e (List.mem_cons_of_mem _ he)) p hp
      rw [g2]; exact h1

theorem Duration.Milliseconds_pos {d : Duration} (h : Millisecond ≤ d) :
    0 < Duration.Milliseconds d := by
  have h2 : (1000000 : Int) ≤ d := h
  unfold Duration.Milliseconds
  rw [Int.tdiv_eq_ediv (by omega) (by norm_num)]
  omega

/-- C1, as amended. For every family of lock instances on one lock name with
pairwise distinct tokens, started with the key absent and no instance holding,
on a connection that answers every command, and every interleaving of
`TryLock` attempts (the step of `TryLock` and of each turn of `Lock`), `Unlock`
and `Refresh` calls during which no lease ends: (a) at most one instance has a
successful acquisition that was not followed by a successful `Unlock` of its
own; (b) after the `Unlock` of the holder succeeds, when the first later
attempt is made by an instance whose `WaitTime` is at least one millisecond,
that attempt succeeds, and every attempt made after it, before that instance
calls `Unlock`, fails. -/
theorem lock_mutual_exclusion (locks : Nat → Lock) (nm : String) (w0 : World)
    (evs : List LockEvent)
    (hname : ∀ i, (locks i).name = nm)
    (htok : ∀ i j, (locks i).token = (locks j).token → i = j)
    (hnew : ∀ i, (locks i).locked = false)
    (habs : w0.db.absent nm)
    (hf : w0.faults = [])
    (hlive : LockSys.leasesLive ⟨locks, w0⟩ nm evs = true) :
    (∀ i j, holds i (LockSys.log ⟨locks, w0⟩ evs) = true →
      holds j (LockSys.log ⟨locks, w0⟩ evs) = true → i = j) ∧
    (∀ pre i t q j t2 rest,
      evs = pre ++ ⟨i, .unlock, t⟩ :: (q ++ ⟨j, .tryLock, t2⟩ :: rest) →
      holds i (LockSys.log ⟨locks, w0⟩ pre) = true →
      ((LockSys.after ⟨locks, w0⟩ pre).step ⟨i, .unlock, t⟩).1 = true →
      (∀ ev ∈ q, ev.call ≠ .tryLock) →
      Millisecond ≤ (locks j).config.WaitTime →
      ((LockSys.after ⟨locks, w0⟩ (pre ++ ⟨i, .unlock, t⟩ :: q)).step
        ⟨j, .tryLock, t2⟩).1 = true ∧
      ((∀ ev ∈ rest, ev.who = j → ev.call ≠ .unlock) →
        ∀ p ∈ (LockSys.after ⟨locks, w0⟩
            (pre ++ ⟨i, .unlock, t⟩ :: (q ++ [⟨j, .tryLock, t2⟩]))).log rest,
          p.1.call = .tryLock → p.2 = false)) := by
  have inv0 := LockInv.init locks nm w0 hname htok hnew habs
  constructor
  · intro i j hi hj
    have inv := inv0.run evs hlive
    obtain ⟨e1, he1, hv1⟩ := inv.held i hi
    obtain ⟨e2, he2, hv2⟩ := inv.held j hj
    rw [he1] at he2
    cases he2
    exact inv.tok i j (by rw [← hv1, hv2])
  · intro pre i t q j t2 rest hevs hi hu hq hms
    subst hevs
    rw [LockSys.leasesLive_append] at hlive
    simp only [Bool.and_eq_true] at hlive
    obtain ⟨hl1, hl2⟩ := hlive
    have hcons : ∀ (s : LockSys) (ev : LockEvent) (l : List LockEvent),
        s.leasesLive nm (ev :: l) = true →
        (match s.world.db.strs nm with
          | some e => e.live ev.time
          | none => true) = true ∧ (s.step ev).2.leasesLive nm l = true := by
      intro s ev l h
      simpa [LockSys.leasesLive] using h
    obtain ⟨hl2a, hl2b⟩ := hcons _ _ _ hl2
    rw [LockSys.leasesLive_append] at hl2b
    simp only [Bool.and_eq_true] at hl2b
    obtain ⟨-, hl3⟩ := hl2b
    obtain ⟨-, hl4⟩ := hcons _ _ _ hl3
    -- the state before the release
    have inv1 := inv0.run pre hl1
    have hlk := inv1.hflag i hi
    -- the release removes the key
    have inv2 := inv1.step ⟨i, .unlock, t⟩ hl2a
    have hdb2 : ((LockSys.after ⟨locks, w0⟩ pre).step ⟨i, .unlock, t⟩).2.world.db.absent nm := by
      rcases (LockSys.after ⟨locks, w0⟩ pre).step_cases i .unlock t with
        ⟨hc, -⟩ | ⟨-, -, -, -, -, hdb⟩ | ⟨hc, -⟩ | ⟨hc, -⟩ | ⟨hb, -, -⟩
      · cases hc
      · rw [hdb, inv1.name i]
        simp [Store.absent, Store.remove]
      · cases hc
      · cases hc
      · have := (hb hu).2
        rw [hlk] at this; cases this
    have hfl2 : ∀ k, (((LockSys.after ⟨locks, w0⟩ pre).step ⟨i, .unlock, t⟩).2.locks k).locked
        = false := by
      intro k
      by_contra hcon
      obtain ⟨e, he, -⟩ := inv2.flag k (by simpa using hcon)
      rw [hdb2.1] at he; cases he
    -- the calls before the first attempt change nothing
    obtain ⟨hdb3, hfl3⟩ := LockSys.idle_run _ nm q inv2.name hdb2 hfl2 hq
    have hs3 : LockSys.after ⟨locks, w0⟩ (pre ++ ⟨i, .unlock, t⟩ :: q) =
        LockSys.after ((LockSys.after ⟨locks, w0⟩ pre).step ⟨i, .unlock, t⟩).2 q := by
      rw [LockSys.after_append]; rfl
    have hs4 : LockSys.after ⟨locks, w0⟩ (pre ++ ⟨i, .unlock, t⟩ :: (q ++ [⟨j, .tryLock, t2⟩])) =
        ((LockSys.after ⟨locks, w0⟩ (pre ++ ⟨i, .unlock, t⟩ :: q)).step ⟨j, .tryLock, t2⟩).2 := by
      rw [LockSys.after_append, LockSys.after_append]
      simp [LockSys.after, LockSys.after_append]
    rw [← hs3] at hdb3 hfl3 hl4
    have hst := LockSys.after_static ⟨locks, w0⟩ (pre ++ ⟨i, .unlock, t⟩ :: q)
    have hname3 : ∀ k, ((LockSys.after ⟨locks, w0⟩ (pre ++ ⟨i, .unlock, t⟩ :: q)).locks k).name
        = nm := fun k => by rw [(hst k).1]; exact hname k
    have hms3 : 0 < Duration.Milliseconds
        ((LockSys.after ⟨locks, w0⟩ (pre ++ ⟨i, .unlock, t⟩ :: q)).locks j).config.WaitTime := by
      rw [(hst j).2.2]; exact Duration.Milliseconds_pos hms
    have hf3 := LockSys.after_faults ⟨locks, w0⟩ (pre ++ ⟨i, .unlock, t⟩ :: q) hf
    have hwin : ((LockSys.after ⟨locks, w0⟩ (pre ++ ⟨i, .unlock, t⟩ :: q)).step
        ⟨j, .tryLock, t2⟩).1 = true := by
      simp only [LockSys.step]
      exact Lock.TryLock_up _ t2 _ hf3
        (by rw [hname3 j]; exact Store.EXISTS_of_absent hdb3 t2) hms3
    refine ⟨hwin, ?_⟩
    intro hno
    rw [hs4]
    have hst4 := (LockSys.after ⟨locks, w0⟩ (pre ++ ⟨i, .unlock, t⟩ :: q)).step_static
      ⟨j, .tryLock, t2⟩
    refine LockSys.held_run _ nm j rest (fun k => by rw [(hst4 k).1]; exact hname3 k)
      (by rw [(hst4 j).2.2]; exact hms3) ?_ ?_ hl4 hno
    · rcases (LockSys.after ⟨locks, w0⟩ (pre ++ ⟨i, .unlock, t⟩ :: q)).step_cases j .tryLock t2
        with ⟨-, -, -, -, -, hdb⟩ | ⟨hc, -⟩ | ⟨hc, -⟩ | ⟨hc, -⟩ | ⟨hb, -, -⟩
      · rw [hdb, hname3 j, (hst4 j).2.1]
        simp
      · cases hc
      · cases hc
      · cases hc
      · have := (hb hwin).1
        cases this
    · intro k hk
      rw [LockSys.step_locked_other _ _ k hk]
      exact hfl3 k

theorem demoLock_token_injective (w1 w2 : Duration) (i j : Nat)
    (h : (demoLock i w1).token = (demoLock j w2).token) : i = j := by
  have h2 := congrArg String.length h
  simp [demoLock, Redis.NewLock, String.length] at h2
  exact h2

/-- Witness of C1: three instances with leases of five seconds; instance 0
acquires, instance 1 is refused, instance 0 releases, instance 1 acquires,
instance 2 is refused. -/
theorem lock_mutual_exclusion_witness :
    LockSys.leasesLive ⟨fiveSecondLocks, World.up Store.empty⟩ "lock:job" handOverCalls = true ∧
    ((LockSys.after ⟨fiveSecondLocks, World.up Store.empty⟩
        ([⟨0, .tryLock, 0⟩, ⟨1, .tryLock, 1⟩] ++ ⟨0, .unlock, 2⟩ :: [])).step
      ⟨1, .tryLock, 3⟩).1 = true ∧
    (∀ p ∈ (LockSys.after ⟨fiveSecondLocks, World.up Store.empty⟩
        ([⟨0, .tryLock, 0⟩, ⟨1, .tryLock, 1⟩] ++
          ⟨0, .unlock, 2⟩ :: ([] ++ [⟨1, .tryLock, 3⟩]))).log [⟨2, .tryLock, 4⟩],
      p.1.call = .tryLock → p.2 = false) :=
  have hlive : LockSys.leasesLive ⟨fiveSecondLocks, World.up Store.empty⟩ "lock:job"
      handOverCalls = true := by decide
  have key := (lock_mutual_exclusion fiveSecondLocks "lock:job" (World.up Store.empty)
    handOverCalls (fun _ => rfl) (fun i j h => demoLock_token_injective _ _ i j h)
    (fun _ => rfl) ⟨rfl, rfl, rfl, rfl⟩ rfl hlive).2
    [⟨0, .tryLock, 0⟩, ⟨1, .tryLock, 1⟩] 0 2 [] 1 3 [⟨2, .tryLock, 4⟩] rfl (by decide)
    (by decide) (by simp) (by decide)
  ⟨hlive, key.1, key.2 (by decide)⟩

/-- C1 as stated fails. Instance 1 has a `WaitTime` of 500 microseconds, so it
sends `PX 0`, which the store rejects. After instance 0 has acquired and
released the lock, the first later attempt (instance 1) fails and the second
one (instance 0) succeeds, while no lease ends. -/
theorem short_lease_first_attempt_fails :
    (shortLeaseLocks 1).config.WaitTime = 500000 ∧
    LockSys.leasesLive ⟨shortLeaseLocks, World.up Store.empty⟩ "lock:job"
      shortLeaseCalls = true ∧
    (LockSys.log ⟨shortLeaseLocks, World.up Store.empty⟩ shortLeaseCalls).map Prod.snd =
      [true, true, false, true] := by
  decide

/-- C2. For every lock instance, with the held flag set or not, every store in
which the lock key holds a value different from the token of the instance, and
whatever commands fail: `Unlock` and `Refresh` leave the store as it is, so
the stored token and its deadline are unchanged. -/
theorem wrong_holder_store_unchanged (l : Lock) (now : Time) (w : World) (v : String)
    (hv : w.db.GET l.name now = some v) (hne : v ≠ l.token) :
    (l.Unlock now w).2.2.db = w.db ∧ (l.Refresh now w).2.2.db = w.db ∧
    (l.Unlock now w).2.2.db.strs l.name = w.db.strs l.name ∧
    (l.Refresh now w).2.2.db.strs l.name = w.db.strs l.name := by
  have hg : w.db.GET l.name now ≠ some l.token := by
    rw [hv]; intro h; exact hne (Option.some.inj h)
  have hu : (l.Unlock now w).2.2.db = w.db := by
    rcases Lock.Unlock_spec l now w with ⟨-, h2⟩ | ⟨-, -, -, h4, -⟩ | ⟨-, -, -, h4⟩
    · rw [h2]
    · exact absurd h4 hg
    · exact h4
  have hr : (l.Refresh now w).2.2.db = w.db := by
    rcases Lock.Refresh_spec l now w with ⟨-, h2⟩ | ⟨-, -, -, h4, -⟩ | ⟨-, -, -, h4, -⟩ |
      ⟨-, -, -, -, h5⟩
    · rw [h2]
    · exact absurd h4 hg
    · exact h4
    · exact h5
  exact ⟨hu, hr, by rw [hu], by rw [hr]⟩

/-- Witness of C2: instance 0, with its flag set, on a store whose lock key
holds the token `other`. -/
theorem wrong_holder_store_unchanged_witness :
    otherHolderStore.GET "lock:job" 1 = some "other" ∧
    (({ demoLock 0 (5 * Second) with locked := true } : Lock).Unlock 1
      (World.up otherHolderStore)).2.2.db.strs "lock:job" = otherHolderStore.strs "lock:job" ∧
    (({ demoLock 0 (5 * Second) with locked := true } : Lock).Refresh 1
      (World.up otherHolderStore)).2.2.db.strs "lock:job" = otherHolderStore.strs "lock:job" :=
  have h := wrong_holder_store_unchanged ({ demoLock 0 (5 * Second) with locked := true } : Lock)
    1 (World.up otherHolderStore) "other" (by decide) (by decide)
  ⟨by decide, h.2.2.1, h.2.2.2⟩

/-- C3 as stated fails. Instance 0 acquired the lock, its lease ended and
instance 1 acquired it; the `Refresh` of instance 0 failed and cleared its
flag. The key now holds the token of instance 1, yet `Unlock` of instance 0
returns no error. -/
theorem stale_unlock_returns_nil :
    (LockSys.log ⟨fiveSecondLocks, World.up Store.empty⟩ staleCalls).map Prod.snd =
      [true, true, false] ∧
    (LockSys.after ⟨fiveSecondLocks, World.up Store.empty⟩ staleCalls).world.db.GET
      "lock:job" 6000000002 = some (fiveSecondLocks 1).token ∧
    (fiveSecondLocks 1).token ≠ (fiveSecondLocks 0).token ∧
    (((LockSys.after ⟨fiveSecondLocks, World.up Store.empty⟩ staleCalls).locks 0).Unlock
      6000000002 (LockSys.after ⟨fiveSecondLocks, World.up Store.empty⟩ staleCalls).world).1
      = none := by
  decide

/-- C3, as amended. For every lock instance and every store in which the lock
key holds a value different from the token of the instance, on a connection
that answers the command: `Refresh` returns a lock-not-held error whatever the
held flag is; `Unlock` returns a lock-not-held error when the held flag is
set, and returns nil when it is not. -/
theorem wrong_holder_error (l : Lock) (now : Time) (db : Store) (v : String)
    (hv : db.GET l.name now = some v) (hne : v ≠ l.token) :
    (∃ e, (l.Refresh now (World.up db)).1 = some e ∧ e.isLockNotHeld = true) ∧
    (l.locked = true → ∃ e, (l.Unlock now (World.up db)).1 = some e ∧
      e.isLockNotHeld = true) ∧
    (l.locked = false → (l.Unlock now (World.up db)).1 = none) := by
  have hg : db.GET l.name now ≠ some l.token := by
    rw [hv]; intro h; exact hne (Option.some.inj h)
  refine ⟨?_, ?_, ?_⟩
  · by_cases hl : l.locked = true
    · refine ⟨.refreshNotHeld, ?_, rfl⟩
      simp [Lock.Refresh, hl, World.exec_up, refreshScript_miss hg]
    · refine ⟨.lockNotHeld, ?_, rfl⟩
      simp at hl
      simp [Lock.Refresh, hl]
  · intro hl
    refine ⟨.unlockNotHeld, ?_, rfl⟩
    simp [Lock.Unlock, hl, World.exec_up, unlockScript_miss hg]
  · intro hl
    simp [Lock.Unlock, hl]

/-- Witness of C3: instance 0, with its flag set, on a store whose lock key
holds the token `other`. -/
theorem wrong_holder_error_witness :
    otherHolderStore.GET "lock:job" 1 = some "other" ∧
    (∃ e, (({ demoLock 0 (5 * Second) with locked := true } : Lock).Refresh 1
      (World.up otherHolderStore)).1 = some e ∧ e.isLockNotHeld = true) ∧
    (∃ e, (({ demoLock 0 (5 * Second) with locked := true } : Lock).Unlock 1
      (World.up otherHolderStore)).1 = some e ∧ e.isLockNotHeld = true) :=
  have h := wrong_holder_error ({ demoLock 0 (5 * Second) with locked := true } : Lock)
    1 otherHolderStore "other" (by decide) (by decide)
  ⟨by decide, h.1, h.2.1 rfl⟩

/-- C4 as stated fails. A lock whose `WaitTime` is 500 microseconds is refused
on the empty store; a lock whose `WaitTime` is 1.5 milliseconds acquires with a
lease of one millisecond, not of `WaitTime`. -/
theorem tryLock_lease_is_whole_milliseconds :
    ((demoLock 0 500000).TryLock 0 (World.up Store.empty)).1 = false ∧
    ((demoLock 0 1500000).TryLock 0 (World.up Store.empty)).1 = true ∧
    ((demoLock 0 1500000).TryLock 0 (World.up Store.empty)).2.2.db.strs "lock:job" =
      some { val := (demoLock 0 1500000).token, deadline := some 1000000 } ∧
    (1000000 : Int) ≠ 0 + (demoLock 0 1500000).config.WaitTime := by
  decide

/-- C4, as amended. For every store and every lock instance whose `WaitTime` is
at least one millisecond, on a connection that answers the command: `TryLock`
returns true exactly when the lock key does not exist at the instant of the
call (it is absent, or its lease has ended); when it returns true the key
afterwards holds the token of the instance with a lease of `WaitTime` truncated
to whole milliseconds, `IsLocked` is true, and from the end of that lease on
(so also once `WaitTime` has elapsed) the `TryLock` of another such instance on
that store returns true; when it returns false the store and the instance are
unchanged. -/
theorem tryLock_iff_absent (l : Lock) (now : Time) (db : Store)
    (hms : Millisecond ≤ l.config.WaitTime) :
    ((l.TryLock now (World.up db)).1 = true ↔ db.EXISTS l.name now = false) ∧
    ((l.TryLock now (World.up db)).1 = true →
      (l.TryLock now (World.up db)).2.2.db.strs l.name = some
        { val := l.token,
          deadline := some ((now : Int) + Duration.Milliseconds l.config.WaitTime * 1000000) } ∧
      (l.TryLock now (World.up db)).2.1.IsLocked = true ∧
      Duration.Milliseconds l.config.WaitTime * 1000000 ≤ l.config.WaitTime ∧
      ∀ (l2 : Lock) (t : Time), l2.name = l.name → Millisecond ≤ l2.config.WaitTime →
        (now : Int) + Duration.Milliseconds l.config.WaitTime * 1000000 ≤ t →
        (l2.TryLock t (l.TryLock now (World.up db)).2.2).1 = true) ∧
    ((l.TryLock now (World.up db)).1 = false →
      (l.TryLock now (World.up db)).2 = (l, World.up db)) := by
  have hpos := Duration.Milliseconds_pos hms
  have hpos2 : ¬ Duration.Milliseconds l.config.WaitTime ≤ 0 := by omega
  by_cases hex : db.EXISTS l.name now = true
  · have hres : l.TryLock now (World.up db) = (false, l, World.up db) := by
      simp [Lock.TryLock, Lock.tryAcquire, World.exec_up, cmdSetNXPX, hpos2, hex]
    rw [hres]
    simp [hex]
  · have hex2 : db.EXISTS l.name now = false := by simpa using hex
    have hres : l.TryLock now (World.up db) = (true, { l with locked := true },
        World.up { db with strs := (Function.update db.strs l.name
          (some { val := l.token, deadline := some ((now : Int) +
            Duration.Milliseconds l.config.WaitTime * 1000000) })) }) := by
      simp [Lock.TryLock, Lock.tryAcquire, World.exec_up, cmdSetNXPX, hpos2, hex2]
    rw [hres]
    refine ⟨by simp [hex2], ?_, by simp⟩
    intro _
    refine ⟨by simp [World.up], rfl, ?_, ?_⟩
    · have h2 : (1000000 : Int) ≤ l.config.WaitTime := hms
      unfold Duration.Milliseconds
      rw [Int.tdiv_eq_ediv (by omega) (by norm_num)]
      omega
    · intro l2 t hn hms2 ht
      apply Lock.TryLock_up l2 t _ rfl _ (Duration.Milliseconds_pos hms2)
      have hother : db.hashes l.name = [] ∧ db.zsets l.name = [] ∧ db.lists l.name = [] := by
        simp [Store.EXISTS] at hex2
        exact ⟨hex2.1.1.2, hex2.1.2, hex2.2⟩
      have hlive : ¬ ((t : Int) < (now : Int) +
          Duration.Milliseconds l.config.WaitTime * 1000000) := by omega
      simp [Store.EXISTS, Store.GET, World.up, hn, StrEntry.live, hlive, hother]

/-- Witness of C4: a lock with a lease of five seconds acquires on the empty
store, and another instance acquires five seconds later. -/
theorem tryLock_iff_absent_witness :
    Millisecond ≤ (demoLock 0 (5 * Second)).config.WaitTime ∧
    ((demoLock 0 (5 * Second)).TryLock 0 (World.up Store.empty)).1 = true ∧
    ((demoLock 1 (5 * Second)).TryLock 5000000000
      ((demoLock 0 (5 * Second)).TryLock 0 (World.up Store.empty)).2.2).1 = true :=
  have h := tryLock_iff_absent (demoLock 0 (5 * Second)) 0 Store.empty (by decide)
  ⟨by decide, h.1.mpr (by decide),
    (h.2.1 (h.1.mpr (by decide))).2.2.2 (demoLock 1 (5 * Second)) 5000000000 rfl
      (by decide) (by decide)⟩

/-! ## Association lists -/

theorem kvGet_kvPut_same {β : Type} (k : String) (v : β) (l : List (String × β)) :
    kvGet k (kvPut k v l) = some v := by
  induction l with
  | nil => simp [kvPut, kvGet]
  | cons p t ih =>
    obtain ⟨k1, v1⟩ := p
    by_cases h : k1 = k
    · simp [kvPut, kvGet, h]
    · simp [kvPut, kvGet, h, ih]

theorem kvGet_kvPut_ne {β : Type} {k k2 : String} (v : β) (l : List (String × β))
    (h : k2 ≠ k) : kvGet k2 (kvPut k v l) = kvGet k2 l := by
  induction l with
  | nil => simp [kvPut, kvGet, Ne.symm h]
  | cons p t ih =>
    obtain ⟨k1, v1⟩ := p
    by_cases h1 : k1 = k
    · subst h1
      simp [kvPut, kvGet, Ne.symm h]
    · by_cases h2 : k1 = k2
      · subst h2
        simp [kvPut, kvGet, h1]
      · simp [kvPut, kvGet, h1, h2, ih]

theorem kvGet_kvDel_mem {β : Type} {k : String} {ks : List String} (l : List (String × β))
    (h : k ∈ ks) : kvGet k (kvDel ks l) = none := by
  induction l with
  | nil => simp [kvDel, kvGet]
  | cons p t ih =>
    obtain ⟨k1, v1⟩ := p
    by_cases h1 : k1 ∈ ks
    · simpa [kvDel, h1] using ih
    · have hne : k1 ≠ k := fun e => h1 (e ▸ h)
      simp only [kvDel, List.filter_cons, h1, not_false_eq_true, decide_True, if_true, kvGet,
        hne, if_false]
      simpa [kvDel] using ih

theorem kvGet_kvDel_not_mem {β : Type} {k : String} {ks : List String} (l : List (String × β))
    (h : k ∉ ks) : kvGet k (kvDel ks l) = kvGet k l := by
  induction l with
  | nil => simp [kvDel, kvGet]
  | cons p t ih =>
    obtain ⟨k1, v1⟩ := p
    by_cases h1 : k1 ∈ ks
    · have hne : k1 ≠ k := fun e => h (e ▸ h1)
      simp only [kvDel, List.filter_cons, h1, not_true_eq_false, decide_False, kvGet, hne,
        if_false]
      simpa [kvDel] using ih
    · by_cases h2 : k1 = k
      · subst h2
        simp [kvDel, kvGet, h1]
      · simp only [kvDel, List.filter_cons, h1, not_false_eq_true, decide_True, if_true, kvGet,
          h2, if_false]
        simpa [kvDel] using ih

theorem kvGet_none_of_not_mem {β : Type} {k : String} {l : List (String × β)}
    (h : kvGet k l = none) (v : β) : (k, v) ∉ l := by
  induction l with
  | nil => simp
  | cons p t ih =>
    obtain ⟨k1, v1⟩ := p
    by_cases h1 : k1 = k
    · simp [kvGet, h1] at h
    · simp only [kvGet, h1, if_false] at h
      simp only [List.mem_cons, Prod.mk.injEq, not_or, not_and]
      exact ⟨fun e => absurd e.symm h1, ih h⟩

/-- A member returned by a range query has a score in the set. -/
theorem kvGet_isSome_of_mem_zrangeByScore {k : String} {lo hi : Int} {z : List (String × Int)}
    (h : k ∈ zrangeByScore lo hi z) : kvGet k z ≠ none := by
  intro hn
  simp only [zrangeByScore, List.mem_map] at h
  obtain ⟨⟨k1, sc⟩, hmem, hk⟩ := h
  simp only at hk
  subst hk
  have h2 := (List.perm_insertionSort zsetLe _).subset hmem
  exact kvGet_none_of_not_mem hn sc (List.mem_of_mem_filter h2)

/-! ## The time markers touch one hash only -/

theorem Store.sameBut_refl (m : String) (a : Store) : a.sameBut m a :=
  ⟨rfl, rfl, rfl, fun _ _ => rfl⟩

theorem Store.sameBut_trans {m : String} {a b c : Store} (h1 : a.sameBut m b)
    (h2 : b.sameBut m c) : a.sameBut m c :=
  ⟨h2.1.trans h1.1, h2.2.1.trans h1.2.1, h2.2.2.1.trans h1.2.2.1,
    fun k hk => (h2.2.2.2 k hk).trans (h1.2.2.2 k hk)⟩

theorem Store.sameBut_HSET (m field val : String) (a : Store) :
    a.sameBut m (cmdHSET m field val a).2 := by
  refine ⟨rfl, rfl, rfl, ?_⟩
  intro k hk
  simp [cmdHSET, Function.update_noteq hk]

theorem Redis.LastUseTime_up (r : Redis) (key : String) (update : Bool) (now : Time)
    (db : Store) :
    ∃ db2, (r.LastUseTime key update now (World.up db)).2 = World.up db2 ∧
      db.sameBut r.safeTypeMapName db2 := by
  cases update
  · refine ⟨db, ?_, Store.sameBut_refl _ _⟩
    simp only [Redis.LastUseTime, World.exec_up, cmdHGET]
    rcases kvGet key (db.hashes r.safeTypeMapName) with _ | v <;> simp
  · refine ⟨(cmdHSET r.safeTypeMapName key (formatInt64 (UnixMilli now)) db).2, ?_,
      Store.sameBut_HSET _ _ _ _⟩
    simp only [Redis.LastUseTime, World.exec_up, lastUseScript]
    rcases kvGet key (db.hashes r.safeTypeMapName) with _ | v <;> simp

theorem Redis.AcrossTime_up (r : Redis) (key : String) (d : Duration) (now : Time)
    (db : Store) :
    ∃ db2, (r.AcrossTime key d now (World.up db)).2 = World.up db2 ∧
      db.sameBut r.safeTypeMapName db2 := by
  obtain ⟨db1, h1, f1⟩ := r.LastUseTime_up key false now db
  obtain ⟨db2, h2, f2⟩ := r.LastUseTime_up key true now db1
  unfold Redis.AcrossTime
  rcases hx : r.LastUseTime key false now (World.up db) with ⟨last, w1⟩
  rw [hx] at h1
  simp only at h1
  subst h1
  rcases last with _ | lastTime
  · exact ⟨db2, h2, Store.sameBut_trans f1 f2⟩
  · simp only
    split
    · exact ⟨db1, rfl, f1⟩
    · split
      · exact ⟨db2, h2, Store.sameBut_trans f1 f2⟩
      · exact ⟨db1, rfl, f1⟩

theorem Cache.setCleanup_up {T : Type} (c : Cache T) (now : Time) (roll : Nat) (db : Store) :
    ∃ b db2, c.setCleanup now roll (World.up db) = (none, b, World.up db2) ∧
      db.sameBut c.redis.safeTypeMapName db2 := by
  unfold Cache.setCleanup
  by_cases hr : roll = 0
  · obtain ⟨db2, h2, f2⟩ := c.redis.AcrossTime_up (c.dataName ++ ":cleanup") Minute now db
    simp only [hr, if_true, Redis.AcrossMinute]
    rcases hx : c.redis.AcrossTime (c.dataName ++ ":cleanup") Minute now (World.up db) with
      ⟨res, w1⟩
    rw [hx] at h2
    simp only at h2
    subst h2
    rcases res with _ | b
    · exact ⟨false, db2, rfl, f2⟩
    · cases b
      · exact ⟨false, db2, rfl, f2⟩
      · exact ⟨true, db2, rfl, f2⟩
  · exact ⟨false, db, by simp [hr], Store.sameBut_refl _ _⟩

/-- `Set` on a connection that answers every command: the value is written to
the data hash, the score (when there is one) to the expiry set, and the last
block touches the hash of time markers only. -/
theorem Cache.Set_up {T : Type} (c : Cache T) (key : String) (value : T) (expire : Duration)
    (now : Time) (roll : Nat) (db : Store) (data : String)
    (henc : c.ser.Serialize value = .ok data) :
    ∃ b db2, c.Set key value expire now roll (World.up db) = (none, b, World.up db2) ∧
      Store.sameBut c.redis.safeTypeMapName
        (if expire > 0 then
          (cmdZADD c.expireName (UnixMilli ((now : Int) + expire)) key
            (cmdHSET c.dataName key data db).2).2
        else if c.config.DefaultExpire > 0 then
          (cmdZADD c.expireName (UnixMilli ((now : Int) + c.config.DefaultExpire)) key
            (cmdHSET c.dataName key data db).2).2
        else (cmdHSET c.dataName key data db).2) db2 := by
  unfold Cache.Set
  simp only [henc, World.exec_up]
  by_cases h1 : expire > 0
  · simp only [h1, if_true]
    exact c.setCleanup_up now roll _
  · simp only [h1, if_false]
    by_cases h2 : c.config.DefaultExpire > 0
    · simp only [h2, if_true]
      exact c.setCleanup_up now roll _
    · simp only [h2, if_false]
      exact c.setCleanup_up now roll _

/-- `Get` of a key that is not expired and whose stored bytes are not empty
and decode. -/
theorem Cache.Get_up_hit {T : Type} [Inhabited T] (c : Cache T) (key : String) (now : Time)
    (db : Store) (data : String) (v : T)
    (hlive : ∀ score, kvGet key (db.zsets c.expireName) = some score →
      ¬ fromUnixMilli score < (now : Int))
    (hdata : kvGet key (db.hashes c.dataName) = some data)
    (hne : data.length ≠ 0)
    (hT : c.elemIsInterface = false)
    (hdec : c.ser.Deserialize data default = .ok v) :
    c.Get key now (World.up db) = (.returns (v, true), World.up db) := by
  unfold Cache.Get Cache.isExpired
  simp only [World.exec_up, cmdZSCORE, cmdHGET]
  rcases hs : kvGet key (db.zsets c.expireName) with _ | score
  · simp [World.exec_up, cmdHGET, hdata, hne, hdec, hT]
  · simp [World.exec_up, cmdHGET, hlive score hs, hdata, hne, hdec, hT]

/-- `Get` of a key that is not expired and whose stored bytes are not empty,
on a cache whose element type is an interface type: a panic. -/
theorem Cache.Get_up_panics {T : Type} [Inhabited T] (c : Cache T) (key : String) (now : Time)
    (db : Store) (data : String)
    (hlive : ∀ score, kvGet key (db.zsets c.expireName) = some score →
      ¬ fromUnixMilli score < (now : Int))
    (hdata : kvGet key (db.hashes c.dataName) = some data)
    (hne : data.length ≠ 0)
    (hT : c.elemIsInterface = true) :
    c.Get key now (World.up db) = (.panics, World.up db) := by
  unfold Cache.Get Cache.isExpired
  simp only [World.exec_up, cmdZSCORE, cmdHGET]
  rcases hs : kvGet key (db.zsets c.expireName) with _ | score
  · simp [World.exec_up, cmdHGET, hdata, hne, hT]
  · simp [World.exec_up, cmdHGET, hlive score hs, hdata, hne, hT]

/-- `Get` of a key whose score is in the past. -/
theorem Cache.Get_up_expired {T : Type} [Inhabited T] (c : Cache T) (key : String) (now : Time)
    (db : Store) (score : Int)
    (hscore : kvGet key (db.zsets c.expireName) = some score)
    (hpast : fromUnixMilli score < (now : Int)) :
    c.Get key now (World.up db) =
      (.returns ((default : T), false),
        World.up (cmdZREM c.expireName [key] (cmdHDEL c.dataName [key] db).2).2) := by
  unfold Cache.Get Cache.isExpired
  simp [World.exec_up, cmdZSCORE, hscore, hpast, Cache.Delete, cmdHDEL, cmdZREM]

/-- C5 as stated fails, in four ways. (1) The empty string is round-tripped by
the serializer, but its encoding is empty and `Get` reports a miss. (2) With a
ttl of 0.1 ms set at the instant 1.5 ms the score is the millisecond 1, which
is already in the past. (3) When the name creator gives the hash of time
markers the name of the data hash and the draw is 0, the last block of `Set`
overwrites the entry of the key `m:data:cleanup`. (4) On a `Cache[any]` with
the default serializer, which round-trips the string `v`, `Get` panics. -/
theorem cache_get_after_set_misses :
    (stringSerializer.Serialize "" = .ok "" ∧
      stringSerializer.Deserialize "" default = .ok "" ∧
      (demoCache.Get "k" 0 (demoCache.Set "k" "" Second 0 1 (World.up Store.empty)).2.2).1
        = .returns ("", false)) ∧
    (demoCache.Get "k" 1500000
      (demoCache.Set "k" "v" 100000 1500000 1 (World.up Store.empty)).2.2).1
        = .returns ("", false) ∧
    (clashCache.Get "m:data:cleanup" 0
      (clashCache.Set "m:data:cleanup" "v" Second 0 0 (World.up Store.empty)).2.2).1
        = .returns ("0", true) ∧
    (anySerializer.Serialize (some (.str "v")) = .ok "v" ∧
      anySerializer.Deserialize "v" default = .ok (some (.str "v")) ∧
      (anyCache.Get "k" 0
        (anyCache.Set "k" (some (.str "v")) Second 0 1 (World.up Store.empty)).2.2).1
        = .panics) := by
  decide

/-- C5, as amended. For every cache whose element type is not an interface
type and whose data hash is not the hash of time markers, every key, every
value whose encoding is not empty and decodes back to the value, and every ttl
of at least one millisecond, on a connection that answers every command: `Set`
returns no error and `Get` of the key at the same instant, on the store `Set`
left, returns the value and true. -/
theorem cache_get_after_set {T : Type} [Inhabited T] (c : Cache T) (key : String) (v : T)
    (ttl : Duration) (now : Time) (roll : Nat) (db : Store) (data : String)
    (hT : c.elemIsInterface = false)
    (hsep : c.redis.safeTypeMapName ≠ c.dataName)
    (henc : c.ser.Serialize v = .ok data) (hne : data.length ≠ 0)
    (hdec : c.ser.Deserialize data default = .ok v)
    (httl : Millisecond ≤ ttl) :
    (c.Set key v ttl now roll (World.up db)).1 = none ∧
    (c.Get key now (c.Set key v ttl now roll (World.up db)).2.2).1 = .returns (v, true) := by
  have h2 : (1000000 : Int) ≤ ttl := httl
  obtain ⟨b, db2, hset, hf⟩ := c.Set_up key v ttl now roll db data henc
  have hpos : (0 : Int) < ttl := by omega
  rw [if_pos hpos] at hf
  obtain ⟨-, hz, -, hh⟩ := hf
  rw [hset]
  refine ⟨rfl, ?_⟩
  have hget := c.Get_up_hit key now db2 data v ?_ ?_ hne hT hdec
  · simp only [hget]
  · intro score hs
    rw [hz] at hs
    simp only [cmdZADD, cmdHSET, Function.update_same, kvGet_kvPut_same] at hs
    cases hs
    unfold fromUnixMilli UnixMilli
    omega
  · rw [hh c.dataName (Ne.symm hsep)]
    simp [cmdZADD, cmdHSET, kvGet_kvPut_same]

/-- The data hash of a cache made by `NewCache` on a client with the default
name creator is not the hash of time markers. -/
theorem NewCache_dataName_ne {T : Type} (name : String) (config : CacheConfig) (r : Redis)
    (ser : SerializerFunc T) (b : Bool) (hr : r.config.NameCreator = DefaultNameCreator) :
    (NewCache name config r ser b).redis.safeTypeMapName ≠
      (NewCache name config r ser b).dataName := by
  intro h
  have h2 := congrArg String.data h
  simp [NewCache, Redis.safeTypeMapName, Redis.CreateName, hr, DefaultNameCreator,
    RedisType.name, String.intercalate, String.data_append] at h2

/-- Witness of C5: the string `v` with a ttl of one second. -/
theorem cache_get_after_set_witness :
    (demoCache.Set "k" "v" Second 7 0 (World.up Store.empty)).1 = none ∧
    (demoCache.Get "k" 7 (demoCache.Set "k" "v" Second 7 0 (World.up Store.empty)).2.2).1
      = .returns ("v", true) :=
  cache_get_after_set demoCache "k" "v" Second 7 0 Store.empty "v" rfl (by decide) rfl
    (by decide) rfl (by decide)

/-- C6 as stated fails when a command fails. The key `k` was set at instant 0
with a ttl of one second and is read two seconds later. (1) When the `ZSCORE`
of `isExpired` fails, the key counts as not expired: `Get` returns the expired
value and true, and the key stays in both structures. (2) When the `HDEL` of
`Delete` fails, `Get` returns not-found and the key stays in both structures. -/
theorem cache_lazy_expiry_fails :
    kvGet "k" ((demoCache.Set "k" "v" Second 0 1 (World.up Store.empty)).2.2.db.zsets
      demoCache.expireName) = some 1000 ∧
    ((demoCache.Get "k" 2000000000
        ⟨(demoCache.Set "k" "v" Second 0 1 (World.up Store.empty)).2.2.db, [true]⟩).1
        = .returns ("v", true) ∧
      kvGet "k" ((demoCache.Get "k" 2000000000
        ⟨(demoCache.Set "k" "v" Second 0 1 (World.up Store.empty)).2.2.db, [true]⟩).2.db.hashes
          demoCache.dataName) = some "v" ∧
      kvGet "k" ((demoCache.Get "k" 2000000000
        ⟨(demoCache.Set "k" "v" Second 0 1 (World.up Store.empty)).2.2.db, [true]⟩).2.db.zsets
          demoCache.expireName) = some 1000) ∧
    ((demoCache.Get "k" 2000000000
        ⟨(demoCache.Set "k" "v" Second 0 1 (World.up Store.empty)).2.2.db, [false, true]⟩).1
        = .returns ("", false) ∧
      kvGet "k" ((demoCache.Get "k" 2000000000
        ⟨(demoCache.Set "k" "v" Second 0 1 (World.up Store.empty)).2.2.db,
          [false, true]⟩).2.db.hashes demoCache.dataName) = some "v" ∧
      kvGet "k" ((demoCache.Get "k" 2000000000
        ⟨(demoCache.Set "k" "v" Second 0 1 (World.up Store.empty)).2.2.db,
          [false, true]⟩).2.db.zsets demoCache.expireName) = some 1000) := by
  decide

/-- C6, as amended. For every key whose score in the expiry set is in the past
at the instant of the call, on a connection that answers every command: `Get`
returns not-found; afterwards the key is in neither the data hash nor the
expiry set, and the value and the score of every other key are unchanged. -/
theorem cache_lazy_expiry {T : Type} [Inhabited T] (c : Cache T) (key : String) (now : Time)
    (db : Store) (score : Int)
    (hscore : kvGet key (db.zsets c.expireName) = some score)
    (hpast : fromUnixMilli score < (now : Int)) :
    (c.Get key now (World.up db)).1 = .returns (default, false) ∧
    kvGet key ((c.Get key now (World.up db)).2.db.hashes c.dataName) = none ∧
    kvGet key ((c.Get key now (World.up db)).2.db.zsets c.expireName) = none ∧
    ∀ k, k ≠ key →
      kvGet k ((c.Get key now (World.up db)).2.db.hashes c.dataName) =
        kvGet k (db.hashes c.dataName) ∧
      kvGet k ((c.Get key now (World.up db)).2.db.zsets c.expireName) =
        kvGet k (db.zsets c.expireName) := by
  rw [c.Get_up_expired key now db score hscore hpast]
  refine ⟨rfl, ?_, ?_, ?_⟩
  · simp [World.up, cmdZREM, cmdHDEL, kvGet_kvDel_mem]
  · simp [World.up, cmdZREM, cmdHDEL, kvGet_kvDel_mem]
  · intro k hk
    have hk2 : k ∉ [key] := by simpa using hk
    simp [World.up, cmdZREM, cmdHDEL, kvGet_kvDel_not_mem _ hk2]

/-- Witness of C6: the key `k` was set at instant 0 with a ttl of one second
and is read two seconds later. -/
theorem cache_lazy_expiry_witness :
    (demoCache.Get "k" 2000000000
      (World.up (demoCache.Set "k" "v" Second 0 1 (World.up Store.empty)).2.2.db)).1
      = .returns ("", false) ∧
    kvGet "k" ((demoCache.Get "k" 2000000000
      (World.up (demoCache.Set "k" "v" Second 0 1 (World.up Store.empty)).2.2.db)).2.db.hashes
        demoCache.dataName) = none :=
  have h := cache_lazy_expiry demoCache "k" 2000000000
    (demoCache.Set "k" "v" Second 0 1 (World.up Store.empty)).2.2.db 1000
    (by decide) (by decide)
  ⟨h.1, h.2.1⟩

theorem Cache.isExpired_up {T : Type} (c : Cache T) (key : String) (now : Time) (db : Store) :
    c.isExpired key now (World.up db) =
      (match kvGet key (db.zsets c.expireName) with
        | some score => decide (fromUnixMilli score < (now : Int))
        | none => false, World.up db) := by
  unfold Cache.isExpired
  simp only [World.exec_up, cmdZSCORE]
  rcases kvGet key (db.zsets c.expireName) with _ | score <;> rfl

theorem Cache.Delete_up {T : Type} (c : Cache T) (keys : List String) (db : Store) :
    c.Delete keys (World.up db) =
      (none, World.up (if keys.length = 0 then db
        else (cmdZREM c.expireName keys (cmdHDEL c.dataName keys db).2).2)) := by
  unfold Cache.Delete
  by_cases h : keys.length = 0
  · simp [h]
  · simp [h, World.exec_up, cmdHDEL, cmdZREM]

/-- Removing keys other than `key` keeps the entry of `key`. -/
theorem Cache.Retains_delete {T : Type} (c : Cache T) {key data : String} {db : Store}
    (h : c.Retains key data db) (keys : List String) (hk : key ∉ keys) :
    c.Retains key data (cmdZREM c.expireName keys (cmdHDEL c.dataName keys db).2).2 := by
  obtain ⟨h1, h2⟩ := h
  constructor
  · simp [cmdZREM, cmdHDEL, kvGet_kvDel_not_mem _ hk, h1]
  · simp only [cmdZREM, cmdHDEL, Function.update_same]
    rw [kvGet_kvDel_not_mem _ hk]
    exact h2

theorem Cache.Retains_sameBut {T : Type} (c : Cache T) {key data : String} {a b : Store}
    (hsep : c.redis.safeTypeMapName ≠ c.dataName)
    (h : c.Retains key data a) (hf : a.sameBut c.redis.safeTypeMapName b) :
    c.Retains key data b := by
  obtain ⟨h1, h2⟩ := h
  obtain ⟨-, hz, -, hh⟩ := hf
  exact ⟨by rw [hh c.dataName (Ne.symm hsep)]; exact h1, by rw [hz]; exact h2⟩

/-! ## The queue -/

theorem NewQueue_processing_ne_delayed {T : Type} (name : String) (config : QueueConfig T)
    (r : Redis) (ser : SerializerFunc T) (b : Bool) :
    (NewQueue name config r ser b).processingName ≠
      (NewQueue name config r ser b).delayedName := by
  intro h
  have h2 := congrArg String.data h
  simp [NewQueue, String.data_append] at h2

theorem zrangeByScore_nil (lo hi : Int) : zrangeByScore lo hi [] = [] := rfl

theorem zrangeByScore_single (lo hi : Int) (d : String) (sc : Int) :
    zrangeByScore lo hi [(d, sc)] = if lo ≤ sc ∧ sc ≤ hi then [d] else [] := by
  by_cases h : lo ≤ sc ∧ sc ≤ hi
  · simp [zrangeByScore, h]
  · simp [zrangeByScore, h]

theorem Queue.processDelayedTasks_up {T : Type} (q : Queue T) (now : Time) (db : Store) :
    q.processDelayedTasks now (World.up db) =
      World.up ((zrangeByScore 0 (UnixMilli now) (db.zsets q.delayedName)).foldl
        (moveItem q.delayedName q.name) db) := by
  simp [Queue.processDelayedTasks, World.exec_up, moveDelayedScript]

/-- With no delayed item due, `processDelayedTasks` changes nothing. -/
theorem Queue.processDelayedTasks_none {T : Type} (q : Queue T) (now : Time) (db : Store)
    (h : zrangeByScore 0 (UnixMilli now) (db.zsets q.delayedName) = []) :
    q.processDelayedTasks now (World.up db) = World.up db := by
  rw [q.processDelayedTasks_up, h]
  rfl

/-- The store after the pop of the head of the ready list and, with retry
tracking, the record in the processing set. -/
theorem Queue.Take_head {T : Type} [Inhabited T] (q : Queue T) (now : Time) (db db0 : Store)
    (d : String) (rest : List String) (x : T)
    (hp : q.processDelayedTasks now (World.up db) = World.up db0)
    (hl : db0.lists q.name = d :: rest) (hd : d.length ≠ 0)
    (hT : q.elemIsInterface = false)
    (hdec : q.ser.Deserialize d default = .ok x) :
    q.Take now (World.up db) = (.returns (x, true),
      World.up (if q.config.MaxRetry > 0 then
        (cmdZADD q.processingName (UnixMilli now) d
          { db0 with lists := (Function.update db0.lists q.name rest) }).2
        else { db0 with lists := (Function.update db0.lists q.name rest) })) := by
  unfold Queue.Take
  simp only [hp, World.exec_up]
  by_cases hw : q.config.MaxWaitTime > 0
  · have hs := timeout_nonneg hw
    simp only [hw, if_true, cmdBLPOP, hs, if_false, hl, Queue.takeDecode, hdec, hT]
    by_cases hr : q.config.MaxRetry > 0
    · simp [hr, World.exec_up]
    · simp [hr]
  · simp only [hw, if_false, cmdLPOP, hl, hd, Queue.takeDecode, hdec, hT]
    by_cases hr : q.config.MaxRetry > 0
    · simp [hr, World.exec_up]
    · simp [hr]

/-- `Take` when the ready list has a head whose bytes are not empty, on a queue
whose element type is an interface type: a panic, after the pop. -/
theorem Queue.Take_head_panics {T : Type} [Inhabited T] (q : Queue T) (now : Time)
    (db db0 : Store) (d : String) (rest : List String)
    (hp : q.processDelayedTasks now (World.up db) = World.up db0)
    (hl : db0.lists q.name = d :: rest) (hd : d.length ≠ 0)
    (hT : q.elemIsInterface = true) :
    q.Take now (World.up db) = (.panics,
      World.up { db0 with lists := (Function.update db0.lists q.name rest) }) := by
  unfold Queue.Take
  simp only [hp, World.exec_up]
  by_cases hw : q.config.MaxWaitTime > 0
  · have hs := timeout_nonneg hw
    simp [hw, cmdBLPOP, hs, hl, Queue.takeDecode, hT]
  · simp [hw, cmdLPOP, hl, hd, Queue.takeDecode, hT]

/-- `Take` on an empty ready list, without blocking or with a timeout of at
least one second: not-found. -/
theorem Queue.Take_empty {T : Type} [Inhabited T] (q : Queue T) (now : Time) (db db0 : Store)
    (hp : q.processDelayedTasks now (World.up db) = World.up db0)
    (hl : db0.lists q.name = [])
    (hwait : q.config.MaxWaitTime ≤ 0 ∨ Second ≤ q.config.MaxWaitTime) :
    q.Take now (World.up db) = (.returns (default, false), World.up db0) := by
  unfold Queue.Take
  simp only [hp, World.exec_up]
  rcases hwait with hw | hw
  · have hw2 : ¬ q.config.MaxWaitTime > 0 := not_lt.mpr hw
    simp [hw2, cmdLPOP, hl]
  · have h2 : (1000000000 : Int) ≤ q.config.MaxWaitTime := hw
    have hw2 : q.config.MaxWaitTime > 0 := lt_of_lt_of_le (by norm_num) h2
    have hs := timeout_pos h2
    have hs1 : ¬ float64ToInt (Duration.Seconds q.config.MaxWaitTime) < 0 := by omega
    have hs2 : ¬ float64ToInt (Duration.Seconds q.config.MaxWaitTime) = 0 := by omega
    simp [hw2, cmdBLPOP, hl, hs1, hs2]

/-- `AddDelayed` never changes the ready list, whatever commands fail. -/
theorem Queue.AddDelayed_lists {T : Type} (q : Queue T) (y : T) (D : Duration) (t0 : Time)
    (w : World) : (q.AddDelayed y D t0 w).2.db.lists = w.db.lists := by
  unfold Queue.AddDelayed
  rcases q.ser.Serialize y with err | d
  · rfl
  · simp only
    rcases World.exec_cases w (cmdZADD q.delayedName (UnixMilli ((t0 : Int) + D)) d) with
      ⟨-, h2, -⟩ | ⟨-, h2⟩
    · rcases hx : w.exec (cmdZADD q.delayedName (UnixMilli ((t0 : Int) + D)) d) with ⟨res, w1⟩
      rw [hx] at h2
      rcases res with e | n <;> simpa using congrArg Store.lists h2
    · rcases hx : w.exec (cmdZADD q.delayedName (UnixMilli ((t0 : Int) + D)) d) with ⟨res, w1⟩
      rw [hx] at h2
      rcases res with e | n <;> simpa [cmdZADD] using congrArg Store.lists h2

/-- C8 as stated fails, in four ways. (1) An item added at 0.9 ms with a delay
of 1 ms is due from the millisecond 1 on, and a `Take` at 1.0 ms, earlier than
1.9 ms, returns it. (2) The empty string is round-tripped by the serializer,
but after its delay `Take` pops it and reports not-found. (3) With a
`MaxWaitTime` of 100 ms the blocking pop is sent with the timeout 0, and a
`Take` before the delay has passed never returns. (4) On a `Queue[any]` with
the default serializer, the `Take` after the delay pops the item and panics. -/
theorem queue_delay_ordering_fails :
    ((demoQueue 0 0 0).Take 1000000
      ((demoQueue 0 0 0).AddDelayed "x" 1000000 900000 (World.up Store.empty)).2).1
        = .returns ("x", true) ∧
    (stringSerializer.Serialize "" = .ok "" ∧
      stringSerializer.Deserialize "" default = .ok "" ∧
      ((demoQueue 0 0 0).Take 2000000000
        ((demoQueue 0 0 0).AddDelayed "" Second 0 (World.up Store.empty)).2).1
          = .returns ("", false) ∧
      ((demoQueue 0 0 0).Take 2000000000
        ((demoQueue 0 0 0).AddDelayed "" Second 0 (World.up Store.empty)).2).2.db.lists
          "queue:q" = []) ∧
    ((demoQueue 0 100000000 0).Take 5
      ((demoQueue 0 100000000 0).AddDelayed "x" Second 0 (World.up Store.empty)).2).1
        = .blocks ∧
    ((anyQueue 0).Take 2000000000
      ((anyQueue 0).AddDelayed (some (.str "x")) Second 0 (World.up Store.empty)).2).1
        = .panics := by
  set_option maxRecDepth 100000 in decide

/-- C8, as amended. For every queue made by `NewQueue` whose element type is
not an interface type and whose `MaxWaitTime` is not positive or is at least
one second, every value whose encoding is not
empty and decodes back to the value, and every delay `D > 0`, added with
`AddDelayed` at the instant `t0` to a queue whose ready list and delayed set
are empty, read by one consumer on a connection that answers every command:
`AddDelayed` returns no error and puts the item in the delayed set with the
score `UnixMilli (t0 + D)`; it never changes the ready list; a `Take` at an
instant whose epoch millisecond is earlier than that score returns not-found
and leaves the store as it is; a `Take` at an instant at or after `t0 + D`
returns the value and true; and the `Take` after that returns not-found. -/
theorem queue_delay_ordering {T : Type} [Inhabited T] (name : String) (config : QueueConfig T)
    (r : Redis) (ser : SerializerFunc T) (b : Bool) (q : Queue T)
    (hq : q = NewQueue name config r ser b)
    (x : T) (data : String) (D : Duration) (t0 : Time) (db : Store)
    (hT : q.elemIsInterface = false)
    (hD : 0 < D)
    (hwait : q.config.MaxWaitTime ≤ 0 ∨ Second ≤ q.config.MaxWaitTime)
    (hcode : q.ser.Codes x data)
    (hready : db.lists q.name = []) (hdelayed : db.zsets q.delayedName = []) :
    (q.AddDelayed x D t0 (World.up db)).1 = none ∧
    (∀ (y : T) (w : World), (q.AddDelayed y D t0 w).2.db.lists = w.db.lists) ∧
    kvGet data ((q.AddDelayed x D t0 (World.up db)).2.db.zsets q.delayedName) =
      some (UnixMilli ((t0 : Int) + D)) ∧
    (∀ t : Time, UnixMilli t < UnixMilli ((t0 : Int) + D) →
      q.Take t (q.AddDelayed x D t0 (World.up db)).2 =
        (.returns (default, false), (q.AddDelayed x D t0 (World.up db)).2)) ∧
    (∀ t2 : Time, (t0 : Int) + D ≤ t2 →
      (q.Take t2 (q.AddDelayed x D t0 (World.up db)).2).1 = .returns (x, true) ∧
      ∀ t3 : Time,
        (q.Take t3 (q.Take t2 (q.AddDelayed x D t0 (World.up db)).2).2).1 =
          .returns (default, false)) := by
  obtain ⟨henc, hne, hdec⟩ := hcode
  have hpd : q.processingName ≠ q.delayedName := by
    rw [hq]; exact NewQueue_processing_ne_delayed name config r ser b
  have hD2 : (0 : Int) < D := hD
  have hadd : q.AddDelayed x D t0 (World.up db) = (none, World.up
      { db with zsets := (Function.update db.zsets q.delayedName
        [(data, UnixMilli ((t0 : Int) + D))]) }) := by
    simp [Queue.AddDelayed, henc, World.exec_up, cmdZADD, hdelayed, kvPut]
  rw [hadd]
  refine ⟨rfl, fun y w => q.AddDelayed_lists y D t0 w, by simp [World.up, kvGet], ?_, ?_⟩
  · intro t ht
    apply q.Take_empty t _ _ _ (by simpa using hready) hwait
    apply q.processDelayedTasks_none
    have : ¬ UnixMilli ((t0 : Int) + D) ≤ UnixMilli t := by omega
    simp [zrangeByScore_single, this]
  · intro t2 ht2
    have hsc : (0 : Int) ≤ UnixMilli ((t0 : Int) + D) ∧
        UnixMilli ((t0 : Int) + D) ≤ UnixMilli t2 := by
      unfold UnixMilli
      constructor <;> omega
    have hp : q.processDelayedTasks t2 (World.up
        { db with zsets := (Function.update db.zsets q.delayedName
          [(data, UnixMilli ((t0 : Int) + D))]) }) = World.up
        { db with zsets := (Function.update db.zsets q.delayedName [])
                  lists := (Function.update db.lists q.name [data]) } := by
      rw [q.processDelayedTasks_up]
      simp [zrangeByScore_single, hsc, moveItem, cmdZREM, cmdRPUSH, kvDel, hready]
    have htake := q.Take_head t2 _ _ data [] x hp (by simp) hne hT hdec
    rw [htake]
    refine ⟨rfl, ?_⟩
    intro t3
    have hempty : ∀ db2 : Store, db2.zsets q.delayedName = [] → db2.lists q.name = [] →
        (q.Take t3 (World.up db2)).1 = .returns (default, false) := by
      intro db2 hz hl
      have hp2 := q.processDelayedTasks_none t3 db2 (by rw [hz]; rfl)
      rw [q.Take_empty t3 db2 db2 hp2 hl hwait]
    apply hempty
    · split
      · simp [cmdZADD, Function.update_noteq (Ne.symm hpd)]
      · simp
    · split
      · simp [cmdZADD]
      · simp

/-- Witness of C8: the string `x` with a delay of one second. -/
theorem queue_delay_ordering_witness :
    ((demoQueue 0 0 0).Take 500000000
      ((demoQueue 0 0 0).AddDelayed "x" Second 0 (World.up Store.empty)).2).1
        = .returns ("", false) ∧
    ((demoQueue 0 0 0).Take 1000000000
      ((demoQueue 0 0 0).AddDelayed "x" Second 0 (World.up Store.empty)).2).1
        = .returns ("x", true) :=
  have h := queue_delay_ordering "q" _ demoRedis stringSerializer false (demoQueue 0 0 0) rfl
    "x" "x" Second 0 Store.empty rfl (by decide) (Or.inl (by decide)) ⟨rfl, by decide, rfl⟩
    rfl rfl
  ⟨by rw [h.2.2.2.1 500000000 (by decide)]; rfl, (h.2.2.2.2 1000000000 (by decide)).1⟩

/-- A `Take` that returns an item has removed the head of the ready list. -/
theorem Queue.Take_pops {T : Type} [Inhabited T] (q : Queue T) (now : Time) (db db0 : Store)
    (d : String) (rest : List String) (y : T)
    (hp : q.processDelayedTasks now (World.up db) = World.up db0)
    (hl : db0.lists q.name = d :: rest)
    (hres : (q.Take now (World.up db)).1 = .returns (y, true)) :
    ∃ db2, (q.Take now (World.up db)).2 = World.up db2 ∧ db2.lists q.name = rest := by
  unfold Queue.Take at hres ⊢
  simp only [hp, World.exec_up] at hres ⊢
  have hzadd : ∀ s : Store, s.lists q.name = rest →
      ∃ db2, (q.takeDecode d now (World.up s)).2 = World.up db2 ∧ db2.lists q.name = rest := by
    intro s hs
    unfold Queue.takeDecode
    cases q.elemIsInterface
    · simp only [Bool.false_eq_true, if_false]
      rcases q.ser.Deserialize d default with err | v
      · exact ⟨s, rfl, hs⟩
      · by_cases hr : q.config.MaxRetry > 0
        · exact ⟨(cmdZADD q.processingName (UnixMilli now) d s).2,
            by simp only [hr, if_true, World.exec_up], by simpa [cmdZADD] using hs⟩
        · exact ⟨s, by simp [hr], hs⟩
    · exact ⟨s, by simp, hs⟩
  by_cases hw : q.config.MaxWaitTime > 0
  · have hs := timeout_nonneg hw
    simp only [hw, if_true, cmdBLPOP, hs, if_false, hl] at hres ⊢
    exact hzadd _ (by simp)
  · simp only [hw, if_false, cmdLPOP, hl] at hres ⊢
    by_cases hd : d.length = 0
    · simp [hd] at hres
    · simp only [hd, if_false] at hres ⊢
      exact hzadd _ (by simp)

/-- C9 as stated fails in its last part. With `MaxLength = 1`, after `Add("a")`
and `AddDelayed("b", 1ms)`: five milliseconds later `Add` is rejected, a `Take`
succeeds (it first moves `b` to the ready list, then pops `a`), and the next
`Add` is rejected again. -/
theorem queue_add_after_take_rejected :
    ((demoQueue 1 0 0).Add "c" fullQueueWorld).1 = some (.queueFull 1) ∧
    ((demoQueue 1 0 0).Take 5000000 fullQueueWorld).1 = .returns ("a", true) ∧
    ((demoQueue 1 0 0).Add "c" ((demoQueue 1 0 0).Take 5000000 fullQueueWorld).2).1
      = some (.queueFull 1) := by
  decide

/-- C9, as amended. For every queue with `MaxLength = m > 0` and every value
that the serializer encodes, on a connection that answers every command: `Add`
returns the queue-full error exactly when the ready list holds at least `m`
items, and then leaves the store unchanged; otherwise it returns no error and
appends the encoded value at the tail of the ready list; and when the ready
list holds exactly `m` items and no delayed item is due, an `Add` after one
successful `Take` succeeds. -/
theorem queue_bound {T : Type} [Inhabited T] (q : Queue T) (v : T) (data : String) (m : Int)
    (db : Store) (hm : q.config.MaxLength = m) (hpos : 0 < m)
    (henc : q.ser.Serialize v = .ok data) :
    ((q.Add v (World.up db)).1 = some (.queueFull m) ↔ m ≤ ((db.lists q.name).length : Int)) ∧
    (m ≤ ((db.lists q.name).length : Int) → (q.Add v (World.up db)).2 = World.up db) ∧
    (¬ m ≤ ((db.lists q.name).length : Int) →
      q.Add v (World.up db) = (none, World.up
        { db with lists := (Function.update db.lists q.name (db.lists q.name ++ [data])) })) ∧
    (∀ (now : Time) (y : T), ((db.lists q.name).length : Int) = m →
      zrangeByScore 0 (UnixMilli now) (db.zsets q.delayedName) = [] →
      (q.Take now (World.up db)).1 = .returns (y, true) →
      (q.Add v (q.Take now (World.up db)).2).1 = none) := by
  have hgt : m > 0 := hpos
  have hadd : ∀ s : Store, q.Add v (World.up s) =
      if m ≤ ((s.lists q.name).length : Int) then (some (.queueFull m), World.up s)
      else (none, World.up
        { s with lists := (Function.update s.lists q.name (s.lists q.name ++ [data])) }) := by
    intro s
    unfold Queue.Add
    simp only [hm, hgt, if_true, World.exec_up, cmdLLEN, ge_iff_le]
    by_cases hle : m ≤ ((s.lists q.name).length : Int)
    · simp only [hle, if_true]
    · simp [hle, Queue.addPush, henc, World.exec_up, cmdRPUSH]
  refine ⟨?_, ?_, ?_, ?_⟩
  · rw [hadd db]
    split <;> simp [*]
  · intro h
    rw [hadd db, if_pos h]
  · intro h
    rw [hadd db, if_neg h]
  · intro now y hlen hdue hres
    have hp := q.processDelayedTasks_none now db hdue
    rcases hl : db.lists q.name with _ | ⟨d, rest⟩
    · rw [hl] at hlen
      simp at hlen
      omega
    · obtain ⟨db2, h2, hl2⟩ := q.Take_pops now db db d rest y hp hl hres
      rw [h2, hadd db2, hl2]
      rw [hl] at hlen
      have : ¬ m ≤ (rest.length : Int) := by
        simp at hlen
        omega
      rw [if_neg this]

/-- Witness of C9: a queue with `MaxLength = 1` whose ready list is empty
accepts `a`, then rejects `b`, and accepts `b` after a `Take`. -/
theorem queue_bound_witness :
    ((demoQueue 1 0 0).Add "a" (World.up Store.empty)).1 = none ∧
    ((demoQueue 1 0 0).Add "b"
      ((demoQueue 1 0 0).Add "a" (World.up Store.empty)).2).1 = some (.queueFull 1) ∧
    ((demoQueue 1 0 0).Add "b" ((demoQueue 1 0 0).Take 5
      (World.up ((demoQueue 1 0 0).Add "a" (World.up Store.empty)).2.db)).2).1 = none :=
  have h1 := queue_bound (demoQueue 1 0 0) "a" "a" 1 Store.empty rfl (by decide) rfl
  have h2 := queue_bound (demoQueue 1 0 0) "b" "b" 1
    ((demoQueue 1 0 0).Add "a" (World.up Store.empty)).2.db rfl (by decide) rfl
  ⟨by rw [h1.2.2.1 (by decide)], h2.1.mpr (by decide),
    h2.2.2.2 5 "a" (by decide) (by decide) (by decide)⟩

/-- Without a bound, a sequence of `Add` calls appends the encodings in order. -/
theorem Queue.addAll_up {T : Type} [Inhabited T] (q : Queue T) (xs : List T) (ds : List String)
    (db : Store) (hmax : q.config.MaxLength = 0)
    (hcodes : List.Forall₂ q.ser.Codes xs ds) :
    q.addAll (World.up db) xs = World.up
      { db with lists := (Function.update db.lists q.name (db.lists q.name ++ ds)) } := by
  induction hcodes generalizing db with
  | nil =>
    simp [Queue.addAll]
  | @cons x d xs ds hx _ ih =>
    have hgt : ¬ q.config.MaxLength > 0 := by rw [hmax]; decide
    have h1 : (q.Add x (World.up db)).2 = World.up
        { db with lists := (Function.update db.lists q.name (db.lists q.name ++ [d])) } := by
      simp [Queue.Add, hgt, Queue.addPush, hx.1, World.exec_up, cmdRPUSH]
    have h2 := ih { db with lists := (Function.update db.lists q.name (db.lists q.name ++ [d])) }
    simp only [Queue.addAll, List.foldl_cons] at h2 ⊢
    rw [h1, h2]
    simp

/-- With no delayed item, successive `Take` calls return the decoded items of
the ready list from its head, and leave it empty. -/
theorem Queue.takes_up {T : Type} [Inhabited T] (q : Queue T) (xs : List T) (ds : List String)
    (ts : List Time) (db : Store)
    (hpd : q.processingName ≠ q.delayedName)
    (hT : q.elemIsInterface = false)
    (hcodes : List.Forall₂ q.ser.Codes xs ds)
    (hlen : ts.length = xs.length)
    (hready : db.lists q.name = ds) (hdelayed : db.zsets q.delayedName = []) :
    (q.takes (World.up db) ts).1 = xs.map (fun x => Ending.returns (x, true)) ∧
    ∃ db2, (q.takes (World.up db) ts).2 = World.up db2 ∧ db2.lists q.name = [] ∧
      db2.zsets q.delayedName = [] := by
  induction hcodes generalizing db ts with
  | nil =>
    cases ts with
    | nil => exact ⟨rfl, db, rfl, hready, hdelayed⟩
    | cons t ts => simp at hlen
  | @cons x d xs ds hx _ ih =>
    cases ts with
    | nil => simp at hlen
    | cons t ts =>
      have hp := q.processDelayedTasks_none t db (by rw [hdelayed]; rfl)
      have htake := q.Take_head t db db d ds x hp hready hx.2.1 hT hx.2.2
      simp only [Queue.takes, htake, List.map_cons]
      have hlen2 : ts.length = xs.length := by simpa using hlen
      have hnext := ih ts (if q.config.MaxRetry > 0 then
        (cmdZADD q.processingName (UnixMilli t) d
          { db with lists := (Function.update db.lists q.name ds) }).2
        else { db with lists := (Function.update db.lists q.name ds) }) hlen2
        (by split <;> simp [cmdZADD])
        (by
          split
          · simp [cmdZADD, Function.update_noteq (Ne.symm hpd), hdelayed]
          · simp [hdelayed])
      exact ⟨by rw [hnext.1], hnext.2⟩

/-- C10 as stated fails, in two ways. (1) The empty string is round-tripped by
the serializer, but `Take` pops its empty encoding and reports not-found; the
item after it is then returned by the next `Take`. (2) On a `Queue[any]` with
the default serializer, which round-trips the string `a`, `Take` pops the item
and panics. -/
theorem queue_fifo_empty_payload :
    (stringSerializer.Serialize "" = .ok "" ∧
      stringSerializer.Deserialize "" default = .ok "" ∧
      ((demoQueue 0 0 0).takes ((demoQueue 0 0 0).addAll (World.up Store.empty) ["", "b"])
        [1, 2]).1 = [.returns ("", false), .returns ("b", true)]) ∧
    (anySerializer.Serialize (some (.str "a")) = .ok "a" ∧
      anySerializer.Deserialize "a" default = .ok (some (.str "a")) ∧
      ((anyQueue 0).Take 1 ((anyQueue 0).Add (some (.str "a")) (World.up Store.empty)).2).1
        = .panics ∧
      ((anyQueue 0).Take 1
        ((anyQueue 0).Add (some (.str "a")) (World.up Store.empty)).2).2.db.lists
          (anyQueue 0).name = []) := by
  decide

/-- C10, as amended. For every queue made by `NewQueue` whose element type is
not an interface type, with `MaxLength = 0` and `MaxWaitTime = 0`, and every
list of values whose encodings are not empty and
decode back to the values, added with `Add` in that order to a queue whose
ready list and delayed set are empty, read by one consumer on a connection
that answers every command: as many `Take` calls as there are values return
the values, each with true, in the order they were added, and the `Take`
after them returns not-found. -/
theorem queue_fifo {T : Type} [Inhabited T] (name : String) (config : QueueConfig T)
    (r : Redis) (ser : SerializerFunc T) (b : Bool) (q : Queue T)
    (hq : q = NewQueue name config r ser b)
    (xs : List T) (ds : List String) (ts : List Time) (db : Store)
    (hT : q.elemIsInterface = false)
    (hmax : q.config.MaxLength = 0) (hwait : q.config.MaxWaitTime = 0)
    (hcodes : List.Forall₂ q.ser.Codes xs ds)
    (hlen : ts.length = xs.length)
    (hready : db.lists q.name = []) (hdelayed : db.zsets q.delayedName = []) :
    (q.takes (q.addAll (World.up db) xs) ts).1 = xs.map (fun x => Ending.returns (x, true)) ∧
    ∀ t : Time, (q.Take t (q.takes (q.addAll (World.up db) xs) ts).2).1 =
      .returns (default, false) := by
  have hpd : q.processingName ≠ q.delayedName := by
    rw [hq]; exact NewQueue_processing_ne_delayed name config r ser b
  rw [q.addAll_up xs ds db hmax hcodes]
  obtain ⟨h1, db2, h2, h3, h4⟩ := q.takes_up xs ds ts
    { db with lists := (Function.update db.lists q.name (db.lists q.name ++ ds)) }
    hpd hT hcodes hlen (by simp [hready]) hdelayed
  refine ⟨h1, ?_⟩
  intro t
  rw [h2]
  have hp := q.processDelayedTasks_none t db2 (by rw [h4]; rfl)
  rw [q.Take_empty t db2 db2 hp h3 (Or.inl (by rw [hwait]))]

/-- Witness of C10: the strings `a`, `b`, `c`. -/
theorem queue_fifo_witness :
    ((demoQueue 0 0 3).takes ((demoQueue 0 0 3).addAll (World.up Store.empty) ["a", "b", "c"])
      [1, 2, 3]).1 = [.returns ("a", true), .returns ("b", true), .returns ("c", true)] ∧
    ((demoQueue 0 0 3).Take 4 ((demoQueue 0 0 3).takes
      ((demoQueue 0 0 3).addAll (World.up Store.empty) ["a", "b", "c"]) [1, 2, 3]).2).1
      = .returns ("", false) :=
  have h := queue_fifo "q" _ demoRedis stringSerializer false (demoQueue 0 0 3) rfl
    ["a", "b", "c"] ["a", "b", "c"] [1, 2, 3] Store.empty rfl rfl rfl
    (List.Forall₂.cons ⟨rfl, by decide, rfl⟩ (List.Forall₂.cons ⟨rfl, by decide, rfl⟩
      (List.Forall₂.cons ⟨rfl, by decide, rfl⟩ List.Forall₂.nil))) rfl rfl rfl
  ⟨h.1, h.2 4⟩

/-- C14 as stated fails. Instance 0, whose `WaitTime` is 1.5 milliseconds,
acquires the lock at instant 0 and refreshes it 0.5 milliseconds later, with
success; the lease now ends 1 millisecond after the refresh, at 1.5
milliseconds, not `WaitTime` after it, at 2 milliseconds: at 1.6 milliseconds
the key is gone. -/
theorem refresh_lease_is_whole_milliseconds :
    ((demoLock 0 1500000).TryLock 0 (World.up Store.empty)).1 = true ∧
    (((demoLock 0 1500000).TryLock 0 (World.up Store.empty)).2.1.Refresh 500000
      ((demoLock 0 1500000).TryLock 0 (World.up Store.empty)).2.2).1 = none ∧
    ((((demoLock 0 1500000).TryLock 0 (World.up Store.empty)).2.1.Refresh 500000
      ((demoLock 0 1500000).TryLock 0 (World.up Store.empty)).2.2).2.2.db.strs "lock:job").map
        StrEntry.deadline = some (some 1500000) ∧
    (500000 : Int) + (demoLock 0 1500000).config.WaitTime = 2000000 ∧
    (((demoLock 0 1500000).TryLock 0 (World.up Store.empty)).2.1.Refresh 500000
      ((demoLock 0 1500000).TryLock 0 (World.up Store.empty)).2.2).2.2.db.GET
        "lock:job" 1600000 = none := by
  decide

/-- C14, as amended. For every lock instance, instant and store, on a
connection that answers the command. With the held flag set: if the key holds
the token of the instance and `WaitTime` is at least one millisecond,
`Refresh` returns no error, leaves the flag set and resets the lease of the key
to `WaitTime` cut to whole milliseconds, counted from now, changing nothing
else; if the key holds another value or is absent, `Refresh` returns the error
of a lock that is not held, clears the flag and leaves the store unchanged.
With the held flag clear, on any connection, `Refresh` returns an error and
issues no command: the store and the schedule of the connection are as
before. -/
theorem lock_refresh (l : Lock) (now : Time) (db : Store) :
    (l.locked = true → db.GET l.name now = some l.token →
      Millisecond ≤ l.config.WaitTime →
      l.Refresh now (World.up db) = (none, l, World.up
        { db with strs := (Function.update db.strs l.name
          (some { val := l.token, deadline := some ((now : Int) +
            Duration.Milliseconds l.config.WaitTime * 1000000) })) })) ∧
    (l.locked = true → db.GET l.name now ≠ some l.token →
      l.Refresh now (World.up db) =
        (some .refreshNotHeld, { l with locked := false }, World.up db)) ∧
    (l.locked = false → ∀ w : World, l.Refresh now w = (some .lockNotHeld, l, w)) := by
  refine ⟨?_, ?_, ?_⟩
  · intro hl hg hw
    have hms : ¬ Duration.Milliseconds l.config.WaitTime ≤ 0 := by
      have := Duration.Milliseconds_pos hw
      omega
    simp [Lock.Refresh, hl, World.exec_up, refreshScript_hit hg, hms]
  · intro hl hg
    simp [Lock.Refresh, hl, World.exec_up, refreshScript_miss hg]
  · intro hl w
    simp [Lock.Refresh, hl]

/-- Witness of C14: instance 0 with a lease of five seconds and its flag set,
on a store whose key holds its token, on a store whose key holds another token,
and with its flag clear. -/
theorem lock_refresh_witness :
    (({ demoLock 0 (5 * Second) with locked := true } : Lock).Refresh 1
      (World.up (cmdSetNXPX "lock:job" "a" 5000 0 Store.empty).2)).1 = none ∧
    (({ demoLock 0 (5 * Second) with locked := true } : Lock).Refresh 1
      (World.up otherHolderStore)).2.1.locked = false ∧
    ((demoLock 0 (5 * Second)).Refresh 1 (World.up otherHolderStore)).1 =
      some .lockNotHeld := by
  have h1 := (lock_refresh ({ demoLock 0 (5 * Second) with locked := true } : Lock) 1
    (cmdSetNXPX "lock:job" "a" 5000 0 Store.empty).2).1 rfl (by decide) (by decide)
  have h2 := (lock_refresh ({ demoLock 0 (5 * Second) with locked := true } : Lock) 1
    otherHolderStore).2.1 rfl (by decide)
  have h3 := (lock_refresh (demoLock 0 (5 * Second)) 1 otherHolderStore).2.2 rfl
    (World.up otherHolderStore)
  exact ⟨by rw [h1], by rw [h2], by rw [h3]⟩

/-- C16 as stated fails. Instance 0, whose `MaxGetLockWaitTime` is 0, calls
`Lock` on a free key and acquires it; it calls `Lock` again one nanosecond
later: the attempt fails, the call returns the error, and `IsLocked` is still
true, the flag being the one of the first acquisition. -/
theorem failed_lock_keeps_flag :
    (demoLock 0 (5 * Second)).config.MaxGetLockWaitTime = 0 ∧
    (((demoLock 0 (5 * Second)).lockLoop 0 1 0 (World.up Store.empty)).map
      (fun r => (r.1, r.2.1.IsLocked))) = some (none, true) ∧
    ((((demoLock 0 (5 * Second)).lockLoop 0 1 0 (World.up Store.empty)).bind
      (fun r => r.2.1.lockLoop 1 1 1 r.2.2)).map
        (fun r => (r.1, r.2.1.IsLocked))) = some (some .lockFailed, true) := by
  decide

/-- C16, as amended. For every lock whose `MaxGetLockWaitTime` is 0, on any
connection and with any bound of at least one turn, `Lock` makes exactly one
acquisition attempt, which sends one command: if the attempt succeeds the call
returns nil with the held flag set; otherwise it returns the lock-failed error
at once, without a second turn after `RetryTime`, with the held flag as it was
before the call (so `IsLocked` is false for an instance that did not hold the
lock) and the store unchanged. -/
theorem lock_single_attempt (l : Lock) (start : Time) (fuel : Nat) (w : World)
    (h0 : l.config.MaxGetLockWaitTime = 0) :
    ((l.tryAcquire start w).1 = true →
      l.lockLoop start (fuel + 1) start w =
        some (none, { l with locked := true }, (l.tryAcquire start w).2)) ∧
    ((l.tryAcquire start w).1 = false →
      l.lockLoop start (fuel + 1) start w =
        some (some .lockFailed, l, (l.tryAcquire start w).2) ∧
      (l.tryAcquire start w).2.db = w.db) ∧
    (l.tryAcquire start w).2.faults = w.faults.tail := by
  refine ⟨?_, ?_, ?_⟩
  · intro h
    unfold Lock.lockLoop
    rcases hx : l.tryAcquire start w with ⟨b, w1⟩
    rw [hx] at h
    simp only at h
    subst h
    rfl
  · intro h
    have hdb : (l.tryAcquire start w).2.db = w.db := by
      rcases Lock.TryLock_spec l start w with ⟨h1, -⟩ | ⟨-, -, h3⟩
      · unfold Lock.TryLock at h1
        rcases hx : l.tryAcquire start w with ⟨b, w1⟩
        rw [hx] at h h1
        simp only at h
        subst h
        simp at h1
      · unfold Lock.TryLock at h3
        rcases hx : l.tryAcquire start w with ⟨b, w1⟩
        rw [hx] at h h3
        simp only at h
        subst h
        simpa using h3
    refine ⟨?_, hdb⟩
    unfold Lock.lockLoop
    rcases hx : l.tryAcquire start w with ⟨b, w1⟩
    rw [hx] at h
    simp only at h
    subst h
    simp [h0]
  · unfold Lock.tryAcquire
    have := World.exec_faults w (cmdSetNXPX l.name l.token
      (Duration.Milliseconds l.config.WaitTime) start)
    rcases hx : w.exec (cmdSetNXPX l.name l.token
      (Duration.Milliseconds l.config.WaitTime) start) with ⟨r, w1⟩
    rw [hx] at this
    rcases r with e | b
    · simpa using this
    · cases b <;> simpa using this

/-- Witness of C16: instance 0 on a free key. -/
theorem lock_single_attempt_witness :
    (demoLock 0 (5 * Second)).config.MaxGetLockWaitTime = 0 ∧
    ((demoLock 0 (5 * Second)).lockLoop 7 1 7 (World.up Store.empty)).map
      (fun r => (r.1, r.2.1.IsLocked)) = some (none, true) := by
  have h := (lock_single_attempt (demoLock 0 (5 * Second)) 7 0 (World.up Store.empty)
    (by decide)).1 (by decide)
  exact ⟨by decide, by rw [h]; rfl⟩

/-- A call of `Lock` that returns nil hands back the instance with its flag set. -/
theorem Lock.lockLoop_ok (l : Lock) (startTime : Time) (fuel : Nat) (now : Time) (w : World)
    (l1 : Lock) (w1 : World) (h : l.lockLoop startTime fuel now w = some (none, l1, w1)) :
    l1 = { l with locked := true } := by
  induction fuel generalizing now w with
  | zero => simp [Lock.lockLoop] at h
  | succ n ih =>
    unfold Lock.lockLoop at h
    rcases hx : l.tryAcquire now w with ⟨b, w2⟩
    rw [hx] at h
    cases b
    · simp only at h
      split at h
      · simp at h
      · split at h
        · simp at h
        · exact ih _ _ h
    · simp at h
      exact h.1.symm

/-- The deferred `Unlock` when the closure ends: with the flag set on a
connection that answers, the key is deleted and the flag cleared if the key
holds the token, and nothing changes otherwise. -/
theorem Lock.Unlock_up (l : Lock) (now : Time) (w : World) (hl : l.locked = true)
    (hf : w.faults = []) :
    (w.db.GET l.name now = some l.token →
      (l.Unlock now w).2.1 = { l with locked := false } ∧
      (l.Unlock now w).2.2.db = w.db.remove l.name) ∧
    (w.db.GET l.name now ≠ some l.token →
      (l.Unlock now w).2.1 = l ∧ (l.Unlock now w).2.2.db = w.db) := by
  rcases w with ⟨db, f⟩
  simp only at hf
  subst hf
  constructor
  · intro hg
    simp only at hg
    simp [Lock.Unlock, hl, World.exec, unlockScript_hit hg]
  · intro hg
    simp only at hg
    simp [Lock.Unlock, hl, World.exec, unlockScript_miss hg]

theorem Store.GET_remove (s : Store) (key : String) (t : Time) :
    (s.remove key).GET key t = none := by
  simp [Store.GET, Store.remove]

theorem Lock.ReleaseRule_unlock (l : Lock) (o : FnOutcome) :
    l.ReleaseRule o
      (({ l with locked := o.locked } : Lock).Unlock o.time o.world).2.1
      (({ l with locked := o.locked } : Lock).Unlock o.time o.world).2.2 := by
  intro hl hf
  have h := Lock.Unlock_up ({ l with locked := o.locked } : Lock) o.time o.world hl hf
  constructor
  · intro hg
    have h1 := h.1 hg
    refine ⟨by rw [h1.1]; rfl, ?_⟩
    intro t
    rw [h1.2]
    exact Store.GET_remove _ _ _
  · intro hg
    have h2 := h.2 hg
    refine ⟨by rw [h2.1]; exact hl, h2.2⟩

/-- C15 as stated fails, in two ways. (1) Instance 0, with a lease of five
seconds, runs a closure that takes six seconds: the lease ends while the
closure runs, the deferred `Unlock` finds no token to delete, fails, and leaves
the flag set. `TryLockFunc` returns true and `LockFunc` returns nil, yet
`IsLocked` is true afterwards. (2) A closure that panics has run, and
`TryLockFunc` does not return true: the panic leaves the call. -/
theorem lock_func_leaves_flag_set :
    (((demoLock 0 (5 * Second)).TryLockFunc (sleepSixSeconds 0) 0 (World.up Store.empty)).ret
        = some true ∧
      ((demoLock 0 (5 * Second)).TryLockFunc (sleepSixSeconds 0) 0
        (World.up Store.empty)).lock.IsLocked = true ∧
      ((demoLock 0 (5 * Second)).LockFunc (sleepSixSeconds 0) 1 0 (World.up Store.empty)).map
        (fun r => (r.ret, r.lock.IsLocked)) = some (some none, true)) ∧
    (((demoLock 0 (5 * Second)).TryLockFunc (panicAtOnce 1) 0 (World.up Store.empty)).ran
        = true ∧
      ((demoLock 0 (5 * Second)).TryLockFunc (panicAtOnce 1) 0 (World.up Store.empty)).ret
        = none) := by
  decide

/-- C15, as amended. For every closure, `TryLockFunc` runs it exactly when the
acquisition succeeds and returns true exactly when the closure ran and ended
without a panic; `LockFunc` runs it exactly when `Lock` returns nil, returns
nil exactly when it ended without a panic, and returns the error of `Lock`
otherwise. On every exit path of the closure, panic included, the deferred
`Unlock` follows `Lock.ReleaseRule`: when the closure leaves the held flag set
and the connection answers, the lock is released (`IsLocked` false, the key
gone) if the key still holds the token of the instance at that instant, and
otherwise the store is unchanged and `IsLocked` stays true. -/
theorem lock_func_release (l : Lock) (fn : World → FnOutcome) (now : Time) (w : World) :
    (l.TryLockFunc fn now w).ran = (l.TryLock now w).1 ∧
    ((l.TryLockFunc fn now w).ret = some true ↔
      (l.TryLockFunc fn now w).ran = true ∧ (fn (l.TryLock now w).2.2).panicked = false) ∧
    ((l.TryLock now w).1 = true →
      l.ReleaseRule (fn (l.TryLock now w).2.2) (l.TryLockFunc fn now w).lock
        (l.TryLockFunc fn now w).world) ∧
    (∀ fuel l1 w1, l.lockLoop now fuel now w = some (none, l1, w1) →
      ∃ r, l.LockFunc fn fuel now w = some r ∧ r.ran = true ∧
        (r.ret = some none ↔ (fn w1).panicked = false) ∧
        l.ReleaseRule (fn w1) r.lock r.world) ∧
    (∀ fuel err l1 w1, l.lockLoop now fuel now w = some (some err, l1, w1) →
      ∃ r, l.LockFunc fn fuel now w = some r ∧ r.ran = false ∧ r.ret = some (some err) ∧
        r.world = w1) := by
  refine ⟨?_, ?_, ?_, ?_, ?_⟩
  · unfold Lock.TryLockFunc
    rcases hx : l.TryLock now w with ⟨b, l1, w1⟩
    cases b <;> rfl
  · unfold Lock.TryLockFunc
    rcases hx : l.TryLock now w with ⟨b, l1, w1⟩
    cases b
    · simp
    · cases hp : (fn w1).panicked <;> simp [hp]
  · intro h
    have hl1 : (l.TryLock now w).2.1 = { l with locked := true } := by
      rcases Lock.TryLock_spec l now w with ⟨-, h2, -⟩ | ⟨h1, -⟩
      · exact h2
      · rw [h1] at h; simp at h
    unfold Lock.TryLockFunc
    rcases hx : l.TryLock now w with ⟨b, l1, w1⟩
    rw [hx] at h hl1
    simp only at h hl1
    subst h
    subst hl1
    exact Lock.ReleaseRule_unlock l (fn w1)
  · intro fuel l1 w1 h
    have hl1 := Lock.lockLoop_ok l now fuel now w l1 w1 h
    subst hl1
    unfold Lock.LockFunc
    rw [h]
    refine ⟨_, rfl, rfl, ?_, Lock.ReleaseRule_unlock l (fn w1)⟩
    cases hp : (fn w1).panicked <;> simp [hp]
  · intro fuel err l1 w1 h
    unfold Lock.LockFunc
    rw [h]
    exact ⟨_, rfl, rfl, rfl, rfl⟩

/-- Witness of C15: instance 0 on a free key, with a closure that takes one
second and leaves the flag and the store as they are: the lock is released. -/
theorem lock_func_release_witness :
    ((demoLock 0 (5 * Second)).TryLock 0 (World.up Store.empty)).1 = true ∧
    ((demoLock 0 (5 * Second)).TryLockFunc
      (fun w => { panicked := false, time := 1000000000, locked := true, world := w })
      0 (World.up Store.empty)).lock.IsLocked = false :=
  ⟨by decide,
    (((lock_func_release (demoLock 0 (5 * Second))
      (fun w => { panicked := false, time := 1000000000, locked := true, world := w })
      0 (World.up Store.empty)).2.2.1 (by decide)) rfl (by decide)).1 (by decide) |>.1⟩

theorem Cache.GetTTL_up {T : Type} (c : Cache T) (key : String) (now : Time) (db : Store) :
    c.GetTTL key now (World.up db) =
      (match kvGet key (db.zsets c.expireName) with
        | some score =>
          if fromUnixMilli score - (now : Int) ≤ 0 then (0, false)
          else (fromUnixMilli score - (now : Int), true)
        | none => (0, false), World.up db) := by
  unfold Cache.GetTTL
  simp only [World.exec_up, cmdZSCORE]
  rcases kvGet key (db.zsets c.expireName) with _ | score
  · rfl
  · simp only
    split <;> rfl

/-- C17 as stated fails, in two ways. (1) With a ttl of 0.1 ms set at the
instant 1.5 ms the score is the millisecond 1, as the claim says, but that
instant is already in the past and `GetTTL` right after reports no remaining
time. (2) When the name creator gives the hash of time markers the name of the
data hash and the draw is 0, the data hash holds a time marker under the key
`m:data:cleanup` after `Set`, not the encoded value. -/
theorem cache_set_then_ttl_misses :
    (kvGet "k" ((demoCache.Set "k" "v" 100000 1500000 1 (World.up Store.empty)).2.2.db.zsets
        demoCache.expireName) = some 1 ∧
      (demoCache.GetTTL "k" 1500000
        (demoCache.Set "k" "v" 100000 1500000 1 (World.up Store.empty)).2.2).1 = (0, false)) ∧
    kvGet "m:data:cleanup"
      ((clashCache.Set "m:data:cleanup" "v" Second 0 0 (World.up Store.empty)).2.2.db.hashes
        clashCache.dataName) = some "0" := by
  decide

/-- C17, as amended. For every cache whose data hash is not the hash of time
markers, every key, every value that the serializer encodes, and every ttl, on
a connection that answers every command: let the applied duration be the ttl
when ttl > 0, and `DefaultExpire` when ttl <= 0 and `DefaultExpire` > 0. `Set`
returns no error, stores the encoded value in the data hash under the key and
sets the score of the key to the instant now + applied duration in epoch
milliseconds (rounded down); and when the applied duration is at least one
millisecond, `GetTTL` called at the same instant returns (d, true) with
0 < d <= the applied duration. -/
theorem cache_set_then_ttl {T : Type} (c : Cache T) (key : String) (v : T)
    (ttl applied : Duration) (now : Time) (roll : Nat) (db : Store) (data : String)
    (hsep : c.redis.safeTypeMapName ≠ c.dataName)
    (henc : c.ser.Serialize v = .ok data)
    (happ : (ttl > 0 ∧ applied = ttl) ∨
      (ttl ≤ 0 ∧ c.config.DefaultExpire > 0 ∧ applied = c.config.DefaultExpire)) :
    (c.Set key v ttl now roll (World.up db)).1 = none ∧
    kvGet key ((c.Set key v ttl now roll (World.up db)).2.2.db.hashes c.dataName) = some data ∧
    kvGet key ((c.Set key v ttl now roll (World.up db)).2.2.db.zsets c.expireName) =
      some (UnixMilli ((now : Int) + applied)) ∧
    (Millisecond ≤ applied →
      ∃ d, (c.GetTTL key now (c.Set key v ttl now roll (World.up db)).2.2).1 = (d, true) ∧
        0 < d ∧ d ≤ applied) := by
  obtain ⟨b, db2, hset, hf⟩ := c.Set_up key v ttl now roll db data henc
  have hf2 : Store.sameBut c.redis.safeTypeMapName
      (cmdZADD c.expireName (UnixMilli ((now : Int) + applied)) key
        (cmdHSET c.dataName key data db).2).2 db2 := by
    rcases happ with ⟨h1, h2⟩ | ⟨h1, h2, h3⟩
    · have hpos : (0 : Int) < ttl := h1
      rw [if_pos hpos] at hf
      rw [h2]
      exact hf
    · have hnp : ¬ (0 : Int) < ttl := not_lt.mpr h1
      have hpos : (0 : Int) < c.config.DefaultExpire := h2
      rw [if_neg hnp, if_pos hpos] at hf
      rw [h3]
      exact hf
  obtain ⟨-, hz, -, hh⟩ := hf2
  have hscore : kvGet key (db2.zsets c.expireName) = some (UnixMilli ((now : Int) + applied)) := by
    rw [hz]
    simp [cmdZADD, cmdHSET, kvGet_kvPut_same]
  rw [hset]
  refine ⟨rfl, ?_, hscore, ?_⟩
  · show kvGet key (db2.hashes c.dataName) = some data
    rw [hh c.dataName (Ne.symm hsep)]
    simp [cmdZADD, cmdHSET, kvGet_kvPut_same]
  · intro hms
    have h2 : (1000000 : Int) ≤ applied := hms
    simp only [Cache.GetTTL_up, hscore]
    have hd : ¬ fromUnixMilli (UnixMilli ((now : Int) + applied)) - (now : Int) ≤ 0 := by
      unfold fromUnixMilli UnixMilli
      omega
    rw [if_neg hd]
    refine ⟨fromUnixMilli (UnixMilli ((now : Int) + applied)) - (now : Int), rfl, ?_, ?_⟩
    · show (0 : Int) < fromUnixMilli (UnixMilli ((now : Int) + applied)) - (now : Int)
      omega
    · show fromUnixMilli (UnixMilli ((now : Int) + applied)) - (now : Int) ≤ (applied : Int)
      unfold fromUnixMilli UnixMilli
      omega

/-- Witness of C17: the string `v` with a ttl of one second. -/
theorem cache_set_then_ttl_witness :
    (demoCache.Set "k" "v" Second 7 0 (World.up Store.empty)).1 = none ∧
    kvGet "k" ((demoCache.Set "k" "v" Second 7 0 (World.up Store.empty)).2.2.db.zsets
      demoCache.expireName) = some (UnixMilli ((7 : Int) + Second)) :=
  have h := cache_set_then_ttl demoCache "k" "v" Second Second 7 0 Store.empty "v"
    (by decide) rfl (Or.inl ⟨by decide, rfl⟩)
  ⟨h.1, h.2.2.1⟩

/-! ## Range queries and sweeps -/

theorem mem_zrangeByScore {k : String} {lo hi : Int} {z : List (String × Int)} :
    k ∈ zrangeByScore lo hi z ↔ ∃ s, (k, s) ∈ z ∧ lo ≤ s ∧ s ≤ hi := by
  simp only [zrangeByScore, List.mem_map, (List.perm_insertionSort zsetLe _).mem_iff,
    List.mem_filter, decide_eq_true_eq]
  constructor
  · rintro ⟨⟨k1, s⟩, ⟨hm, hr⟩, hk⟩
    simp only at hk
    subst hk
    exact ⟨s, hm, hr⟩
  · rintro ⟨s, hm, hr⟩
    exact ⟨(k, s), ⟨hm, hr⟩, rfl⟩

theorem kvGet_of_mem {β : Type} {k : String} {v : β} {l : List (String × β)}
    (hwf : (l.map Prod.fst).Nodup) (h : (k, v) ∈ l) : kvGet k l = some v := by
  induction l with
  | nil => simp at h
  | cons p t ih =>
    obtain ⟨k1, v1⟩ := p
    simp only [List.map_cons, List.nodup_cons, List.mem_map, not_exists, not_and] at hwf
    rcases List.mem_cons.mp h with h1 | h1
    · cases h1
      simp [kvGet]
    · have hne : k1 ≠ k := fun e => hwf.1 (k, v) h1 e.symm
      simp only [kvGet, hne, if_false]
      exact ih hwf.2 h1

theorem mem_of_kvGet {β : Type} {k : String} {v : β} {l : List (String × β)}
    (h : kvGet k l = some v) : (k, v) ∈ l := by
  induction l with
  | nil => simp [kvGet] at h
  | cons p t ih =>
    obtain ⟨k1, v1⟩ := p
    by_cases h1 : k1 = k
    · simp only [kvGet, h1, if_true, Option.some.injEq] at h
      subst h1 h
      exact List.mem_cons_self _ _
    · simp only [kvGet, h1, if_false] at h
      exact List.mem_cons_of_mem _ (ih h)

/-- In a sorted set that lists each member once, the members a range query
returns are those whose score lies in the range. -/
theorem mem_zrangeByScore_iff_score {k : String} {lo hi : Int} {z : List (String × Int)}
    (hwf : (z.map Prod.fst).Nodup) :
    k ∈ zrangeByScore lo hi z ↔ ∃ s, kvGet k z = some s ∧ lo ≤ s ∧ s ≤ hi := by
  rw [mem_zrangeByScore]
  constructor
  · rintro ⟨s, hm, hr⟩
    exact ⟨s, kvGet_of_mem hwf hm, hr⟩
  · rintro ⟨s, hg, hr⟩
    exact ⟨s, mem_of_kvGet hg, hr⟩

theorem kvDel_nil {β : Type} (l : List (String × β)) : kvDel [] l = l := by
  simp [kvDel]

/-- `ClearExpired` on a connection that answers every command: the members of
the expiry set with a score between 0 and now are removed from the data hash
and from the expiry set. -/
theorem Cache.ClearExpired_up {T : Type} (c : Cache T) (now : Time) (db : Store) :
    ∃ db2, c.ClearExpired now (World.up db) = (none, World.up db2) ∧
      db2.hashes c.dataName =
        kvDel (zrangeByScore 0 (UnixMilli now) (db.zsets c.expireName)) (db.hashes c.dataName) ∧
      db2.zsets c.expireName =
        kvDel (zrangeByScore 0 (UnixMilli now) (db.zsets c.expireName))
          (db.zsets c.expireName) ∧
      db2.strs = db.strs ∧ db2.lists = db.lists ∧
      (∀ k, k ≠ c.dataName → db2.hashes k = db.hashes k) ∧
      (∀ k, k ≠ c.expireName → db2.zsets k = db.zsets k) := by
  unfold Cache.ClearExpired
  simp only [World.exec_up, cmdZRANGEBYSCORE]
  by_cases hk : (zrangeByScore 0 (UnixMilli now) (db.zsets c.expireName)).length > 0
  · rw [if_pos hk, Cache.Delete_up]
    have hk2 : ¬ (zrangeByScore 0 (UnixMilli now) (db.zsets c.expireName)).length = 0 := by
      omega
    rw [if_neg hk2]
    refine ⟨_, rfl, ?_, ?_, rfl, rfl, ?_, ?_⟩
    · simp [cmdZREM, cmdHDEL]
    · simp [cmdZREM, cmdHDEL]
    · intro k hk
      simp [cmdZREM, cmdHDEL, Function.update_noteq hk]
    · intro k hk
      simp [cmdZREM, cmdHDEL, Function.update_noteq hk]
  · rw [if_neg hk]
    have hnil : zrangeByScore 0 (UnixMilli now) (db.zsets c.expireName) = [] := by
      apply List.eq_nil_of_length_eq_zero
      omega
    refine ⟨db, rfl, ?_, ?_, rfl, rfl, fun _ _ => rfl, fun _ _ => rfl⟩
    · rw [hnil, kvDel_nil]
    · rw [hnil, kvDel_nil]

/-- C18 as stated fails. The key `k` has the score -300000000000, which is
below the millisecond of now; `ClearExpired` asks for the scores between 0 and
now, so the key is not returned and stays in the data hash and in the expiry
set. -/
theorem clear_expired_keeps_negative_score :
    kvGet "k" (negativeScoreWorld.db.zsets demoCache.expireName) = some (-300000000000) ∧
    (-300000000000 : Int) ≤ UnixMilli (1700000000000000002 : Nat) ∧
    (demoCache.ClearExpired 1700000000000000002 negativeScoreWorld).1 = none ∧
    kvGet "k" ((demoCache.ClearExpired 1700000000000000002 negativeScoreWorld).2.db.hashes
      demoCache.dataName) = some "v" ∧
    kvGet "k" ((demoCache.ClearExpired 1700000000000000002 negativeScoreWorld).2.db.zsets
      demoCache.expireName) = some (-300000000000) := by
  decide

/-- C18, as amended. For every cache state whose expiry set lists each member
once (as a sorted set does) and every time now, on a connection that answers
every command: `ClearExpired` returns no error and removes from both the data
hash and the expiry set exactly the keys whose expiry score is between 0 and
now (epoch milliseconds, rounded down); it leaves the value and the score of
every other key unchanged, including every key that has no expiry score and
every key whose score is negative. -/
theorem cache_clear_expired {T : Type} (c : Cache T) (now : Time) (db : Store)
    (hwf : ((db.zsets c.expireName).map Prod.fst).Nodup) :
    (c.ClearExpired now (World.up db)).1 = none ∧
    ∀ k,
      ((∃ s, kvGet k (db.zsets c.expireName) = some s ∧ 0 ≤ s ∧ s ≤ UnixMilli now) →
        kvGet k ((c.ClearExpired now (World.up db)).2.db.hashes c.dataName) = none ∧
        kvGet k ((c.ClearExpired now (World.up db)).2.db.zsets c.expireName) = none) ∧
      ((¬ ∃ s, kvGet k (db.zsets c.expireName) = some s ∧ 0 ≤ s ∧ s ≤ UnixMilli now) →
        kvGet k ((c.ClearExpired now (World.up db)).2.db.hashes c.dataName) =
          kvGet k (db.hashes c.dataName) ∧
        kvGet k ((c.ClearExpired now (World.up db)).2.db.zsets c.expireName) =
          kvGet k (db.zsets c.expireName)) := by
  obtain ⟨db2, hc, hh, hz, -⟩ := c.ClearExpired_up now db
  rw [hc]
  refine ⟨rfl, ?_⟩
  intro k
  show (_ → kvGet k (db2.hashes c.dataName) = none ∧ kvGet k (db2.zsets c.expireName) = none) ∧
    (_ → kvGet k (db2.hashes c.dataName) = kvGet k (db.hashes c.dataName) ∧
      kvGet k (db2.zsets c.expireName) = kvGet k (db.zsets c.expireName))
  rw [hh, hz]
  constructor
  · intro hs
    have hm := (mem_zrangeByScore_iff_score hwf).mpr hs
    exact ⟨kvGet_kvDel_mem _ hm, kvGet_kvDel_mem _ hm⟩
  · intro hs
    have hm : k ∉ zrangeByScore 0 (UnixMilli now) (db.zsets c.expireName) :=
      fun h => hs ((mem_zrangeByScore_iff_score hwf).mp h)
    exact ⟨kvGet_kvDel_not_mem _ hm, kvGet_kvDel_not_mem _ hm⟩

/-- Witness of C18: the key `k`, set with a ttl of one second at instant 0, is
swept at the instant of two seconds. -/
theorem cache_clear_expired_witness :
    (((demoCache.Set "k" "v" Second 0 1 (World.up Store.empty)).2.2.db.zsets
      demoCache.expireName).map Prod.fst).Nodup ∧
    kvGet "k" ((demoCache.ClearExpired 2000000000
      (World.up (demoCache.Set "k" "v" Second 0 1 (World.up Store.empty)).2.2.db)).2.db.hashes
        demoCache.dataName) = none :=
  ⟨by decide,
    (((cache_clear_expired demoCache 2000000000
      (demoCache.Set "k" "v" Second 0 1 (World.up Store.empty)).2.2.db (by decide)).2 "k").1
        ⟨1000, by decide, by decide, by decide⟩).1⟩

/-! ## Occupancy -/

theorem mem_keys_iff_kvGet {β : Type} (k : String) (l : List (String × β)) :
    k ∈ l.map Prod.fst ↔ (kvGet k l).isSome = true := by
  induction l with
  | nil => simp [kvGet]
  | cons p t ih =>
    obtain ⟨k1, v1⟩ := p
    by_cases h1 : k1 = k
    · simp [kvGet, h1]
    · have h2 : ¬ k = k1 := fun e => h1 e.symm
      simp only [List.map_cons, List.mem_cons, h2, false_or, kvGet, h1, if_false]
      exact ih

/-- `Exists` on a connection that answers every command. -/
theorem Cache.Exists_up {T : Type} (c : Cache T) (key : String) (now : Time) (db : Store) :
    (c.Exists key now (World.up db)).1 =
      match kvGet key (db.zsets c.expireName) with
      | some score =>
        if fromUnixMilli score < (now : Int) then false
        else (kvGet key (db.hashes c.dataName)).isSome
      | none => (kvGet key (db.hashes c.dataName)).isSome := by
  unfold Cache.Exists
  rw [Cache.isExpired_up]
  rcases hz : kvGet key (db.zsets c.expireName) with _ | score
  · simp only [World.exec_up, cmdHEXISTS]
    cases (kvGet key (db.hashes c.dataName)).isSome <;> simp
  · by_cases he : fromUnixMilli score < (now : Int)
    · simp [he]
    · simp only [he, decide_False, if_false, World.exec_up, cmdHEXISTS]
      cases (kvGet key (db.hashes c.dataName)).isSome <;> simp

/-- A key that `Get` finds is a key that `Exists` finds. -/
theorem Cache.Exists_of_Get {T : Type} [Inhabited T] (c : Cache T) (key : String) (now : Time)
    (db : Store) (v : T) (h : (c.Get key now (World.up db)).1 = .returns (v, true)) :
    (c.Exists key now (World.up db)).1 = true := by
  rw [Cache.Exists_up]
  unfold Cache.Get at h
  rw [Cache.isExpired_up] at h
  rcases hz : kvGet key (db.zsets c.expireName) with _ | score
  · rw [hz] at h
    simp only [World.exec_up, cmdHGET] at h
    rcases hd : kvGet key (db.hashes c.dataName) with _ | data
    · rw [hd] at h
      simp at h
    · rfl
  · rw [hz] at h
    by_cases he : fromUnixMilli score < (now : Int)
    · simp [he] at h
    · simp only [he, decide_False, if_false, World.exec_up, cmdHGET] at h ⊢
      rcases hd : kvGet key (db.hashes c.dataName) with _ | data
      · rw [hd] at h
        simp at h
      · rfl

/-- C19 as stated fails, in three ways. (1) The key `k`, set at instant 0 with
a ttl of one millisecond, has the score 1; at the instant of exactly one
millisecond `Exists` treats it as present, the instant not being after the
expiry, while the sweep of `Length` and `Keys` removes the scores up to 1:
`Length` is 0 and `Keys` is empty. (2) A key with a negative score is lazily
expired for `Exists` and is not swept: `Length` is 1. (3) A key that holds the
empty string is absent for `Get` and counted by `Length`. -/
theorem cache_length_disagrees :
    ((demoCache.Exists "k" 1000000
        (demoCache.Set "k" "v" Millisecond 0 1 (World.up Store.empty)).2.2).1 = true ∧
      (demoCache.Length 1000000
        (demoCache.Set "k" "v" Millisecond 0 1 (World.up Store.empty)).2.2).1 = 0 ∧
      (demoCache.Keys 1000000
        (demoCache.Set "k" "v" Millisecond 0 1 (World.up Store.empty)).2.2).1 = .ok []) ∧
    ((demoCache.Exists "k" 1700000000000000002 negativeScoreWorld).1 = false ∧
      (demoCache.Length 1700000000000000002 negativeScoreWorld).1 = 1) ∧
    ((demoCache.Get "k" 5 (demoCache.Set "k" "" 0 0 1 (World.up Store.empty)).2.2).1
        = .returns ("", false) ∧
      (demoCache.Length 5 (demoCache.Set "k" "" 0 0 1 (World.up Store.empty)).2.2).1 = 1) := by
  decide

/-- C19, as amended. For every cache state whose data hash and expiry set list
each key once, in which no score is negative, and every instant that is not
the exact millisecond instant of a score, on a connection that answers every
command: `Keys` returns, without repetition, exactly the keys that `Exists`
at that same instant on that same state treats as present (in the data hash
and not lazily expired), and `Length` is their number. Every key that `Get`
finds there is one of them. -/
theorem cache_length_keys {T : Type} [Inhabited T] (c : Cache T) (now : Time) (db : Store)
    (hhash : ((db.hashes c.dataName).map Prod.fst).Nodup)
    (hzset : ((db.zsets c.expireName).map Prod.fst).Nodup)
    (hscore : ∀ k s, kvGet k (db.zsets c.expireName) = some s →
      0 ≤ s ∧ fromUnixMilli s ≠ (now : Int)) :
    ∃ keys, (c.Keys now (World.up db)).1 = .ok keys ∧ keys.Nodup ∧
      (∀ k, k ∈ keys ↔ (c.Exists k now (World.up db)).1 = true) ∧
      (c.Length now (World.up db)).1 = (keys.length : Int) ∧
      ∀ k v, (c.Get k now (World.up db)).1 = .returns (v, true) → k ∈ keys := by
  obtain ⟨db2, hc, hh, hz, -⟩ := c.ClearExpired_up now db
  have hmem : ∀ k, k ∈ (db2.hashes c.dataName).map Prod.fst ↔
      (c.Exists k now (World.up db)).1 = true := by
    intro k
    rw [mem_keys_iff_kvGet, hh, Cache.Exists_up]
    rcases hs : kvGet k (db.zsets c.expireName) with _ | score
    · have hm : k ∉ zrangeByScore 0 (UnixMilli now) (db.zsets c.expireName) := by
        intro h
        obtain ⟨s, h1, -⟩ := (mem_zrangeByScore_iff_score hzset).mp h
        rw [hs] at h1
        cases h1
      rw [kvGet_kvDel_not_mem _ hm]
    · obtain ⟨h0, hne⟩ := hscore k score hs
      by_cases he : fromUnixMilli score < (now : Int)
      · have hm : k ∈ zrangeByScore 0 (UnixMilli now) (db.zsets c.expireName) := by
          refine (mem_zrangeByScore_iff_score hzset).mpr ⟨score, hs, h0, ?_⟩
          unfold fromUnixMilli at he
          unfold UnixMilli
          omega
        rw [kvGet_kvDel_mem _ hm]
        simp [he]
      · have hm : k ∉ zrangeByScore 0 (UnixMilli now) (db.zsets c.expireName) := by
          intro h
          obtain ⟨s, h1, -, h3⟩ := (mem_zrangeByScore_iff_score hzset).mp h
          rw [hs] at h1
          cases h1
          unfold fromUnixMilli at he hne
          unfold UnixMilli at h3
          omega
        rw [kvGet_kvDel_not_mem _ hm]
        simp [he]
  refine ⟨(db2.hashes c.dataName).map Prod.fst, ?_, ?_, hmem, ?_, ?_⟩
  · unfold Cache.Keys
    rw [hc]
    rfl
  · rw [hh]
    exact hhash.sublist ((List.filter_sublist _).map Prod.fst)
  · unfold Cache.Length
    rw [hc]
    simp [World.exec_up, cmdHLEN]
  · intro k v hk
    exact (hmem k).mpr (c.Exists_of_Get k now db v hk)

/-- Witness of C19: after `Set` of the keys `a` and `b`, the second with a ttl
of one second, `Length` at the instant of two and a half seconds is 1. -/
theorem cache_length_keys_witness :
    ∃ keys, (demoCache.Keys 2500000000 (World.up
        (demoCache.Set "b" "w" Second 0 1
          (demoCache.Set "a" "v" 0 0 1 (World.up Store.empty)).2.2).2.2.db)).1 = .ok keys ∧
      (demoCache.Length 2500000000 (World.up
        (demoCache.Set "b" "w" Second 0 1
          (demoCache.Set "a" "v" 0 0 1 (World.up Store.empty)).2.2).2.2.db)).1
        = (keys.length : Int) := by
  obtain ⟨keys, h1, -, -, h4, -⟩ := cache_length_keys demoCache 2500000000
    (demoCache.Set "b" "w" Second 0 1
      (demoCache.Set "a" "v" 0 0 1 (World.up Store.empty)).2.2).2.2.db
    (by decide) (by decide) (by
      intro k s hs
      have hz : (demoCache.Set "b" "w" Second 0 1
          (demoCache.Set "a" "v" 0 0 1 (World.up Store.empty)).2.2).2.2.db.zsets
            demoCache.expireName = [("b", 1000)] := by decide
      rw [hz] at hs
      simp only [kvGet] at hs
      split at hs
      · cases hs
        decide
      · cases hs)
  exact ⟨keys, h1, h4⟩

/-- `Exists` on a connection that answers every command, with the store it
leaves: a key whose score is before now is deleted from both structures. -/
theorem Cache.Exists_up_world {T : Type} (c : Cache T) (key : String) (now : Time)
    (db : Store) :
    c.Exists key now (World.up db) =
      match kvGet key (db.zsets c.expireName) with
      | some score =>
        if fromUnixMilli score < (now : Int) then
          (false, World.up (cmdZREM c.expireName [key] (cmdHDEL c.dataName [key] db).2).2)
        else ((kvGet key (db.hashes c.dataName)).isSome, World.up db)
      | none => ((kvGet key (db.hashes c.dataName)).isSome, World.up db) := by
  unfold Cache.Exists
  rw [Cache.isExpired_up]
  rcases hz : kvGet key (db.zsets c.expireName) with _ | score
  · simp only [World.exec_up, cmdHEXISTS]
    cases (kvGet key (db.hashes c.dataName)).isSome <;> simp
  · by_cases he : fromUnixMilli score < (now : Int)
    · simp [he, Cache.Delete_up]
    · simp only [he, decide_False, if_false, World.exec_up, cmdHEXISTS]
      cases (kvGet key (db.hashes c.dataName)).isSome <;> simp

/-- `GetTTL` sends one read command: the store is as before. -/
theorem Cache.GetTTL_db {T : Type} (c : Cache T) (key : String) (now : Time) (w : World) :
    (c.GetTTL key now w).2.db = w.db := by
  unfold Cache.GetTTL
  rcases World.exec_cases w (cmdZSCORE c.expireName key) with ⟨-, h2, -⟩ | ⟨-, h2⟩
  · rcases hx : w.exec (cmdZSCORE c.expireName key) with ⟨r, w1⟩
    rw [hx] at h2
    simp only at h2
    rcases r with e | (_ | score)
    · exact h2
    · exact h2
    · simp only
      split <;> exact h2
  · rcases hx : w.exec (cmdZSCORE c.expireName key) with ⟨r, w1⟩
    rw [hx] at h2
    simp only [cmdZSCORE] at h2
    rcases r with e | (_ | score)
    · exact h2
    · exact h2
    · simp only
      split <;> exact h2

/-- C20 as stated fails, in two ways. (1) The key `k` was set at instant 0 with
a ttl of one second; `SetTTL` at the instant of two seconds finds it lazily
expired, deletes it from the data hash and from the expiry set, and returns no
error: the data hash has changed. (2) `SetTTL` of a present key with a
duration of minus one second: `GetTTL` right after reports (0, false), and 0
is not at most the duration. -/
theorem set_ttl_deletes_expired_key :
    (kvGet "k" ((demoCache.Set "k" "v" Second 0 1 (World.up Store.empty)).2.2.db.hashes
        demoCache.dataName) = some "v" ∧
      (demoCache.SetTTL "k" (3600 * Second) 2000000000
        (demoCache.Set "k" "v" Second 0 1 (World.up Store.empty)).2.2).1 = none ∧
      kvGet "k" ((demoCache.SetTTL "k" (3600 * Second) 2000000000
        (demoCache.Set "k" "v" Second 0 1 (World.up Store.empty)).2.2).2.db.hashes
          demoCache.dataName) = none) ∧
    ((demoCache.Exists "k" 5000000000
        (demoCache.Set "k" "v" (3600 * Second) 0 1 (World.up Store.empty)).2.2).1 = true ∧
      (demoCache.GetTTL "k" 5000000000
        (demoCache.SetTTL "k" (-Second) 5000000000
          (demoCache.Set "k" "v" (3600 * Second) 0 1 (World.up Store.empty)).2.2).2).1
        = (0, false) ∧
      ¬ (0 : Int) ≤ -Second) := by
  decide

/-- C20, as amended. For every cache state, key, duration and instant.
`GetTTL` never changes the store, on any connection. On a connection that
answers every command, `SetTTL` returns no error and: (1) when the key is
lazily expired (its score is before now), it removes the key from the data
hash and from the expiry set; (2) otherwise, when the key is not in the data
hash, it leaves the whole store unchanged; (3) otherwise it changes only the
expiry score of that key, setting it to now + duration in epoch milliseconds
(rounded down), the data hash and every other score staying as they are, and a
`GetTTL` right after that reports a remaining time reports at most the
duration. -/
theorem cache_ttl_frame {T : Type} (c : Cache T) (key : String) (d : Duration) (now : Time)
    (db : Store) :
    (∀ w : World, (c.GetTTL key now w).2.db = w.db) ∧
    (∀ s, kvGet key (db.zsets c.expireName) = some s → fromUnixMilli s < (now : Int) →
      c.SetTTL key d now (World.up db) =
        (none, World.up (cmdZREM c.expireName [key] (cmdHDEL c.dataName [key] db).2).2)) ∧
    ((∀ s, kvGet key (db.zsets c.expireName) = some s → ¬ fromUnixMilli s < (now : Int)) →
      (kvGet key (db.hashes c.dataName) = none →
        c.SetTTL key d now (World.up db) = (none, World.up db)) ∧
      (kvGet key (db.hashes c.dataName) ≠ none →
        c.SetTTL key d now (World.up db) =
          (none, World.up (cmdZADD c.expireName (UnixMilli ((now : Int) + d)) key db).2) ∧
        (c.SetTTL key d now (World.up db)).2.db.hashes = db.hashes ∧
        kvGet key ((c.SetTTL key d now (World.up db)).2.db.zsets c.expireName) =
          some (UnixMilli ((now : Int) + d)) ∧
        (∀ k, k ≠ key →
          kvGet k ((c.SetTTL key d now (World.up db)).2.db.zsets c.expireName) =
            kvGet k (db.zsets c.expireName)) ∧
        ∀ r, (c.GetTTL key now (c.SetTTL key d now (World.up db)).2).1 = (r, true) →
          r ≤ d)) := by
  refine ⟨fun w => c.GetTTL_db key now w, ?_, ?_⟩
  · intro s hs he
    unfold Cache.SetTTL
    rw [Cache.Exists_up_world, hs]
    simp [he]
  · intro hlive
    have hex : c.Exists key now (World.up db) =
        ((kvGet key (db.hashes c.dataName)).isSome, World.up db) := by
      rw [Cache.Exists_up_world]
      rcases hz : kvGet key (db.zsets c.expireName) with _ | score
      · rfl
      · simp [hlive score hz]
    constructor
    · intro hn
      unfold Cache.SetTTL
      rw [hex, hn]
      rfl
    · intro hn
      have hsome : (kvGet key (db.hashes c.dataName)).isSome = true := by
        rcases hd : kvGet key (db.hashes c.dataName) with _ | data
        · exact absurd hd hn
        · rfl
      have hset : c.SetTTL key d now (World.up db) =
          (none, World.up (cmdZADD c.expireName (UnixMilli ((now : Int) + d)) key db).2) := by
        unfold Cache.SetTTL
        rw [hex, hsome]
        rfl
      have hscore : kvGet key ((cmdZADD c.expireName (UnixMilli ((now : Int) + d)) key
          db).2.zsets c.expireName) = some (UnixMilli ((now : Int) + d)) := by
        simp [cmdZADD, kvGet_kvPut_same]
      rw [hset]
      refine ⟨rfl, rfl, hscore, ?_, ?_⟩
      · intro k hk
        simp [cmdZADD, World.up, kvGet_kvPut_ne _ _ hk]
      · intro r hr
        rw [Cache.GetTTL_up, hscore] at hr
        simp only at hr
        split at hr
        · simp at hr
        · have h1 := (Prod.mk.inj hr).1
          rw [← h1]
          show fromUnixMilli (UnixMilli ((now : Int) + d)) - (now : Int) ≤ (d : Int)
          unfold fromUnixMilli UnixMilli
          omega

/-- Witness of C20: `SetTTL` of one hour on the key `k`, which was set with a
ttl of one second, before that second has passed. -/
theorem cache_ttl_frame_witness :
    kvGet "k" ((demoCache.SetTTL "k" (3600 * Second) 5
      (World.up (demoCache.Set "k" "v" Second 0 1 (World.up Store.empty)).2.2.db)).2.db.zsets
        demoCache.expireName) = some (UnixMilli ((5 : Int) + 3600 * Second)) :=
  (((cache_ttl_frame demoCache "k" (3600 * Second) 5
    (demoCache.Set "k" "v" Second 0 1 (World.up Store.empty)).2.2.db).2.2
      (by
        intro s hs
        have hz : (demoCache.Set "k" "v" Second 0 1 (World.up Store.empty)).2.2.db.zsets
            demoCache.expireName = [("k", 1000)] := by decide
        rw [hz] at hs
        simp only [kvGet, if_true, Option.some.injEq] at hs
        subst hs
        decide)).2 (by decide)).2.2.1

/-- C12 as stated fails. The bytes `abc` under the key `k`, written through a
cache of strings, do not decode into an `int64`; `Get` of `k` through the
cache of `int64` on the same name returns (0, false), as it does for a key
that is absent. Likewise `Take` on a queue whose head item is `abc` returns
(0, false), as it does on the empty queue; the item is gone from the ready
list. On a `Cache[any]` and a `Queue[any]` on the same names the decoding is
not reached: `Get` and `Take` panic on the stored bytes. -/
theorem decode_error_same_as_miss :
    (int64Serializer.Deserialize "abc" 0 =
        .error (.serializer "json: cannot unmarshal into Go value of type int64") ∧
      kvGet "k" ((demoCache.Set "k" "abc" 0 0 1 (World.up Store.empty)).2.2.db.hashes
        intCache.dataName) = some "abc" ∧
      (intCache.Get "k" 1 (demoCache.Set "k" "abc" 0 0 1 (World.up Store.empty)).2.2).1
        = .returns (0, false) ∧
      (intCache.Get "absent" 1 (demoCache.Set "k" "abc" 0 0 1 (World.up Store.empty)).2.2).1
        = .returns (0, false)) ∧
    (((demoQueue 0 0 0).Add "abc" (World.up Store.empty)).2.db.lists intQueue.name = ["abc"] ∧
      (intQueue.Take 1 ((demoQueue 0 0 0).Add "abc" (World.up Store.empty)).2).1
        = .returns (0, false) ∧
      (intQueue.Take 1 ((demoQueue 0 0 0).Add "abc" (World.up Store.empty)).2).2.db.lists
        intQueue.name = [] ∧
      (intQueue.Take 1 (World.up Store.empty)).1 = .returns (0, false)) ∧
    ((anyCache.Get "k" 1 (demoCache.Set "k" "abc" 0 0 1 (World.up Store.empty)).2.2).1
        = .panics ∧
      ((anyQueue 0).Take 1 ((demoQueue 0 0 0).Add "abc" (World.up Store.empty)).2).1
        = .panics) := by
  decide

/-- `Take` on a ready list whose head does not decode: the head is popped and
the call returns not-found. -/
theorem Queue.Take_undecodable {T : Type} [Inhabited T] (q : Queue T) (now : Time)
    (db db0 : Store) (d : String) (rest : List String) (e : Error)
    (hp : q.processDelayedTasks now (World.up db) = World.up db0)
    (hl : db0.lists q.name = d :: rest)
    (hT : q.elemIsInterface = false)
    (hdec : q.ser.Deserialize d default = .error e) :
    q.Take now (World.up db) = (.returns (default, false),
      World.up { db0 with lists := (Function.update db0.lists q.name rest) }) := by
  unfold Queue.Take
  simp only [hp]
  by_cases hw : q.config.MaxWaitTime > 0
  · have hw2 : (0 : Int) < q.config.MaxWaitTime := hw
    have hs := timeout_nonneg hw2
    simp [hw2, World.exec_up, cmdBLPOP, hs, hl, Queue.takeDecode, hdec, hT]
  · have hw2 : ¬ (0 : Int) < q.config.MaxWaitTime := hw
    by_cases h0 : d.length = 0
    · simp [hw2, World.exec_up, cmdLPOP, hl, h0]
    · simp [hw2, World.exec_up, cmdLPOP, hl, h0, Queue.takeDecode, hdec, hT]

/-- `Get` of a key whose stored bytes do not decode returns not-found. -/
theorem Cache.Get_undecodable {T : Type} [Inhabited T] (c : Cache T) (key : String)
    (now : Time) (db : Store) (data : String) (e : Error)
    (hdata : kvGet key (db.hashes c.dataName) = some data)
    (hT : c.elemIsInterface = false)
    (hdec : c.ser.Deserialize data default = .error e) :
    (c.Get key now (World.up db)).1 = .returns (default, false) := by
  unfold Cache.Get
  rw [Cache.isExpired_up]
  rcases hz : kvGet key (db.zsets c.expireName) with _ | score
  · by_cases h0 : data.length = 0
    · simp [World.exec_up, cmdHGET, hdata, h0]
    · simp [World.exec_up, cmdHGET, hdata, h0, hdec, hT]
  · by_cases he : fromUnixMilli score < (now : Int)
    · simp [he]
    · by_cases h0 : data.length = 0
      · simp [he, World.exec_up, cmdHGET, hdata, h0]
      · simp [he, World.exec_up, cmdHGET, hdata, h0, hdec, hT]

/-- `Get` of a key that is not in the data hash returns not-found. -/
theorem Cache.Get_absent {T : Type} [Inhabited T] (c : Cache T) (key : String)
    (now : Time) (db : Store) (hdata : kvGet key (db.hashes c.dataName) = none) :
    (c.Get key now (World.up db)).1 = .returns (default, false) := by
  unfold Cache.Get
  rw [Cache.isExpired_up]
  rcases hz : kvGet key (db.zsets c.expireName) with _ | score
  · simp [World.exec_up, cmdHGET, hdata]
  · by_cases he : fromUnixMilli score < (now : Int)
    · simp [he]
    · simp [he, World.exec_up, cmdHGET, hdata]

/-- C12, as amended. Serialization errors are not distinct from misses, the
results of `Get` and `Take` having no error part. For every cache and queue
whose element type is not an interface type: for every key whose stored
bytes fail to decode into the value type of the cache, `Get` returns the zero
value and false, which is exactly its result for a key that is not in the data
hash. For every queue whose head item fails to decode, `Take` removes the item
from the ready list and returns the zero value and false, which is exactly its
result on an empty ready list, without blocking or with a timeout of at least
one second. All on a connection that answers every command. -/
theorem decode_error_is_miss {T : Type} [Inhabited T] (c : Cache T) (q : Queue T)
    (key data : String) (rest : List String) (e : Error) (now : Time)
    (hc : c.elemIsInterface = false) (hq : q.elemIsInterface = false) :
    (∀ db, kvGet key (db.hashes c.dataName) = some data →
      c.ser.Deserialize data default = .error e →
      (c.Get key now (World.up db)).1 = .returns (default, false)) ∧
    (∀ db, kvGet key (db.hashes c.dataName) = none →
      (c.Get key now (World.up db)).1 = .returns (default, false)) ∧
    (∀ db db0, q.processDelayedTasks now (World.up db) = World.up db0 →
      db0.lists q.name = data :: rest → q.ser.Deserialize data default = .error e →
      q.Take now (World.up db) = (.returns (default, false),
        World.up { db0 with lists := (Function.update db0.lists q.name rest) })) ∧
    (∀ db db0, q.processDelayedTasks now (World.up db) = World.up db0 →
      db0.lists q.name = [] → (q.config.MaxWaitTime ≤ 0 ∨ Second ≤ q.config.MaxWaitTime) →
      (q.Take now (World.up db)).1 = .returns (default, false)) := by
  refine ⟨?_, ?_, ?_, ?_⟩
  · intro db hdata hdec
    exact c.Get_undecodable key now db data e hdata hc hdec
  · intro db hdata
    exact c.Get_absent key now db hdata
  · intro db db0 hp hl hdec
    exact q.Take_undecodable now db db0 data rest e hp hl hq hdec
  · intro db db0 hp hl hwait
    rw [q.Take_empty now db db0 hp hl hwait]

/-- Witness of C12: the bytes `abc` read through the cache of `int64`. -/
theorem decode_error_is_miss_witness :
    (intCache.Get "k" 1
      (World.up (demoCache.Set "k" "abc" 0 0 1 (World.up Store.empty)).2.2.db)).1
        = .returns (0, false) :=
  (decode_error_is_miss intCache intQueue "k" "abc" []
    (.serializer "json: cannot unmarshal into Go value of type int64") 1 rfl rfl).1
    (demoCache.Set "k" "abc" 0 0 1 (World.up Store.empty)).2.2.db (by decide) (by decide)

/-! ## Failing commands -/

theorem kvPut_of_not_mem {β : Type} (k : String) (v : β) (l : List (String × β))
    (h : k ∉ l.map Prod.fst) : kvPut k v l = l ++ [(k, v)] := by
  induction l with
  | nil => rfl
  | cons p t ih =>
    obtain ⟨k1, v1⟩ := p
    simp only [List.map_cons, List.mem_cons, not_or] at h
    have hne : ¬ k1 = k := fun e => h.1 e.symm
    simp [kvPut, hne, ih h.2]

theorem kvDel_kvDel {β : Type} (a : String) (ks : List String) (l : List (String × β)) :
    kvDel ks (kvDel [a] l) = kvDel (a :: ks) l := by
  unfold kvDel
  rw [List.filter_filter]
  congr 1
  funext p
  by_cases h1 : p.1 = a <;> by_cases h2 : p.1 ∈ ks <;> simp [h1, h2]

/-- The loop of the script that moves the due items: they leave the delayed
set and go to the tail of the ready list, in order. -/
theorem foldl_moveItem (delayed ready : String) (items : List String) (s : Store) :
    items.foldl (moveItem delayed ready) s =
      { s with
        zsets := (Function.update s.zsets delayed (kvDel items (s.zsets delayed)))
        lists := (Function.update s.lists ready (s.lists ready ++ items)) } := by
  induction items generalizing s with
  | nil => simp [kvDel_nil]
  | cons a rest ih =>
    rw [List.foldl_cons, ih]
    simp [moveItem, cmdRPUSH, cmdZREM, kvDel_kvDel]

/-- When every member of the delayed set is due (its score lies between 0 and
now), `processDelayedTasks` empties the delayed set and appends its members, in
the order of the set, to the ready list. -/
theorem Queue.processDelayedTasks_all_due {T : Type} (q : Queue T) (now : Time) (db : Store)
    (hdue : ∀ e ∈ db.zsets q.delayedName, 0 ≤ e.2 ∧ e.2 ≤ UnixMilli now) :
    q.processDelayedTasks now (World.up db) = World.up
      { db with
        zsets := (Function.update db.zsets q.delayedName [])
        lists := (Function.update db.lists q.name
          (db.lists q.name ++ ((db.zsets q.delayedName).insertionSort zsetLe).map Prod.fst)) }
      := by
  have hrange : zrangeByScore 0 (UnixMilli now) (db.zsets q.delayedName) =
      ((db.zsets q.delayedName).insertionSort zsetLe).map Prod.fst := by
    unfold zrangeByScore
    rw [List.filter_eq_self.mpr]
    intro e he
    simpa using hdue e he
  have hdel : kvDel (((db.zsets q.delayedName).insertionSort zsetLe).map Prod.fst)
      (db.zsets q.delayedName) = [] := by
    unfold kvDel
    rw [List.filter_eq_nil_iff]
    intro e he
    have : e.1 ∈ ((db.zsets q.delayedName).insertionSort zsetLe).map Prod.fst :=
      List.mem_map_of_mem Prod.fst ((List.perm_insertionSort zsetLe _).mem_iff.mpr he)
    simpa using this
  rw [Queue.processDelayedTasks_up, hrange, foldl_moveItem, hdel]

/-- The store after the pop of the head of the ready list and, with retry
tracking, the record in the processing set; the head may be empty when the pop
blocks. -/
theorem Queue.Take_head_carries {T : Type} [Inhabited T] (q : Queue T) (now : Time)
    (db db0 : Store) (d : String) (rest : List String) (x : T)
    (hp : q.processDelayedTasks now (World.up db) = World.up db0)
    (hl : db0.lists q.name = d :: rest)
    (hd : q.config.MaxWaitTime ≤ 0 → d.length ≠ 0)
    (hT : q.elemIsInterface = false)
    (hdec : q.ser.Deserialize d default = .ok x) :
    q.Take now (World.up db) = (.returns (x, true),
      World.up (if q.config.MaxRetry > 0 then
        (cmdZADD q.processingName (UnixMilli now) d
          { db0 with lists := (Function.update db0.lists q.name rest) }).2
        else { db0 with lists := (Function.update db0.lists q.name rest) })) := by
  by_cases hw : q.config.MaxWaitTime > 0
  · unfold Queue.Take
    simp only [hp, World.exec_up]
    have hs := timeout_nonneg hw
    simp only [hw, if_true, cmdBLPOP, hs, if_false, hl, Queue.takeDecode, hdec, hT]
    by_cases hr : q.config.MaxRetry > 0
    · simp [hr, World.exec_up]
    · simp [hr]
  · exact q.Take_head now db db0 d rest x hp hl (hd (not_lt.mp hw)) hT hdec

/-- When every member of the delayed set is due at each of the instants,
successive `Take` calls return the values of the ready list from its head,
followed by those of the delayed set in the order of the set. -/
theorem Queue.takes_all_due {T : Type} [Inhabited T] (q : Queue T) (ts : List Time)
    (hT : q.elemIsInterface = false) :
    ∀ (ys : List T) (db : Store), q.processingName ≠ q.delayedName →
    List.Forall₂ q.Carries ys
      (db.lists q.name ++ ((db.zsets q.delayedName).insertionSort zsetLe).map Prod.fst) →
    ts.length = ys.length →
    (∀ e ∈ db.zsets q.delayedName, 0 ≤ e.2 ∧ ∀ t ∈ ts, e.2 ≤ UnixMilli t) →
    (q.takes (World.up db) ts).1 = ys.map (fun x => Ending.returns (x, true)) := by
  induction ts with
  | nil =>
    intro ys db _ _ hlen _
    cases ys with
    | nil => rfl
    | cons y ys => simp at hlen
  | cons t ts ih =>
    intro ys db hpd hcar hlen hdue
    cases ys with
    | nil => simp at hlen
    | cons y ys =>
      obtain ⟨d, rest, hy, hrest, hD⟩ := List.forall₂_cons_left_iff.mp hcar
      have hp := q.processDelayedTasks_all_due t db
        (fun e he => ⟨(hdue e he).1, (hdue e he).2 t (List.mem_cons_self _ _)⟩)
      rw [hD] at hp
      have htake := q.Take_head_carries t db _ d rest y hp (by simp) hy.2.2 hT hy.2.1
      have hlen2 : ts.length = ys.length := by simpa using hlen
      by_cases hr : q.config.MaxRetry > 0
      · rw [if_pos hr] at htake
        simp only [Queue.takes, htake, List.map_cons]
        have hnext := ih ys (cmdZADD q.processingName (UnixMilli t) d
          { strs := db.strs, hashes := db.hashes,
            zsets := Function.update db.zsets q.delayedName [],
            lists := Function.update (Function.update db.lists q.name (d :: rest))
              q.name rest }).2 hpd
          (by simpa [cmdZADD, Function.update_noteq (Ne.symm hpd)] using hrest) hlen2
          (by simp [cmdZADD, Function.update_noteq (Ne.symm hpd)])
        rw [hnext]
      · rw [if_neg hr] at htake
        simp only [Queue.takes, htake, List.map_cons]
        have hnext := ih ys
          { strs := db.strs, hashes := db.hashes,
            zsets := Function.update db.zsets q.delayedName [],
            lists := Function.update (Function.update db.lists q.name (d :: rest))
              q.name rest } hpd
          (by simpa using hrest) hlen2 (by simp)
        rw [hnext]

/-- Without a bound, enqueue calls whose delayed payloads are new to the
delayed set all return nil; the ready list and the delayed set grow by what
`readyData` and `delayedEntries` tell. -/
theorem Queue.enqueueAll_up {T : Type} (q : Queue T) (items : List (EnqueueCall T × String)) :
    ∀ db : Store, q.config.MaxLength = 0 →
    (∀ p ∈ items, q.ser.Serialize p.1.value = .ok p.2) →
    ((db.zsets q.delayedName).map Prod.fst ++ (delayedEntries items).map Prod.fst).Nodup →
    q.enqueueAll (World.up db) (items.map Prod.fst) =
      (items.map (fun _ => none), World.up
        { db with
          zsets := (Function.update db.zsets q.delayedName
            (db.zsets q.delayedName ++ delayedEntries items))
          lists := (Function.update db.lists q.name (db.lists q.name ++ readyData items)) })
      := by
  induction items with
  | nil =>
    intro db _ _ _
    simp [Queue.enqueueAll, delayedEntries, readyData]
  | cons p rest ih =>
    intro db hmax hser hnd
    obtain ⟨c, d⟩ := p
    have hd := hser (c, d) (List.mem_cons_self _ _)
    have hser2 : ∀ p ∈ rest, q.ser.Serialize p.1.value = .ok p.2 :=
      fun p hp => hser p (List.mem_cons_of_mem _ hp)
    cases c with
    | add x =>
      simp only [EnqueueCall.value] at hd
      have hadd : q.Add x (World.up db) = (none, World.up
          { db with lists := (Function.update db.lists q.name (db.lists q.name ++ [d])) }) := by
        simp [Queue.Add, hmax, Queue.addPush, hd, World.exec_up, cmdRPUSH]
      simp only [List.map_cons, Queue.enqueueAll, Queue.enqueue, hadd]
      rw [ih _ hmax hser2 (by simpa [delayedEntries] using hnd)]
      simp [delayedEntries, readyData]
    | addDelayed x delay now =>
      simp only [EnqueueCall.value] at hd
      have hnew : d ∉ (db.zsets q.delayedName).map Prod.fst := by
        intro hmem
        simp only [delayedEntries, List.map_cons] at hnd
        exact (List.nodup_append.mp hnd).2.2 hmem (List.mem_cons_self _ _)
      have hadd : q.AddDelayed x delay now (World.up db) = (none, World.up
          { db with zsets := (Function.update db.zsets q.delayedName
            (db.zsets q.delayedName ++ [(d, UnixMilli ((now : Int) + delay))])) }) := by
        simp [Queue.AddDelayed, hd, World.exec_up, cmdZADD, kvPut_of_not_mem _ _ _ hnew]
      simp only [List.map_cons, Queue.enqueueAll, Queue.enqueue, hadd]
      rw [ih _ hmax hser2 (by
        simp only [delayedEntries, List.map_cons] at hnd
        simpa [List.map_append] using hnd)]
      simp [delayedEntries, readyData]

/-- The encodings on the ready list and in the delayed set are those of the
enqueue calls, up to order. -/
theorem readyData_delayedEntries_perm {T : Type} (items : List (EnqueueCall T × String)) :
    (readyData items ++ (delayedEntries items).map Prod.fst).Perm (items.map Prod.snd) := by
  induction items with
  | nil => simp [readyData, delayedEntries]
  | cons p rest ih =>
    obtain ⟨c, d⟩ := p
    cases c with
    | add x =>
      simpa [readyData, delayedEntries] using ih
    | addDelayed x delay now =>
      simp only [readyData, delayedEntries, List.map_cons]
      exact List.perm_middle.trans (List.Perm.cons d ih)

/-- C11 as stated fails, in five ways; every enqueue call below returns nil.
(1) Two `AddDelayed` calls with the payload `x`: the delayed set, whose members
are the payloads, holds `x` once, and the second `Take` finds nothing. (2) The
empty string, added with `Add`: `Take` pops its empty encoding and reports
not-found. (3) `AddDelayed` in November 2023 with a delay of minus 2 * 10^18
nanoseconds: the score is negative, the move asks for the scores from 0 on,
and the item is never moved. (4) With a serializer that does not read back
what it wrote, here one that drops leading spaces, `Take` returns a value that
was not enqueued. (5) On a `Queue[any]` with the default serializer `Take`
pops the item and panics. -/
theorem queue_items_lost :
    (((demoQueue 0 0 0).enqueueAll (World.up Store.empty)
        [.addDelayed "x" Millisecond 0, .addDelayed "x" Millisecond 0]).1 = [none, none] ∧
      ((demoQueue 0 0 0).takes ((demoQueue 0 0 0).enqueueAll (World.up Store.empty)
        [.addDelayed "x" Millisecond 0, .addDelayed "x" Millisecond 0]).2
          [1000000000, 1000000001]).1 = [.returns ("x", true), .returns ("", false)]) ∧
    (((demoQueue 0 0 0).enqueueAll (World.up Store.empty) [.add ""]).1 = [none] ∧
      ((demoQueue 0 0 0).takes ((demoQueue 0 0 0).enqueueAll (World.up Store.empty)
        [.add ""]).2 [1]).1 = [.returns ("", false)]) ∧
    (((demoQueue 0 0 0).enqueueAll (World.up Store.empty)
        [.addDelayed "x" (-2000000000000000000) 1700000000000000000]).1 = [none] ∧
      ((demoQueue 0 0 0).takes ((demoQueue 0 0 0).enqueueAll (World.up Store.empty)
        [.addDelayed "x" (-2000000000000000000) 1700000000000000000]).2
          [1700000000000000001]).1 = [.returns ("", false)]) ∧
    ((trimmingQueue.enqueueAll (World.up Store.empty) [.add " a"]).1 = [none] ∧
      (trimmingQueue.takes (trimmingQueue.enqueueAll (World.up Store.empty) [.add " a"]).2
        [1]).1 = [.returns ("a", true)]) ∧
    (((anyQueue 0).enqueueAll (World.up Store.empty) [.add (some (.str "a"))]).1 = [none] ∧
      ((anyQueue 0).takes ((anyQueue 0).enqueueAll (World.up Store.empty)
        [.add (some (.str "a"))]).2 [1]).1 = [.panics]) := by
  decide

/-- C11, as amended. For every queue made by `NewQueue` whose element type is
not an interface type, with `MaxLength = 0`, on a connection that answers
every command, and every sequence of k `Add` and
`AddDelayed` calls on a queue whose ready list and delayed set are empty, such
that (a) the queue carries every value: its encoding decodes back to it and,
when `Take` pops without blocking, is not empty; (b) the payloads passed to
`AddDelayed` are pairwise distinct; (c) no ready-time lies before the epoch:
every call returns nil, and once the millisecond of every ready-time has been
reached, k successive `Take` calls by a single consumer each return found, and
the returned values are the enqueued values up to order, each as many times as
it was enqueued. -/
theorem queue_no_item_lost {T : Type} [Inhabited T] (name : String) (config : QueueConfig T)
    (r : Redis) (ser : SerializerFunc T) (b : Bool) (q : Queue T)
    (hq : q = NewQueue name config r ser b)
    (items : List (EnqueueCall T × String)) (ts : List Time) (db : Store)
    (hT : q.elemIsInterface = false)
    (hmax : q.config.MaxLength = 0)
    (hcar : ∀ p ∈ items, q.Carries p.1.value p.2)
    (hdistinct : ((delayedEntries items).map Prod.fst).Nodup)
    (hdue : ∀ e ∈ delayedEntries items, 0 ≤ e.2 ∧ ∀ t ∈ ts, e.2 ≤ UnixMilli t)
    (hready : db.lists q.name = []) (hdelayed : db.zsets q.delayedName = [])
    (hlen : ts.length = items.length) :
    (q.enqueueAll (World.up db) (items.map Prod.fst)).1 = items.map (fun _ => none) ∧
    ∃ ys : List T,
      (q.takes (q.enqueueAll (World.up db) (items.map Prod.fst)).2 ts).1 =
        ys.map (fun x => Ending.returns (x, true)) ∧
      ys.Perm (items.map (fun p => p.1.value)) := by
  have hpd : q.processingName ≠ q.delayedName := by
    rw [hq]
    exact NewQueue_processing_ne_delayed name config r ser b
  have henq := q.enqueueAll_up items db hmax (fun p hp => (hcar p hp).1)
    (by rw [hdelayed]; simpa using hdistinct)
  rw [hready, hdelayed, List.nil_append, List.nil_append] at henq
  rw [henq]
  refine ⟨rfl, ?_⟩
  have hperm : (readyData items ++
      ((delayedEntries items).insertionSort zsetLe).map Prod.fst).Perm (items.map Prod.snd) :=
    (List.Perm.append_left _ ((List.perm_insertionSort zsetLe _).map Prod.fst)).trans
      (readyData_delayedEntries_perm items)
  have hdec : ∀ p ∈ items,
      (match q.ser.Deserialize p.2 default with
        | .ok x => x
        | .error _ => default) = p.1.value := by
    intro p hp
    rw [(hcar p hp).2.1]
  refine ⟨(readyData items ++ ((delayedEntries items).insertionSort zsetLe).map Prod.fst).map
    (fun d => match q.ser.Deserialize d default with
      | .ok x => x
      | .error _ => default), ?_, ?_⟩
  · apply q.takes_all_due ts hT _ _ hpd
    · simp only [Function.update_same]
      rw [List.forall₂_map_left_iff, List.forall₂_same]
      intro d hd
      obtain ⟨p, hp, rfl⟩ := List.mem_map.mp (hperm.mem_iff.mp hd)
      rw [hdec p hp]
      exact hcar p hp
    · rw [List.length_map, hperm.length_eq, List.length_map, hlen]
    · simp only [Function.update_same]
      exact hdue
  · refine (hperm.map _).trans ?_
    rw [List.map_map]
    apply List.Perm.of_eq
    apply List.map_congr_left
    intro p hp
    exact hdec p hp

/-- Witness of C11: `AddDelayed("b", 1ms)`, `Add("a")` and `Add("a")` at
instant 0, then three `Take` calls one second later: `a`, `a`, `b`. -/
theorem queue_no_item_lost_witness :
    ((demoQueue 0 0 0).enqueueAll (World.up Store.empty)
      [.addDelayed "b" Millisecond 0, .add "a", .add "a"]).1 = [none, none, none] ∧
    ∃ ys : List String,
      ((demoQueue 0 0 0).takes ((demoQueue 0 0 0).enqueueAll (World.up Store.empty)
        [.addDelayed "b" Millisecond 0, .add "a", .add "a"]).2
          [1000000000, 1000000001, 1000000002]).1 = ys.map (fun x => Ending.returns (x, true)) ∧
      ys.Perm ["b", "a", "a"] :=
  queue_no_item_lost "q" _ demoRedis stringSerializer false (demoQueue 0 0 0) rfl
    [(.addDelayed "b" Millisecond 0, "b"), (.add "a", "a"), (.add "a", "a")]
    [1000000000, 1000000001, 1000000002] Store.empty rfl rfl
    (by
      intro p hp
      simp only [List.mem_cons, List.mem_singleton, List.not_mem_nil, or_false] at hp
      rcases hp with rfl | rfl | rfl <;> exact ⟨rfl, rfl, fun _ => by decide⟩)
    (by decide) (by decide) rfl rfl rfl

/-! ## Decimal digits -/

theorem digitChar_spec (k : Nat) (h : k < 10) :
    (Nat.digitChar k).isDigit = true ∧ (Nat.digitChar k).toNat - 48 = k ∧
      Nat.digitChar k ≠ '-' ∧ Nat.digitChar k ≠ '+' ∧ isJSONSpace (Nat.digitChar k) = false ∧
      Nat.digitChar k ≠ 'n' ∧ (k ≠ 0 → Nat.digitChar k ≠ '0') := by
  interval_cases k <;> decide

/-- Reading the digits that `toDigitsCore` writes in front of `acc`. -/
theorem parseDigits_toDigitsCore (fuel : Nat) :
    ∀ (n : Nat) (acc : List Char), n < fuel →
      parseDigits (Nat.toDigitsCore 10 fuel n acc) 0 = parseDigits acc n := by
  induction fuel with
  | zero => intro n acc h; omega
  | succ fuel ih =>
    intro n acc h
    have hk := digitChar_spec (n % 10) (Nat.mod_lt _ (by norm_num))
    unfold Nat.toDigitsCore
    simp only
    split
    · rename_i h0
      have hn : n % 10 = n := by omega
      rw [hn] at hk ⊢
      simp only [parseDigits, hk.1, if_true, hk.2.1, Nat.zero_mul, Nat.zero_add]
    · rename_i h0
      rw [ih (n / 10) _ (by omega)]
      simp only [parseDigits, hk.1, if_true, hk.2.1]
      congr 1
      omega

theorem parseDigits_toDigits (n : Nat) : parseDigits (Nat.toDigits 10 n) 0 = some n := by
  unfold Nat.toDigits
  rw [parseDigits_toDigitsCore _ _ _ (Nat.lt_succ_self n)]
  rfl

/-- The first digit that `toDigitsCore` writes; it is not 0 unless the number is. -/
theorem toDigitsCore_head (fuel : Nat) :
    ∀ (n : Nat) (acc : List Char), n < fuel →
      ∃ k rest, k < 10 ∧ (n ≠ 0 → k ≠ 0) ∧
        Nat.toDigitsCore 10 fuel n acc = Nat.digitChar k :: rest := by
  induction fuel with
  | zero => intro n acc h; omega
  | succ fuel ih =>
    intro n acc h
    unfold Nat.toDigitsCore
    simp only
    split
    · rename_i h0
      exact ⟨n % 10, acc, Nat.mod_lt _ (by norm_num), by omega, rfl⟩
    · rename_i h0
      obtain ⟨k, rest, hk, hk0, he⟩ := ih (n / 10) (Nat.digitChar (n % 10) :: acc) (by omega)
      exact ⟨k, rest, hk, fun _ => hk0 h0, he⟩

theorem toDigits_head (n : Nat) :
    ∃ k rest, k < 10 ∧ (n ≠ 0 → k ≠ 0) ∧ Nat.toDigits 10 n = Nat.digitChar k :: rest :=
  toDigitsCore_head (n + 1) n [] (Nat.lt_succ_self n)

theorem toString_nat_data (n : Nat) : (toString n).data = Nat.toDigits 10 n := rfl

theorem toString_int_data (n : Int) :
    (toString n).data =
      if 0 ≤ n then Nat.toDigits 10 n.toNat else '-' :: Nat.toDigits 10 (-n).toNat := by
  cases n with
  | ofNat m => simp [toString_nat_data]; rfl
  | negSucc m =>
    have : ¬ (0 : Int) ≤ Int.negSucc m := by
      simp
    rw [if_neg this]
    show ("-" ++ toString (m + 1)).data = _
    rw [String.data_append]
    rfl

/-- The reply conversion reads back the decimal digits the client writes. -/
theorem parseInt64_formatInt64 (n : Int) (h1 : -9223372036854775808 ≤ n)
    (h2 : n ≤ 9223372036854775807) : parseInt64 (formatInt64 n) = some n := by
  unfold parseInt64 formatInt64
  rw [toString_int_data]
  by_cases h0 : 0 ≤ n
  · rw [if_pos h0]
    obtain ⟨k, rest, hk, -, he⟩ := toDigits_head n.toNat
    have hp := parseDigits_toDigits n.toNat
    rw [he] at hp ⊢
    have hs := digitChar_spec k hk
    have hval : ((n.toNat : Nat) : Int) = n := Int.toNat_of_nonneg h0
    interval_cases k <;> simp only [Nat.digitChar, OfNat.ofNat_ne_zero, OfNat.ofNat_ne_one, if_true, if_false, Nat.reduceEqDiff, one_ne_zero] at hp <;> simp [Nat.digitChar, hp, hval, h1, h2]
  · rw [if_neg h0]
    obtain ⟨k, rest, hk, -, he⟩ := toDigits_head (-n).toNat
    have hp := parseDigits_toDigits (-n).toNat
    have hval : (((-n).toNat : Nat) : Int) = -n := Int.toNat_of_nonneg (by omega)
    have hne : Nat.toDigits 10 (-n).toNat ≠ [] := by rw [he]; simp
    simp [hne, hp, hval, h1, h2]

/-- C25 as stated fails. The configuration of the test `TestLock_PartialConfig`
sets `WaitTime` to ten seconds and leaves the other fields at their zero
value: `RetryTime` takes its default, one second, but `MaxGetLockWaitTime`
stays 0, not thirty seconds. -/
theorem newLock_zero_max_wait_is_kept :
    (demoRedis.NewLock "testlock"
      [{ WaitTime := 10 * Second, RetryTime := 0, MaxGetLockWaitTime := 0 }] "t").config =
      { WaitTime := 10 * Second, RetryTime := Second, MaxGetLockWaitTime := 0 } := by
  decide

/-- C25, as amended. For every `LockConfig` passed to `NewLock` (the first of
the arguments): `WaitTime` and `RetryTime` are used as given when positive and
take their defaults, five seconds and one second, when zero or negative;
`MaxGetLockWaitTime` is used as given when positive or zero, zero meaning a
single attempt, and takes its default of thirty seconds when negative. With no
config argument all three defaults apply. -/
theorem newLock_config (r : Redis) (name token : String) (c0 : LockConfig)
    (cs : List LockConfig) :
    (c0.WaitTime > 0 → (r.NewLock name (c0 :: cs) token).config.WaitTime = c0.WaitTime) ∧
    (c0.WaitTime ≤ 0 → (r.NewLock name (c0 :: cs) token).config.WaitTime = 5 * Second) ∧
    (c0.RetryTime > 0 → (r.NewLock name (c0 :: cs) token).config.RetryTime = c0.RetryTime) ∧
    (c0.RetryTime ≤ 0 → (r.NewLock name (c0 :: cs) token).config.RetryTime = Second) ∧
    (c0.MaxGetLockWaitTime ≥ 0 →
      (r.NewLock name (c0 :: cs) token).config.MaxGetLockWaitTime = c0.MaxGetLockWaitTime) ∧
    (c0.MaxGetLockWaitTime < 0 →
      (r.NewLock name (c0 :: cs) token).config.MaxGetLockWaitTime = 30 * Second) ∧
    (r.NewLock name [] token).config =
      { WaitTime := 5 * Second, RetryTime := Second, MaxGetLockWaitTime := 30 * Second } := by
  refine ⟨?_, ?_, ?_, ?_, ?_, ?_, rfl⟩
  · intro h
    simp [Redis.NewLock, h]
  · intro h
    have h2 : ¬ c0.WaitTime > 0 := not_lt.mpr h
    simp [Redis.NewLock, h2]
  · intro h
    simp [Redis.NewLock, h]
  · intro h
    have h2 : ¬ c0.RetryTime > 0 := not_lt.mpr h
    simp [Redis.NewLock, h2]
  · intro h
    simp [Redis.NewLock, h]
  · intro h
    have h2 : ¬ c0.MaxGetLockWaitTime ≥ 0 := not_le.mpr h
    simp [Redis.NewLock, h2]

/-- Witness of C25: a configuration that gives a lease of ten seconds and a
negative `MaxGetLockWaitTime`. -/
theorem newLock_config_witness :
    (demoRedis.NewLock "testlock"
      [{ WaitTime := 10 * Second, RetryTime := 0, MaxGetLockWaitTime := -1 }]
      "t").config.WaitTime = 10 * Second ∧
    (demoRedis.NewLock "testlock"
      [{ WaitTime := 10 * Second, RetryTime := 0, MaxGetLockWaitTime := -1 }]
      "t").config.MaxGetLockWaitTime = 30 * Second :=
  ⟨(newLock_config demoRedis "testlock" "t"
      { WaitTime := 10 * Second, RetryTime := 0, MaxGetLockWaitTime := -1 } []).1 (by decide),
    (newLock_config demoRedis "testlock" "t"
      { WaitTime := 10 * Second, RetryTime := 0, MaxGetLockWaitTime := -1 } []).2.2.2.2.2.1
      (by decide)⟩

/-! ## Fail -/

/-- The value kept by the storage callback is the last argument that was a
`T`, and the original value when there was none. -/
theorem storage_last {T : Type} (stored : List (Option T)) :
    ∀ value : T,
      stored.foldl storageCallback value = ((stored.filterMap id).getLast?).getD value := by
  induction stored with
  | nil => intro value; rfl
  | cons a rest ih =>
    intro value
    rw [List.foldl_cons, ih]
    cases a with
    | none => simp [storageCallback]
    | some u =>
      simp only [List.filterMap_cons, id, storageCallback]
      rcases hl : rest.filterMap id with _ | ⟨b, l⟩
      · simp
      · obtain ⟨x, hx⟩ : ∃ x, (b :: l).getLast? = some x :=
          ⟨_, List.getLast?_eq_getLast _ (by simp)⟩
        simp [List.getLast?_cons_cons, hx]

/-- C21. For every value and error: with no `ErrorHandler` configured, `Fail`
has the effect and the result of `Complete(value)`; with a handler that
returns the delay d, `Fail` has the effect and the result of `Complete` when
d < 0, of `Add` when d = 0 and of `AddDelayed` with delay d when d > 0, applied
to the last argument of the storage callback that was a value of the element
type of the queue, and to the original value when there was none. -/
theorem fail_dispatch {T : Type} (q : Queue T) (value : T) (err : Error) (now : Time)
    (w : World) :
    (q.config.ErrorHandler = none → q.Fail value err now w = q.Complete value w) ∧
    (∀ handler d stored, q.config.ErrorHandler = some handler →
      handler value err = (d, stored) →
      (d < 0 → q.Fail value err now w =
        q.Complete (((stored.filterMap id).getLast?).getD value) w) ∧
      (d = 0 → q.Fail value err now w =
        q.Add (((stored.filterMap id).getLast?).getD value) w) ∧
      (d > 0 → q.Fail value err now w =
        q.AddDelayed (((stored.filterMap id).getLast?).getD value) d now w)) := by
  constructor
  · intro h
    simp [Queue.Fail, h]
  · intro handler d stored hh hd
    have hfail : q.Fail value err now w =
        if d < 0 then q.Complete (((stored.filterMap id).getLast?).getD value) w
        else if d > 0 then
          q.AddDelayed (((stored.filterMap id).getLast?).getD value) d now w
        else q.Add (((stored.filterMap id).getLast?).getD value) w := by
      simp only [Queue.Fail, hh, hd, storage_last]
    rw [hfail]
    refine ⟨?_, ?_, ?_⟩
    · intro h
      rw [if_pos h]
    · intro h
      subst h
      simp
    · intro h
      have h2 : ¬ d < 0 := not_lt.mpr (le_of_lt h)
      rw [if_neg h2, if_pos h]

/-- Witness of C21: the handler passes the number 7, which is not a string,
then `b`, and asks for a retry at once: `Fail("a")` is `Add("b")`. -/
theorem fail_dispatch_witness :
    (retryQueue 0 0 [some "c", none, some "b"]).Fail "a" (.store "boom") 5
      (World.up Store.empty) =
    (retryQueue 0 0 [some "c", none, some "b"]).Add "b" (World.up Store.empty) :=
  ((fail_dispatch (retryQueue 0 0 [some "c", none, some "b"]) "a" (.store "boom") 5
    (World.up Store.empty)).2 (fun _ _ => (0, [some "c", none, some "b"])) 0
    [some "c", none, some "b"] rfl rfl).2.1 rfl

/-- C23: the timeout that `Take` passes to the blocking pop, on a ready list
that is empty after the move of the due items, on a connection that answers
every command. For 0 < `MaxWaitTime` < one second the timeout is
`int(MaxWaitTime.Seconds())` = 0, which the store reads as no limit: the call
does not return. For `MaxWaitTime` of at least one second the timeout is
positive and the call returns not-found; for such a `MaxWaitTime` within the
range of `int64` the timeout is the whole seconds of `MaxWaitTime` or one
more, the sum of `Seconds` being rounded to binary64: a `MaxWaitTime` of
16777216.999999999 seconds gives the timeout 16777217. For `MaxWaitTime` <= 0
the pop does not block and the call returns not-found at once. -/
theorem take_blocking_timeout {T : Type} [Inhabited T] (q : Queue T) (now : Time)
    (db db0 : Store)
    (hp : q.processDelayedTasks now (World.up db) = World.up db0)
    (hl : db0.lists q.name = []) :
    (0 < q.config.MaxWaitTime → q.config.MaxWaitTime < Second →
      float64ToInt (Duration.Seconds q.config.MaxWaitTime) = 0 ∧
      (cmdBLPOP q.name (float64ToInt (Duration.Seconds q.config.MaxWaitTime)) db0).1
        = .ok .blocksForever ∧
      (q.Take now (World.up db)).1 = .blocks) ∧
    (Second ≤ q.config.MaxWaitTime →
      0 < float64ToInt (Duration.Seconds q.config.MaxWaitTime) ∧
      (q.config.MaxWaitTime ≤ 9223372036854775807 →
        Int.tdiv q.config.MaxWaitTime Second ≤
          float64ToInt (Duration.Seconds q.config.MaxWaitTime) ∧
        float64ToInt (Duration.Seconds q.config.MaxWaitTime) ≤
          Int.tdiv q.config.MaxWaitTime Second + 1) ∧
      (cmdBLPOP q.name (float64ToInt (Duration.Seconds q.config.MaxWaitTime)) db0).1
        = .ok .timedOut ∧
      (q.Take now (World.up db)).1 = .returns (default, false)) ∧
    (q.config.MaxWaitTime ≤ 0 → (q.Take now (World.up db)).1 = .returns (default, false)) ∧
    float64ToInt (Duration.Seconds 16777216999999999) = 16777217 := by
  refine ⟨?_, ?_, ?_, timeout_rounds_up⟩
  · intro h0 h1
    have h0i : (0 : Int) < q.config.MaxWaitTime := h0
    have h1i : q.config.MaxWaitTime < (1000000000 : Int) := h1
    have hs := timeout_zero h0i h1i
    refine ⟨hs, ?_, ?_⟩
    · simp [cmdBLPOP, hs, hl]
    · unfold Queue.Take
      simp [hp, World.exec_up, h0i, cmdBLPOP, hs, hl]
  · intro h1
    have h1i : (1000000000 : Int) ≤ q.config.MaxWaitTime := h1
    have h0i : (0 : Int) < q.config.MaxWaitTime := by omega
    have hs := timeout_pos h1i
    have hs1 : ¬ float64ToInt (Duration.Seconds q.config.MaxWaitTime) < 0 := by omega
    have hs2 : ¬ float64ToInt (Duration.Seconds q.config.MaxWaitTime) = 0 := by omega
    refine ⟨hs, fun hmax => timeout_bounds h0i hmax, ?_, ?_⟩
    · simp [cmdBLPOP, hs1, hs2, hl]
    · rw [q.Take_empty now db db0 hp hl (Or.inr h1)]
  · intro h
    rw [q.Take_empty now db db0 hp hl (Or.inl h)]

/-- Witness of C23: the configuration of `TestQueue_StartWorker`, a
`MaxWaitTime` of 100 milliseconds, on the empty queue: `Take` does not
return. -/
theorem take_blocking_timeout_witness :
    ((demoQueue 0 (100 * Millisecond) 0).Take 5 (World.up Store.empty)).1 = .blocks :=
  ((take_blocking_timeout (demoQueue 0 (100 * Millisecond) 0) 5 Store.empty Store.empty rfl
    rfl).1 (by decide) (by decide)).2.2

/-! ## Time markers -/

/-- `LastUseTime(key, false)` on a connection that answers: the marker, when
it reads as a positive number of milliseconds. -/
theorem Redis.LastUseTime_read (r : Redis) (key : String) (now : Time) (db : Store) :
    r.LastUseTime key false now (World.up db) =
      ((kvGet key (db.hashes r.safeTypeMapName)).bind
        (fun m => (parseInt64 m).bind (fun t => if t > 0 then some t else none)),
        World.up db) := by
  simp only [Redis.LastUseTime, World.exec_up, cmdHGET]
  rcases kvGet key (db.hashes r.safeTypeMapName) with _ | m
  · simp
  · rcases hp : parseInt64 m with _ | t <;> simp [hp]

/-- `LastUseTime(key, true)` on a connection that answers writes the
millisecond of now. -/
theorem Redis.LastUseTime_write (r : Redis) (key : String) (now : Time) (db : Store) :
    (r.LastUseTime key true now (World.up db)).2 =
      World.up (cmdHSET r.safeTypeMapName key (formatInt64 (UnixMilli now)) db).2 := by
  simp only [Redis.LastUseTime, World.exec_up, lastUseScript]
  rcases kvGet key (db.hashes r.safeTypeMapName) with _ | m <;> simp

/-- `AcrossTime` when no marker is read: true, and the millisecond of now is
written. -/
theorem Redis.AcrossTime_first (r : Redis) (key : String) (d : Duration) (now : Time)
    (db : Store) (h : (r.LastUseTime key false now (World.up db)).1 = none) :
    r.AcrossTime key d now (World.up db) =
      (some true, World.up (cmdHSET r.safeTypeMapName key (formatInt64 (UnixMilli now)) db).2)
      := by
  have hread := r.LastUseTime_read key now db
  rw [hread] at h
  simp only at h
  unfold Redis.AcrossTime
  rw [hread, h]
  simp only [Redis.LastUseTime_write]

/-- `AcrossTime` when the marker `t0` is read. -/
theorem Redis.AcrossTime_marker (r : Redis) (key : String) (d : Duration) (now : Time)
    (db : Store) (t0 : Int) (h : (r.LastUseTime key false now (World.up db)).1 = some t0) :
    r.AcrossTime key d now (World.up db) =
      if Duration.Milliseconds d = 0 then (none, World.up db)
      else if Int.tdiv (UnixMilli now) (Duration.Milliseconds d) >
          Int.tdiv t0 (Duration.Milliseconds d) then
        (some true,
          World.up (cmdHSET r.safeTypeMapName key (formatInt64 (UnixMilli now)) db).2)
      else (some false, World.up db) := by
  have hread := r.LastUseTime_read key now db
  rw [hread] at h
  simp only at h
  unfold Redis.AcrossTime
  rw [hread, h]
  simp only [Redis.LastUseTime_write]

/-- After a marker was written at the millisecond of now, which is positive
and fits an `int64`, it is read back. -/
theorem Redis.LastUseTime_after_write (r : Redis) (key : String) (now now2 : Time)
    (db : Store) (hpos : 0 < UnixMilli now) (hmax : UnixMilli now ≤ 9223372036854775807) :
    (r.LastUseTime key false now2
      (World.up (cmdHSET r.safeTypeMapName key (formatInt64 (UnixMilli now)) db).2)).1 =
      some (UnixMilli now) := by
  rw [Redis.LastUseTime_read]
  simp only [cmdHSET, Function.update_same, kvGet_kvPut_same]
  simp [parseInt64_formatInt64 _ (by omega) hmax, hpos]

theorem Redis.LastUseTime_pos (r : Redis) (key : String) (now : Time) (db : Store) (t0 : Int)
    (h : (r.LastUseTime key false now (World.up db)).1 = some t0) : 0 < t0 := by
  rw [Redis.LastUseTime_read] at h
  simp only [Option.bind_eq_some] at h
  obtain ⟨m, -, t, -, ht⟩ := h
  split at ht
  · cases ht
    assumption
  · cases ht

/-- When `AcrossTime` returns true, the store holds the millisecond of now as
the marker of the key. -/
theorem Redis.AcrossTime_true_world (r : Redis) (key : String) (d : Duration) (now : Time)
    (db : Store) (h : (r.AcrossTime key d now (World.up db)).1 = some true) :
    (r.AcrossTime key d now (World.up db)).2 =
      World.up (cmdHSET r.safeTypeMapName key (formatInt64 (UnixMilli now)) db).2 := by
  rcases hl : (r.LastUseTime key false now (World.up db)).1 with _ | t0
  · rw [r.AcrossTime_first key d now db hl]
  · rw [r.AcrossTime_marker key d now db t0 hl] at h ⊢
    split at h
    · simp at h
    · split at h
      · rename_i h1 h2
        rw [if_neg h1, if_pos h2]
      · simp at h

/-- C27 as stated fails. (1) The marker of the key is the millisecond
1700000000999; one millisecond later, at 1700000001000, `AcrossTime` with an
interval of one second returns true, the two instants lying in different
seconds, although one millisecond has elapsed. (2) At the instant 0 the marker
written is 0, which reads as no marker: the repeated call returns true
again. -/
theorem across_time_true_before_interval :
    ((demoRedis.LastUseTime "task" false 1700000001000000000
        (demoRedis.SetLastUseTime "task" 1700000000999000000 (World.up Store.empty)).2).1
        = some 1700000000999 ∧
      UnixMilli (1700000001000000000 : Nat) - 1700000000999 = 1 ∧
      (demoRedis.AcrossTime "task" Second 1700000001000000000
        (demoRedis.SetLastUseTime "task" 1700000000999000000 (World.up Store.empty)).2).1
        = some true) ∧
    ((demoRedis.AcrossTime "task" Second 0 (World.up Store.empty)).1 = some true ∧
      (demoRedis.AcrossTime "task" Second 0
        (demoRedis.AcrossTime "task" Second 0 (World.up Store.empty)).2).1 = some true) := by
  decide

/-- C27, as amended. For every key, every interval d of at least one
millisecond and every instant t1 after the epoch (its millisecond positive and
within `int64`), on a connection that answers every command. When no marker is
read for the key, `AcrossTime` returns true. When the marker t0 <= t1 is read,
`AcrossTime` returns true or false, and true if and only if t1 lies in a later
window of d (cut to whole milliseconds, windows counted from the epoch) than
t0, that is floor(t1 / d) > floor(t0 / d); so it returns true whenever at least
d has elapsed, and it may return true earlier. Whenever it returns true it
records t1 as the new marker, and an immediately repeated call returns
false. -/
theorem across_time_window (r : Redis) (key : String) (d : Duration) (now : Time)
    (db : Store) (hd : Millisecond ≤ d)
    (hpos : 0 < UnixMilli now) (hmax : UnixMilli now ≤ 9223372036854775807) :
    ((r.LastUseTime key false now (World.up db)).1 = none →
      (r.AcrossTime key d now (World.up db)).1 = some true) ∧
    (∀ t0, (r.LastUseTime key false now (World.up db)).1 = some t0 → t0 ≤ UnixMilli now →
      ((r.AcrossTime key d now (World.up db)).1 = some true ∨
        (r.AcrossTime key d now (World.up db)).1 = some false) ∧
      ((r.AcrossTime key d now (World.up db)).1 = some true ↔
        UnixMilli now / Duration.Milliseconds d > t0 / Duration.Milliseconds d) ∧
      (UnixMilli now - t0 ≥ Duration.Milliseconds d →
        (r.AcrossTime key d now (World.up db)).1 = some true)) ∧
    ((r.AcrossTime key d now (World.up db)).1 = some true →
      (r.LastUseTime key false now (r.AcrossTime key d now (World.up db)).2).1 =
        some (UnixMilli now) ∧
      (r.AcrossTime key d now (r.AcrossTime key d now (World.up db)).2).1 = some false) := by
  have hms : 0 < Duration.Milliseconds d := Duration.Milliseconds_pos hd
  have hms0 : ¬ Duration.Milliseconds d = 0 := by omega
  refine ⟨?_, ?_, ?_⟩
  · intro h
    rw [r.AcrossTime_first key d now db h]
  · intro t0 h hle
    have ht0 := r.LastUseTime_pos key now db t0 h
    have hdiv1 : Int.tdiv (UnixMilli now) (Duration.Milliseconds d) =
        UnixMilli now / Duration.Milliseconds d :=
      Int.tdiv_eq_ediv (le_of_lt hpos) (le_of_lt hms)
    have hdiv2 : Int.tdiv t0 (Duration.Milliseconds d) = t0 / Duration.Milliseconds d :=
      Int.tdiv_eq_ediv (le_of_lt ht0) (le_of_lt hms)
    rw [r.AcrossTime_marker key d now db t0 h, if_neg hms0, hdiv1, hdiv2]
    have hiff : ((if UnixMilli now / Duration.Milliseconds d > t0 / Duration.Milliseconds d
        then ((some true : Option Bool),
          World.up (cmdHSET r.safeTypeMapName key (formatInt64 (UnixMilli now)) db).2)
        else (some false, World.up db)).1 = some true ↔
        UnixMilli now / Duration.Milliseconds d > t0 / Duration.Milliseconds d) := by
      split <;> simp_all
    refine ⟨?_, hiff, ?_⟩
    · split
      · exact Or.inl rfl
      · exact Or.inr rfl
    · intro hel
      apply hiff.mpr
      have h1 : (t0 + 1 * Duration.Milliseconds d) / Duration.Milliseconds d ≤
          UnixMilli now / Duration.Milliseconds d :=
        Int.ediv_le_ediv hms (by omega)
      rw [Int.add_mul_ediv_right _ _ (by omega)] at h1
      omega
  · intro h
    rw [r.AcrossTime_true_world key d now db h]
    have hread := r.LastUseTime_after_write key now now db hpos hmax
    refine ⟨hread, ?_⟩
    rw [r.AcrossTime_marker key d now _ _ hread, if_neg hms0]
    simp

/-- Witness of C27: the marker is the millisecond 1700000000999; two seconds
later `AcrossTime` with an interval of one second returns true. -/
theorem across_time_window_witness :
    (demoRedis.AcrossTime "task" Second 1700000002999000000
      (World.up (demoRedis.SetLastUseTime "task" 1700000000999000000
        (World.up Store.empty)).2.db)).1 = some true :=
  ((across_time_window demoRedis "task" Second 1700000002999000000
    (demoRedis.SetLastUseTime "task" 1700000000999000000 (World.up Store.empty)).2.db
    (by decide) (by decide) (by decide)).2.1 1700000000999 (by decide) (by decide)).2.2
    (by decide)

/-- C30: the division of `AcrossTime`, on a connection that answers every
command. When no marker is read for the key the call returns true before any
division. When a marker is read, the divisor is `duration.Milliseconds()`: for
a positive duration under one millisecond it is 0 and the call fails with a
division by zero (the result `none`); for a duration of at least one
millisecond the call returns a boolean. -/
theorem across_time_division (r : Redis) (key : String) (d : Duration) (now : Time)
    (db : Store) :
    ((r.LastUseTime key false now (World.up db)).1 = none →
      (r.AcrossTime key d now (World.up db)).1 = some true) ∧
    (∀ t0, (r.LastUseTime key false now (World.up db)).1 = some t0 →
      (0 < d → d < Millisecond → (r.AcrossTime key d now (World.up db)).1 = none) ∧
      (Millisecond ≤ d → ∃ b, (r.AcrossTime key d now (World.up db)).1 = some b)) := by
  constructor
  · intro h
    rw [r.AcrossTime_first key d now db h]
  · intro t0 h
    rw [r.AcrossTime_marker key d now db t0 h]
    constructor
    · intro h0 h1
      have h0i : (0 : Int) < d := h0
      have h1i : d < (1000000 : Int) := h1
      have hms : Duration.Milliseconds d = 0 := by
        unfold Duration.Milliseconds
        exact Int.tdiv_eq_zero_of_lt (le_of_lt h0i) h1i
      rw [if_pos hms]
    · intro hd
      have hms : 0 < Duration.Milliseconds d := Duration.Milliseconds_pos hd
      have hms0 : ¬ Duration.Milliseconds d = 0 := by omega
      rw [if_neg hms0]
      split
      · exact ⟨true, rfl⟩
      · exact ⟨false, rfl⟩

/-- Witness of C30: `AcrossTime` with a duration of 500 microseconds, called a
second time one second after the first call: the marker of the first call is
read and the division fails. -/
theorem across_time_division_witness :
    (demoRedis.AcrossTime "task" 500000 1700000000000000000 (World.up Store.empty)).1
      = some true ∧
    (demoRedis.AcrossTime "task" 500000 1700000001000000000
      (World.up (demoRedis.AcrossTime "task" 500000 1700000000000000000
        (World.up Store.empty)).2.db)).1 = none :=
  ⟨(across_time_division demoRedis "task" 500000 1700000000000000000 Store.empty).1
      (by decide),
    ((across_time_division demoRedis "task" 500000 1700000001000000000
      (demoRedis.AcrossTime "task" 500000 1700000000000000000
        (World.up Store.empty)).2.db).2 1700000000000 (by decide)).1 (by decide) (by decide)⟩

/-! ## CleanSafeTypeMap -/

/-- Under the default name creator the hash that `CleanSafeTypeMap` reads,
named as a map, is not the hash of time markers. -/
theorem Redis.GetSafeTypeMap_name_ne (r : Redis)
    (hr : r.config.NameCreator = DefaultNameCreator) :
    r.GetSafeTypeMap.name ≠ r.safeTypeMapName := by
  intro h
  have h2 := congrArg String.data h
  simp [Redis.GetSafeTypeMap, Redis.NewMap, Redis.safeTypeMapName, Redis.CreateName, hr,
    DefaultNameCreator, RedisType.name, String.intercalate, String.data_append] at h2

theorem RedisMap.Delete_frame (m : RedisMap) (keys : List String) (w : World) :
    ∀ k, k ≠ m.name → (m.Delete keys w).2.db.hashes k = w.db.hashes k := by
  intro k hk
  unfold RedisMap.Delete
  split
  · rfl
  · rcases World.exec_cases w (cmdHDEL m.name keys) with ⟨⟨e, h1⟩, h2, -⟩ | ⟨h1, h2⟩
    · rcases hx : w.exec (cmdHDEL m.name keys) with ⟨res, w1⟩
      rw [hx] at h1 h2
      simp only at h1 h2
      subst h1
      simp [h2]
    · rcases hx : w.exec (cmdHDEL m.name keys) with ⟨res, w1⟩
      rw [hx] at h1 h2
      simp only [cmdHDEL] at h1 h2
      subst h1
      simp [h2, Function.update_noteq hk]

theorem RedisMap.ToArrayInt64_db (m : RedisMap) (w : World) :
    (m.ToArrayInt64 w).2.db = w.db := by
  unfold RedisMap.ToArrayInt64
  rcases World.exec_cases w (cmdHGETALL m.name) with ⟨⟨e, h1⟩, h2, -⟩ | ⟨h1, h2⟩
  · rcases hx : w.exec (cmdHGETALL m.name) with ⟨res, w1⟩
    rw [hx] at h1 h2
    simp only at h1 h2
    subst h1
    exact h2
  · rcases hx : w.exec (cmdHGETALL m.name) with ⟨res, w1⟩
    rw [hx] at h1 h2
    simp only [cmdHGETALL] at h1 h2
    subst h1
    exact h2

/-- `CleanSafeTypeMap` changes at most the hash it reads. -/
theorem Redis.CleanSafeTypeMap_frame (r : Redis) (d : Duration) (now : Time) (w : World) :
    ∀ k, k ≠ r.GetSafeTypeMap.name →
      (r.CleanSafeTypeMap d now w).2.db.hashes k = w.db.hashes k := by
  intro k hk
  have hdb := r.GetSafeTypeMap.ToArrayInt64_db w
  unfold Redis.CleanSafeTypeMap
  rcases hx : r.GetSafeTypeMap.ToArrayInt64 w with ⟨res, w1⟩
  rw [hx] at hdb
  simp only at hdb
  rcases res with e | all
  · simp [hdb]
  · simp only
    split
    · rw [RedisMap.Delete_frame _ _ _ k hk, hdb]
    · rw [hdb]

/-- On a connection that answers every command, so is the connection after
`CleanSafeTypeMap`. -/
theorem Redis.CleanSafeTypeMap_up (r : Redis) (d : Duration) (now : Time) (db : Store) :
    ∃ db2, (r.CleanSafeTypeMap d now (World.up db)).2 = World.up db2 := by
  unfold Redis.CleanSafeTypeMap RedisMap.ToArrayInt64
  simp only [World.exec_up, cmdHGETALL]
  split
  · unfold RedisMap.Delete
    split
    · exact ⟨_, rfl⟩
    · simp only [World.exec_up, cmdHDEL]
      exact ⟨_, rfl⟩
  · exact ⟨_, rfl⟩

/-- C26: what `CleanSafeTypeMap` does to the markers on a client with the
default name creator. The markers of `SetLastUseTime` and `LastUseTime` live
in the hash named with the type `safetypemap`; `CleanSafeTypeMap` reads and
cleans the hash that `NewTypeMap` names with the type `hash`, which is another
key. So for every duration, instant and connection it leaves the hash of
markers as it is, and on a connection that answers every command
`LastUseTime(key, false)` returns afterwards what it returned before, however
old the marker is. -/
theorem clean_safe_type_map_keeps_markers (r : Redis)
    (hr : r.config.NameCreator = DefaultNameCreator) (d : Duration) (now : Time) :
    r.GetSafeTypeMap.name ≠ r.safeTypeMapName ∧
    (∀ w : World, (r.CleanSafeTypeMap d now w).2.db.hashes r.safeTypeMapName =
      w.db.hashes r.safeTypeMapName) ∧
    (∀ (db : Store) (key : String) (now2 : Time),
      (r.LastUseTime key false now2 (r.CleanSafeTypeMap d now (World.up db)).2).1 =
        (r.LastUseTime key false now2 (World.up db)).1) := by
  have hne := r.GetSafeTypeMap_name_ne hr
  refine ⟨hne, ?_, ?_⟩
  · intro w
    exact r.CleanSafeTypeMap_frame d now w _ (Ne.symm hne)
  · intro db key now2
    obtain ⟨db2, h2⟩ := r.CleanSafeTypeMap_up d now db
    have hf := r.CleanSafeTypeMap_frame d now (World.up db) _ (Ne.symm hne)
    rw [h2] at hf ⊢
    rw [Redis.LastUseTime_read, Redis.LastUseTime_read]
    simp only [World.up] at hf
    rw [hf]

/-- Witness of C26: the test `TestCleanSafeTypeMap`. The marker `old` is set
two hours before now; `CleanSafeTypeMap` with one hour returns nil, and the
marker is still read afterwards. -/
theorem clean_safe_type_map_keeps_markers_witness :
    (demoRedis.CleanSafeTypeMap (3600 * Second) 1700007200000000000
      (World.up (demoRedis.SetLastUseTime "old" 1700000000000000000
        (World.up Store.empty)).2.db)).1 = none ∧
    (demoRedis.LastUseTime "old" false 1700007200000000000
      (demoRedis.CleanSafeTypeMap (3600 * Second) 1700007200000000000
        (World.up (demoRedis.SetLastUseTime "old" 1700000000000000000
          (World.up Store.empty)).2.db)).2).1 = some 1700000000000 := by
  have h := (clean_safe_type_map_keeps_markers demoRedis rfl (3600 * Second)
    1700007200000000000).2.2
    (demoRedis.SetLastUseTime "old" 1700000000000000000 (World.up Store.empty)).2.db
    "old" 1700007200000000000
  exact ⟨by decide, by rw [h]; decide⟩

/-- C22: an item that is taken and then failed with a retry is in two places.
For every queue made by `NewQueue` whose element type is not an interface
type, with retry tracking (`MaxRetry > 0`) and no bound, whose error handler answers the failure of the value with a delay
d >= 0 and no replacement, on a connection that answers every command and
starting from an empty queue: after `Add`, `Take` returns the value and
records it in the processing set; after `Fail` the value is still in the
processing set and also in the ready list (d = 0) or in the delayed set
(d > 0). `Complete` instead of `Fail` leaves the processing set without the
item. -/
theorem fail_retry_keeps_processing {T : Type} [Inhabited T] (name : String)
    (config : QueueConfig T) (r : Redis) (ser : SerializerFunc T) (b : Bool) (q : Queue T)
    (hq : q = NewQueue name config r ser b)
    (x : T) (data : String) (err : Error) (handler : T → Error → Duration × List (Option T))
    (d : Duration) (t1 t2 : Time) (db : Store)
    (hT : q.elemIsInterface = false)
    (hretry : q.config.MaxRetry > 0) (hmax : q.config.MaxLength = 0)
    (hcar : q.Carries x data)
    (hh : q.config.ErrorHandler = some handler) (hd : handler x err = (d, [])) (hd0 : 0 ≤ d)
    (hready : db.lists q.name = []) (hdelayed : db.zsets q.delayedName = [])
    (hproc : db.zsets q.processingName = []) :
    (q.Take t1 (q.Add x (World.up db)).2).1 = .returns (x, true) ∧
    kvGet data ((q.Take t1 (q.Add x (World.up db)).2).2.db.zsets q.processingName) ≠ none ∧
    (q.Fail x err t2 (q.Take t1 (q.Add x (World.up db)).2).2).1 = none ∧
    kvGet data ((q.Fail x err t2 (q.Take t1 (q.Add x (World.up db)).2).2).2.db.zsets
      q.processingName) ≠ none ∧
    (d = 0 → data ∈ (q.Fail x err t2 (q.Take t1 (q.Add x (World.up db)).2).2).2.db.lists
      q.name) ∧
    (d > 0 → kvGet data ((q.Fail x err t2 (q.Take t1 (q.Add x (World.up db)).2).2).2.db.zsets
      q.delayedName) ≠ none) ∧
    kvGet data ((q.Complete x (q.Take t1 (q.Add x (World.up db)).2).2).2.db.zsets
      q.processingName) = none := by
  have hpd : q.processingName ≠ q.delayedName := by
    rw [hq]
    exact NewQueue_processing_ne_delayed name config r ser b
  have hadd : q.Add x (World.up db) = (none, World.up
      { db with lists := (Function.update db.lists q.name [data]) }) := by
    simp [Queue.Add, hmax, Queue.addPush, hcar.1, World.exec_up, cmdRPUSH, hready]
  have hp := q.processDelayedTasks_none t1
    { db with lists := (Function.update db.lists q.name [data]) } (by
      show zrangeByScore 0 (UnixMilli t1) (db.zsets q.delayedName) = []
      rw [hdelayed]
      rfl)
  have htake := q.Take_head_carries t1 _ _ data [] x hp (by simp) hcar.2.2 hT hcar.2.1
  rw [if_pos hretry] at htake
  have hr0 : ¬ q.config.MaxRetry = 0 := by
    have : (0 : Int) < q.config.MaxRetry := hretry
    omega
  obtain ⟨db2, hdb2⟩ : ∃ db2, db2 = (cmdZADD q.processingName (UnixMilli t1) data
      { strs := db.strs, hashes := db.hashes, zsets := db.zsets,
        lists := Function.update (Function.update db.lists q.name [data]) q.name [] }).2 :=
    ⟨_, rfl⟩
  have htake2 : q.Take t1 (q.Add x (World.up db)).2 = (.returns (x, true), World.up db2) := by
    rw [hadd, hdb2]
    exact htake
  have hproc2 : db2.zsets q.processingName = [(data, UnixMilli t1)] := by
    rw [hdb2]
    simp [cmdZADD, hproc, kvPut]
  have hfail : q.Fail x err t2 (World.up db2) =
      if d > 0 then q.AddDelayed x d t2 (World.up db2) else q.Add x (World.up db2) := by
    have hn : ¬ d < 0 := not_lt.mpr hd0
    simp [Queue.Fail, hh, hd, hn, storageCallback]
  have hadd2 : q.Add x (World.up db2) = (none, World.up
      { db2 with lists := (Function.update db2.lists q.name (db2.lists q.name ++ [data])) })
      := by
    simp [Queue.Add, hmax, Queue.addPush, hcar.1, World.exec_up, cmdRPUSH]
  have hdel2 : q.AddDelayed x d t2 (World.up db2) = (none, World.up
      (cmdZADD q.delayedName (UnixMilli ((t2 : Int) + d)) data db2).2) := by
    simp [Queue.AddDelayed, hcar.1, World.exec_up, cmdZADD]
  have hcomp : q.Complete x (World.up db2) = (none, World.up
      (cmdZREM q.processingName [data] db2).2) := by
    simp [Queue.Complete, hr0, hcar.1, World.exec_up, cmdZREM]
  rw [htake2]
  simp only
  rw [hfail, hadd2, hdel2, hcomp]
  refine ⟨trivial, ?_, ?_, ?_, ?_, ?_, ?_⟩
  · show ¬ kvGet data (db2.zsets q.processingName) = none
    simp [hproc2, kvGet]
  · split <;> rfl
  · split
    · show ¬ kvGet data ((cmdZADD q.delayedName (UnixMilli ((t2 : Int) + d)) data
        db2).2.zsets q.processingName) = none
      simp [cmdZADD, Function.update_noteq hpd, hproc2, kvGet]
    · show ¬ kvGet data (db2.zsets q.processingName) = none
      simp [hproc2, kvGet]
  · intro h0
    subst h0
    rw [if_neg (by decide)]
    show data ∈ Function.update db2.lists q.name (db2.lists q.name ++ [data]) q.name
    simp
  · intro hgt
    rw [if_pos hgt]
    show ¬ kvGet data ((cmdZADD q.delayedName (UnixMilli ((t2 : Int) + d)) data
      db2).2.zsets q.delayedName) = none
    simp [cmdZADD, kvGet_kvPut_same]
  · show kvGet data ((cmdZREM q.processingName [data] db2).2.zsets q.processingName) = none
    simp [cmdZREM, hproc2, kvDel, kvGet]

/-- Witness of C22: the test `TestQueue_FailImmediateRetry` with the value
`a`: after `Add`, `Take` and `Fail` the item is on the ready list and in the
processing set. -/
theorem fail_retry_keeps_processing_witness :
    kvGet "a" (((retryQueue 0 0 []).Fail "a" (.store "test error") 2
      ((retryQueue 0 0 []).Take 1
        ((retryQueue 0 0 []).Add "a" (World.up Store.empty)).2).2).2.db.zsets
          (retryQueue 0 0 []).processingName) ≠ none ∧
    "a" ∈ ((retryQueue 0 0 []).Fail "a" (.store "test error") 2
      ((retryQueue 0 0 []).Take 1
        ((retryQueue 0 0 []).Add "a" (World.up Store.empty)).2).2).2.db.lists
          (retryQueue 0 0 []).name :=
  have h := fail_retry_keeps_processing "q" _ demoRedis stringSerializer false
    (retryQueue 0 0 []) rfl "a" "a" (.store "test error") (fun _ _ => (0, [])) 0 1 2
    Store.empty rfl (by decide) rfl
    ⟨rfl, rfl, fun _ => by decide⟩ rfl rfl (by decide) rfl rfl rfl
  ⟨h.2.2.2.1, h.2.2.2.2.1 rfl⟩

/-! ## The bound of the ready list -/

/-- C29 as stated fails. On a queue with `MaxLength = 1`, three `AddDelayed`
calls with a delay of one millisecond, then one `Take` a second later: the
move puts the three items on the ready list, whatever the bound, and the pop
takes one; the ready list holds two items. -/
theorem ready_list_exceeds_bound :
    (((demoQueue 1 0 0).calls (World.up Store.empty)
      [.addDelayed "a" Millisecond 0, .addDelayed "b" Millisecond 0,
        .addDelayed "c" Millisecond 0, .take 1000000000]).db.lists
        (demoQueue 1 0 0).name).length = 2 := by
  decide

/-- The store after `Add` on a bounded queue: the ready list stays within the
bound, nothing else changes. -/
theorem Queue.Add_bounded {T : Type} (q : Queue T) (value : T) (m : Int) (db : Store)
    (hm : q.config.MaxLength = m) (hpos : 0 < m)
    (hlen : ((db.lists q.name).length : Int) ≤ m) :
    ∃ db2, (q.Add value (World.up db)).2 = World.up db2 ∧
      ((db2.lists q.name).length : Int) ≤ m ∧ db2.zsets = db.zsets := by
  unfold Queue.Add
  have hgt : q.config.MaxLength > 0 := by rw [hm]; exact hpos
  simp only [hgt, if_true, World.exec_up, cmdLLEN]
  by_cases hfull : ((db.lists q.name).length : Int) ≥ q.config.MaxLength
  · simp only [hfull, if_true]
    exact ⟨db, rfl, hlen, rfl⟩
  · simp only [hfull, if_false]
    rw [hm] at hfull
    unfold Queue.addPush
    rcases q.ser.Serialize value with err | data
    · exact ⟨db, rfl, hlen, rfl⟩
    · simp only [World.exec_up, cmdRPUSH]
      refine ⟨_, rfl, ?_, rfl⟩
      simp only [Function.update_same, List.length_append, List.length_singleton]
      push_cast
      omega

/-- The store after the second half of `Take`: as before, or with the item
recorded in the processing set. -/
theorem Queue.takeDecode_world {T : Type} [Inhabited T] (q : Queue T) (data : String)
    (now : Time) (s : Store) :
    (q.takeDecode data now (World.up s)).2 = World.up s ∨
    (q.takeDecode data now (World.up s)).2 =
      World.up (cmdZADD q.processingName (UnixMilli now) data s).2 := by
  unfold Queue.takeDecode
  cases q.elemIsInterface
  · simp only [Bool.false_eq_true, if_false]
    rcases q.ser.Deserialize data default with e | v
    · exact Or.inl rfl
    · by_cases hr : q.config.MaxRetry > 0
      · simp only [hr, if_true, World.exec_up]
        exact Or.inr trivial
      · simp only [hr, if_false]
        exact Or.inl trivial
  · exact Or.inl rfl

/-- The store after `Take` when the delayed set is empty: the ready list has
not grown and the delayed set is still empty. -/
theorem Queue.Take_shrinks {T : Type} [Inhabited T] (q : Queue T) (now : Time) (db : Store)
    (hpd : q.processingName ≠ q.delayedName) (hdelayed : db.zsets q.delayedName = []) :
    ∃ db2, (q.Take now (World.up db)).2 = World.up db2 ∧
      (db2.lists q.name).length ≤ (db.lists q.name).length ∧
      db2.zsets q.delayedName = [] := by
  have hp := q.processDelayedTasks_none now db (by rw [hdelayed]; rfl)
  unfold Queue.Take
  simp only [hp, World.exec_up]
  have hz : ∀ (t : Int) (data : String) (s : Store), s.zsets q.delayedName = [] →
      (cmdZADD q.processingName t data s).2.zsets q.delayedName = [] := by
    intro t data s hs
    simp [cmdZADD, Function.update_noteq (Ne.symm hpd), hs]
  have hdec : ∀ (x : String) (rest : List String), db.lists q.name = x :: rest →
      ∃ db2, (q.takeDecode x now
          (World.up { db with lists := (Function.update db.lists q.name rest) })).2 =
        World.up db2 ∧ (db2.lists q.name).length ≤ (x :: rest).length ∧
        db2.zsets q.delayedName = [] := by
    intro x rest _
    rcases q.takeDecode_world x now
      { db with lists := (Function.update db.lists q.name rest) } with h | h
    · exact ⟨_, h, by simp, hdelayed⟩
    · exact ⟨_, h, by simp [cmdZADD], hz _ _ _ hdelayed⟩
  by_cases hw : q.config.MaxWaitTime > 0
  · simp only [hw, if_true, cmdBLPOP]
    by_cases hs : float64ToInt (Duration.Seconds q.config.MaxWaitTime) < 0
    · simp only [hs, if_true]
      exact ⟨db, rfl, le_refl _, hdelayed⟩
    · simp only [hs, if_false]
      rcases hl : db.lists q.name with _ | ⟨x, rest⟩
      · by_cases h0 : float64ToInt (Duration.Seconds q.config.MaxWaitTime) = 0
        · simp only [h0, if_true]
          exact ⟨db, rfl, by simp [hl], hdelayed⟩
        · simp only [h0, if_false]
          exact ⟨db, rfl, by simp [hl], hdelayed⟩
      · exact hdec x rest hl
  · simp only [hw, if_false, cmdLPOP]
    rcases hl : db.lists q.name with _ | ⟨x, rest⟩
    · exact ⟨db, rfl, by simp [hl], hdelayed⟩
    · by_cases hx : x.length = 0
      · simp only [hx, if_true]
        exact ⟨_, rfl, by simp, hdelayed⟩
      · simp only [hx, if_false]
        exact hdec x rest hl

/-- The store after `Complete`: the ready list and the delayed set are as
before. -/
theorem Queue.Complete_frame {T : Type} (q : Queue T) (value : T) (db : Store)
    (hpd : q.processingName ≠ q.delayedName) :
    ∃ db2, (q.Complete value (World.up db)).2 = World.up db2 ∧
      db2.lists = db.lists ∧ db2.zsets q.delayedName = db.zsets q.delayedName := by
  unfold Queue.Complete
  split
  · exact ⟨db, rfl, rfl, rfl⟩
  · rcases q.ser.Serialize value with err | data
    · exact ⟨db, rfl, rfl, rfl⟩
    · simp only [World.exec_up, cmdZREM]
      exact ⟨_, rfl, rfl, by simp [Function.update_noteq (Ne.symm hpd)]⟩

/-- One call that puts nothing in the delayed set keeps the ready list within
the bound and the delayed set empty. -/
theorem Queue.call_bounded {T : Type} [Inhabited T] (q : Queue T) (m : Int) (db : Store)
    (c : QueueCall T) (hpd : q.processingName ≠ q.delayedName)
    (hm : q.config.MaxLength = m) (hpos : 0 < m) (hc : c.noDelay q)
    (hlen : ((db.lists q.name).length : Int) ≤ m) (hdelayed : db.zsets q.delayedName = []) :
    ∃ db2, q.call (World.up db) c = World.up db2 ∧
      ((db2.lists q.name).length : Int) ≤ m ∧ db2.zsets q.delayedName = [] := by
  have hcomplete : ∀ v : T, ∃ db2, (q.Complete v (World.up db)).2 = World.up db2 ∧
      ((db2.lists q.name).length : Int) ≤ m ∧ db2.zsets q.delayedName = [] := by
    intro v
    obtain ⟨db2, h1, h2, h3⟩ := q.Complete_frame v db hpd
    exact ⟨db2, h1, by rw [h2]; exact hlen, by rw [h3]; exact hdelayed⟩
  have hadd : ∀ v : T, ∃ db2, (q.Add v (World.up db)).2 = World.up db2 ∧
      ((db2.lists q.name).length : Int) ≤ m ∧ db2.zsets q.delayedName = [] := by
    intro v
    obtain ⟨db2, h1, h2, h3⟩ := q.Add_bounded v m db hm hpos hlen
    exact ⟨db2, h1, h2, by rw [h3]; exact hdelayed⟩
  cases c with
  | add v => exact hadd v
  | addDelayed v d t => exact absurd hc (by simp [QueueCall.noDelay])
  | take t =>
    obtain ⟨db2, h1, h2, h3⟩ := q.Take_shrinks t db hpd hdelayed
    refine ⟨db2, h1, ?_, h3⟩
    have : ((db2.lists q.name).length : Int) ≤ ((db.lists q.name).length : Int) := by
      exact_mod_cast h2
    omega
  | complete v => exact hcomplete v
  | fail v err t =>
    show ∃ db2, (q.Fail v err t (World.up db)).2 = World.up db2 ∧ _
    unfold Queue.Fail
    rcases hh : q.config.ErrorHandler with _ | handler
    · exact hcomplete v
    · have hle : (handler v err).1 ≤ 0 := hc handler hh
      simp only
      by_cases hneg : (handler v err).1 < 0
      · rw [if_pos hneg]
        exact hcomplete _
      · have hngt : ¬ (handler v err).1 > 0 := not_lt.mpr hle
        rw [if_neg hneg, if_neg hngt]
        exact hadd _

/-- A sequence of calls that put nothing in the delayed set keeps the ready
list within the bound. -/
theorem Queue.calls_bounded {T : Type} [Inhabited T] (q : Queue T) (m : Int)
    (hpd : q.processingName ≠ q.delayedName) (hm : q.config.MaxLength = m) (hpos : 0 < m)
    (cs : List (QueueCall T)) :
    ∀ db : Store, (∀ c ∈ cs, c.noDelay q) → ((db.lists q.name).length : Int) ≤ m →
      db.zsets q.delayedName = [] →
      ∃ db2, q.calls (World.up db) cs = World.up db2 ∧
        ((db2.lists q.name).length : Int) ≤ m ∧ db2.zsets q.delayedName = [] := by
  induction cs with
  | nil =>
    intro db _ hlen hdelayed
    exact ⟨db, rfl, hlen, hdelayed⟩
  | cons c rest ih =>
    intro db hcs hlen hdelayed
    obtain ⟨db1, h1, h2, h3⟩ := q.call_bounded m db c hpd hm hpos
      (hcs c (List.mem_cons_self _ _)) hlen hdelayed
    obtain ⟨db2, g1, g2, g3⟩ := ih db1 (fun c2 hc2 => hcs c2 (List.mem_cons_of_mem _ hc2)) h2 h3
    refine ⟨db2, ?_, g2, g3⟩
    rw [← g1]
    simp only [Queue.calls, List.foldl_cons, h1]

/-- C29, as amended. For every queue made by `NewQueue` with
`MaxLength = m > 0` that starts with an empty ready list and an empty delayed
set, on a connection that answers every command: after every sequence of
`Add`, `Take`, `Complete` and `Fail` calls by a single consumer, at any times,
in which nothing is put in the delayed set (no `AddDelayed` call, and no
`Fail` whose handler answers with a positive delay), the ready list holds at
most m items after each call. -/
theorem ready_list_bound {T : Type} [Inhabited T] (name : String) (config : QueueConfig T)
    (r : Redis) (ser : SerializerFunc T) (b : Bool) (q : Queue T)
    (hq : q = NewQueue name config r ser b)
    (m : Int) (cs : List (QueueCall T)) (db : Store)
    (hm : q.config.MaxLength = m) (hpos : 0 < m) (hcs : ∀ c ∈ cs, c.noDelay q)
    (hready : db.lists q.name = []) (hdelayed : db.zsets q.delayedName = []) :
    ∀ k, (((q.calls (World.up db) (cs.take k)).db.lists q.name).length : Int) ≤ m := by
  intro k
  have hpd : q.processingName ≠ q.delayedName := by
    rw [hq]
    exact NewQueue_processing_ne_delayed name config r ser b
  obtain ⟨db2, h1, h2, -⟩ := q.calls_bounded m hpd hm hpos (cs.take k) db
    (fun c hc => hcs c (List.mem_of_mem_take hc)) (by rw [hready]; simpa using le_of_lt hpos)
    hdelayed
  rw [h1]
  exact h2

/-- Witness of C29: a queue with `MaxLength = 2`; three `Add` calls, a `Take`,
a `Fail` that retries at once, and two more `Add` calls. -/
theorem ready_list_bound_witness :
    ((((retryQueue 2 0 []).calls (World.up Store.empty)
      ([.add "a", .add "b", .add "c", .take 1, .fail "a" (.store "boom") 2, .add "d",
        .add "e"].take 7)).db.lists (retryQueue 2 0 []).name).length : Int) ≤ 2 :=
  ready_list_bound "q" _ demoRedis stringSerializer false (retryQueue 2 0 []) rfl 2
    [.add "a", .add "b", .add "c", .take 1, .fail "a" (.store "boom") 2, .add "d", .add "e"]
    Store.empty rfl (by decide)
    (by
      intro c hc
      simp only [List.mem_cons, List.mem_singleton, List.not_mem_nil, or_false] at hc
      rcases hc with rfl | rfl | rfl | rfl | rfl | rfl | rfl
      · trivial
      · trivial
      · trivial
      · trivial
      · intro handler hh
        have : handler = fun _ _ => ((0 : Duration), ([] : List (Option String))) :=
          (Option.some.inj hh).symm
        subst this
        exact le_refl _
      · trivial
      · trivial)
    rfl rfl 7

/-! ## The structure of the cache -/

/-- The store after `Get`: a key whose score is before now is deleted from the
data hash and the expiry set, and nothing else changes. -/
theorem Cache.Get_world {T : Type} [Inhabited T] (c : Cache T) (key : String) (now : Time)
    (db : Store) :
    (c.Get key now (World.up db)).2 = World.up db ∨
    (c.Get key now (World.up db)).2 =
      World.up (cmdZREM c.expireName [key] (cmdHDEL c.dataName [key] db).2).2 := by
  unfold Cache.Get
  rw [Cache.isExpired_up]
  rcases hz : kvGet key (db.zsets c.expireName) with _ | score
  · left
    simp only [World.exec_up, cmdHGET]
    rcases kvGet key (db.hashes c.dataName) with _ | data
    · rfl
    · simp only
      repeat' split
      all_goals rfl
  · by_cases he : fromUnixMilli score < (now : Int)
    · right
      simp [he, Cache.Delete_up]
    · left
      simp only [he, decide_False, World.exec_up, cmdHGET]
      rcases kvGet key (db.hashes c.dataName) with _ | data
      · rfl
      · simp only
        repeat' split
        all_goals rfl

/-- C24 as stated fails, in two ways. (1) The empty string is written as no
bytes, and `Deserialize` of no bytes returns at once: a variable that holds
`old` still holds `old`, not the empty string. (2) A target that is not a
pointer and whose type implements `Serializer` is handed the data before the
pointer test; when its own `Deserialize` returns nil, so does the call. -/
theorem deserialize_keeps_old_value :
    (defaultSerialize (.str "") = .ok "" ∧
      (match defaultDeserialize "" (.pointer (.str "old")) with
        | .ok target => target.held
        | .error _ => none) = some (.str "old")) ∧
    (match defaultDeserialize "abc" (.custom false (fun _ => none)) with
      | .ok _ => true
      | .error _ => false) = true := by
  decide

theorem dropWhile_of_all_false {p : Char → Bool} (cs : List Char)
    (h : ∀ c ∈ cs, p c = false) : cs.dropWhile p = cs := by
  cases cs with
  | nil => rfl
  | cons c rest => simp [List.dropWhile, h c (List.mem_cons_self _ _)]

theorem jsonTrim_of_no_space (cs : List Char) (h : ∀ c ∈ cs, isJSONSpace c = false) :
    jsonTrim cs = cs := by
  unfold jsonTrim
  rw [dropWhile_of_all_false cs h,
    dropWhile_of_all_false cs.reverse (fun c hc => h c (List.mem_reverse.mp hc)),
    List.reverse_reverse]

/-- Every character that `toDigitsCore` writes is a decimal digit. -/
theorem toDigitsCore_mem (fuel : Nat) :
    ∀ (n : Nat) (acc : List Char) (c : Char), c ∈ Nat.toDigitsCore 10 fuel n acc →
      (∃ k, k < 10 ∧ c = Nat.digitChar k) ∨ c ∈ acc := by
  induction fuel with
  | zero =>
    intro n acc c hc
    exact Or.inr hc
  | succ fuel ih =>
    intro n acc c hc
    unfold Nat.toDigitsCore at hc
    simp only at hc
    split at hc
    · rcases List.mem_cons.mp hc with h1 | h1
      · exact Or.inl ⟨n % 10, Nat.mod_lt _ (by norm_num), h1⟩
      · exact Or.inr h1
    · rcases ih _ _ c hc with h1 | h1
      · exact Or.inl h1
      · rcases List.mem_cons.mp h1 with h2 | h2
        · exact Or.inl ⟨n % 10, Nat.mod_lt _ (by norm_num), h2⟩
        · exact Or.inr h2

theorem toDigits_no_space (n : Nat) : ∀ c ∈ Nat.toDigits 10 n, isJSONSpace c = false := by
  intro c hc
  rcases toDigitsCore_mem _ _ _ c hc with ⟨k, hk, rfl⟩ | h1
  · exact (digitChar_spec k hk).2.2.2.2.1
  · simp at h1

/-- The digits of a JSON integer, as written for a natural number, read back. -/
theorem jsonDigits_toDigits (n : Nat) : jsonDigits (Nat.toDigits 10 n) = some n := by
  obtain ⟨k, rest, hk, hk0, he⟩ := toDigits_head n
  have hp := parseDigits_toDigits n
  by_cases h0 : n = 0
  · subst h0
    rfl
  · have hk1 := hk0 h0
    rw [he] at hp ⊢
    interval_cases k
    · exact absurd rfl hk1
    all_goals
      simp only [Nat.digitChar, OfNat.ofNat_ne_zero, OfNat.ofNat_ne_one, if_true, if_false,
        Nat.reduceEqDiff, one_ne_zero] at hp ⊢
      simp only [jsonDigits]
      exact hp

theorem toString_int_length (n : Int) : (toString n).length ≠ 0 := by
  have h := toString_int_data n
  intro h0
  have : (toString n).data = [] := List.eq_nil_of_length_eq_zero h0
  rw [this] at h
  split at h
  · obtain ⟨k, rest, -, -, he⟩ := toDigits_head n.toNat
    rw [he] at h
    cases h
  · cases h

/-- `json.Unmarshal` into an integer type reads back what `json.Marshal` wrote
for a value of that type. -/
theorem jsonInteger_toString (signed : Bool) (bits : Nat) (n : Int)
    (h1 : intMin signed bits ≤ n) (h2 : n ≤ intMax signed bits) :
    jsonInteger signed bits (toString n) = some (some n) := by
  unfold jsonInteger
  rw [toString_int_data]
  by_cases h0 : 0 ≤ n
  · rw [if_pos h0]
    have htrim := jsonTrim_of_no_space _ (toDigits_no_space n.toNat)
    rw [htrim]
    obtain ⟨k, rest, hk, -, he⟩ := toDigits_head n.toNat
    have hs := digitChar_spec k hk
    have hval : ((n.toNat : Nat) : Int) = n := Int.toNat_of_nonneg h0
    have hnull : ¬ Nat.toDigits 10 n.toNat = ['n', 'u', 'l', 'l'] := by
      rw [he]
      intro hc
      exact hs.2.2.2.2.2.1 (List.cons.inj hc).1
    have hminus : ¬ (Nat.toDigits 10 n.toNat).head? = some '-' := by
      rw [he]
      intro hc
      exact hs.2.2.1 (Option.some.inj hc)
    rw [if_neg hnull, if_neg hminus, jsonDigits_toDigits]
    simp [hval, h1, h2]
  · rw [if_neg h0]
    have hsigned : signed = true := by
      cases signed
      · simp [intMin] at h1
        omega
      · rfl
    subst hsigned
    have hns : ∀ c ∈ '-' :: Nat.toDigits 10 (-n).toNat, isJSONSpace c = false := by
      intro c hc
      rcases List.mem_cons.mp hc with h3 | h3
      · subst h3
        decide
      · exact toDigits_no_space _ c h3
    rw [jsonTrim_of_no_space _ hns]
    have hval : (((-n).toNat : Nat) : Int) = -n := Int.toNat_of_nonneg (by omega)
    have hnull : ¬ '-' :: Nat.toDigits 10 (-n).toNat = ['n', 'u', 'l', 'l'] := by
      intro hc
      have := (List.cons.inj hc).1
      exact absurd this (by decide)
    rw [if_neg hnull]
    simp only [List.head?_cons, if_true, List.tail_cons, jsonDigits_toDigits]
    simp [hval, h1, h2]

theorem jsonBool_marshal (b : Bool) :
    jsonBool (if b then "true" else "false") = some (some b) := by
  cases b <;> decide

/-- C24, as amended. For every string, byte slice, integer of a fixed width
within the range of its type, and boolean value x, and every variable of the
type of x: `Serialize(x)` returns bytes and no error; when the bytes are not
empty, which is so for every integer and boolean, `Deserialize` of them into a
pointer to the variable returns no error and leaves the variable equal to x;
when they are empty (x is the empty string or an empty byte slice),
`Deserialize` returns no error and leaves the variable as it was, so equal to
x only if it held the zero value. `Deserialize` of non-empty data into a
target that is not a pointer returns an error, unless the type of the target
implements `Serializer`: then the call returns what the `Deserialize` of the
target returns. -/
theorem default_serializer_round_trip (x var : GoValue) (hv : x.valid)
    (ht : x.sameType var) :
    (∃ data, defaultSerialize x = .ok data ∧
      (data.length ≠ 0 → defaultDeserialize data (.pointer var) = .ok (.pointer x)) ∧
      (data.length = 0 → defaultDeserialize data (.pointer var) = .ok (.pointer var)) ∧
      ((∀ s, x ≠ .str s) → (∀ b, x ≠ .bytes b) → data.length ≠ 0)) ∧
    (∀ data v, data.length ≠ 0 → ∃ e, defaultDeserialize data (.value v) = .error e) ∧
    (∀ data p f, data.length ≠ 0 →
      (f data = none → defaultDeserialize data (.custom p f) = .ok (.custom p f)) ∧
      (∀ e, f data = some e → defaultDeserialize data (.custom p f) = .error e)) := by
  refine ⟨?_, ?_, ?_⟩
  · cases x with
    | str s =>
      cases var with
      | str s2 =>
        refine ⟨s, rfl, ?_, ?_, ?_⟩
        · intro h
          simp [defaultDeserialize, h]
        · intro h
          simp [defaultDeserialize, h]
        · intro h
          exact absurd rfl (h s)
      | bytes b2 => exact absurd ht (by simp [GoValue.sameType])
      | int s2 b2 n2 => exact absurd ht (by simp [GoValue.sameType])
      | bool b2 => exact absurd ht (by simp [GoValue.sameType])
    | bytes b =>
      cases var with
      | str s2 => exact absurd ht (by simp [GoValue.sameType])
      | bytes b2 =>
        refine ⟨b, rfl, ?_, ?_, ?_⟩
        · intro h
          simp [defaultDeserialize, h]
        · intro h
          simp [defaultDeserialize, h]
        · intro _ h
          exact absurd rfl (h b)
      | int s2 b2 n2 => exact absurd ht (by simp [GoValue.sameType])
      | bool b2 => exact absurd ht (by simp [GoValue.sameType])
    | int s b n =>
      cases var with
      | str s2 => exact absurd ht (by simp [GoValue.sameType])
      | bytes b2 => exact absurd ht (by simp [GoValue.sameType])
      | int s2 b2 n2 =>
        obtain ⟨hs, hb⟩ : s = s2 ∧ b = b2 := ht
        subst hs hb
        have hlen := toString_int_length n
        refine ⟨toString n, rfl, ?_, ?_, ?_⟩
        · intro _
          simp [defaultDeserialize, hlen, jsonInteger_toString s b n hv.1 hv.2]
        · intro h
          exact absurd h hlen
        · intro _ _
          exact hlen
      | bool b2 => exact absurd ht (by simp [GoValue.sameType])
    | bool b =>
      cases var with
      | str s2 => exact absurd ht (by simp [GoValue.sameType])
      | bytes b2 => exact absurd ht (by simp [GoValue.sameType])
      | int s2 b2 n2 => exact absurd ht (by simp [GoValue.sameType])
      | bool b2 =>
        have hlen : (if b then "true" else "false").length ≠ 0 := by
          cases b <;> decide
        refine ⟨if b then "true" else "false", rfl, ?_, ?_, ?_⟩
        · intro _
          simp [defaultDeserialize, hlen, jsonBool_marshal]
        · intro h
          exact absurd h hlen
        · intro _ _
          exact hlen
  · intro data v h
    exact ⟨.serializer "v must be a pointer", by simp [defaultDeserialize, h]⟩
  · intro data p f h
    constructor
    · intro hf
      simp [defaultDeserialize, h, hf]
    · intro e hf
      simp [defaultDeserialize, h, hf]

/-- Witness of C24: the `int8` value -128 into a variable that holds 7. -/
theorem default_serializer_round_trip_witness :
    ∃ data, defaultSerialize (.int true 8 (-128)) = .ok data ∧
      (data.length ≠ 0 →
        defaultDeserialize data (.pointer (.int true 8 7)) =
          .ok (.pointer (.int true 8 (-128)))) :=
  have h := (default_serializer_round_trip (.int true 8 (-128)) (.int true 8 7)
    ⟨by decide, by decide⟩ ⟨rfl, rfl⟩).1
  h.elim (fun data hd => ⟨data, hd.1, hd.2.1⟩)

/-! ## Entries without expiry -/

/-- The store after `Get`: as before, or, when the key has a score, with the
key deleted from both structures. -/
theorem Cache.Get_world_score {T : Type} [Inhabited T] (c : Cache T) (key : String)
    (now : Time) (db : Store) :
    (c.Get key now (World.up db)).2 = World.up db ∨
    ((∃ score, kvGet key (db.zsets c.expireName) = some score) ∧
      (c.Get key now (World.up db)).2 =
        World.up (cmdZREM c.expireName [key] (cmdHDEL c.dataName [key] db).2).2) := by
  rcases hz : kvGet key (db.zsets c.expireName) with _ | score
  · left
    unfold Cache.Get
    rw [Cache.isExpired_up, hz]
    simp only [World.exec_up, cmdHGET]
    rcases kvGet key (db.hashes c.dataName) with _ | data
    · rfl
    · simp only
      repeat' split
      all_goals rfl
  · rcases c.Get_world key now db with h | h
    · exact Or.inl h
    · exact Or.inr ⟨⟨score, rfl⟩, h⟩

/-- `Get` of an entry without a score whose bytes are not empty and decode:
the value is found, or the call panics when the element type is an interface
type; the store is unchanged. -/
theorem Cache.Get_retained {T : Type} [Inhabited T] (c : Cache T) {key data : String}
    {db : Store} (v : T) (now : Time) (h : c.Retains key data db) (hne : data.length ≠ 0)
    (hdec : c.ser.Deserialize data default = .ok v) :
    c.Get key now (World.up db) =
      (if c.elemIsInterface = true then .panics else .returns (v, true), World.up db) := by
  have hlive : ∀ score, kvGet key (db.zsets c.expireName) = some score →
      ¬ fromUnixMilli score < (now : Int) := by
    intro score hs
    rw [h.2] at hs
    cases hs
  by_cases hT : c.elemIsInterface = true
  · rw [c.Get_up_panics key now db data hlive h.1 hne hT, if_pos hT]
  · rw [c.Get_up_hit key now db data v hlive h.1 hne (by simpa using hT) hdec, if_neg hT]

/-- `Set` of another key keeps the entry of `key` and its lack of a score. -/
theorem Cache.Retains_set {T : Type} (c : Cache T) {key data : String} {db : Store}
    (hsep : c.redis.safeTypeMapName ≠ c.dataName) (h : c.Retains key data db)
    (k2 : String) (v2 : T) (expire : Duration) (now : Time) (roll : Nat) (hk : k2 ≠ key) :
    ∃ db2, (c.Set k2 v2 expire now roll (World.up db)).2.2 = World.up db2 ∧
      c.Retains key data db2 := by
  rcases henc : c.ser.Serialize v2 with err | d
  · exact ⟨db, by simp [Cache.Set, henc], h⟩
  · obtain ⟨b, db2, hset, hf⟩ := c.Set_up k2 v2 expire now roll db d henc
    refine ⟨db2, by rw [hset], c.Retains_sameBut hsep ?_ hf⟩
    have hH : c.Retains key data (cmdHSET c.dataName k2 d db).2 :=
      ⟨by simp [cmdHSET, kvGet_kvPut_ne _ _ (Ne.symm hk), h.1], by simpa [cmdHSET] using h.2⟩
    have hZ : ∀ sc, c.Retains key data
        (cmdZADD c.expireName sc k2 (cmdHSET c.dataName k2 d db).2).2 := fun sc =>
      ⟨by simpa [cmdZADD] using hH.1,
        by simp only [cmdZADD, Function.update_same]
           rw [kvGet_kvPut_ne _ _ (Ne.symm hk)]
           exact hH.2⟩
    split
    · exact hZ _
    · split
      · exact hZ _
      · exact hH

/-- The sweep keeps an entry without a score. -/
theorem Cache.Retains_clearExpired {T : Type} (c : Cache T) {key data : String} {db : Store}
    (h : c.Retains key data db) (now : Time) :
    ∃ db2, (c.ClearExpired now (World.up db)).2 = World.up db2 ∧ c.Retains key data db2 := by
  simp only [Cache.ClearExpired, World.exec_up, cmdZRANGEBYSCORE]
  by_cases hl : (zrangeByScore 0 (UnixMilli now) (db.zsets c.expireName)).length > 0
  · simp only [hl, if_true, Cache.Delete_up]
    have hne : ¬ (zrangeByScore 0 (UnixMilli now) (db.zsets c.expireName)).length = 0 := by
      omega
    refine ⟨_, rfl, ?_⟩
    rw [if_neg hne]
    apply c.Retains_delete h
    intro hmem
    exact kvGet_isSome_of_mem_zrangeByScore hmem h.2
  · simp only [hl, if_false]
    exact ⟨db, rfl, h⟩

/-- `Exists` keeps an entry without a score. -/
theorem Cache.Retains_exists {T : Type} (c : Cache T) {key data : String} {db : Store}
    (h : c.Retains key data db) (k2 : String) (now : Time) :
    ∃ db2, (c.Exists k2 now (World.up db)).2 = World.up db2 ∧ c.Retains key data db2 := by
  rw [Cache.Exists_up_world]
  rcases hs : kvGet k2 (db.zsets c.expireName) with _ | score
  · exact ⟨db, rfl, h⟩
  · simp only
    split
    · refine ⟨_, rfl, c.Retains_delete h [k2] ?_⟩
      simp only [List.mem_singleton]
      intro e
      subst e
      rw [h.2] at hs
      cases hs
    · exact ⟨db, rfl, h⟩

/-- A call that is not a `Clear`, and not a `Set`, a `Delete` or a `SetTTL` of
`key`, keeps the entry of `key` and its lack of a score. -/
theorem Cache.Retains_call {T : Type} [Inhabited T] (c : Cache T) {key data : String}
    {db : Store} (v : T) (hsep : c.redis.safeTypeMapName ≠ c.dataName)
    (hne : data.length ≠ 0) (hdec : c.ser.Deserialize data default = .ok v)
    (h : c.Retains key data db) (call : CacheCall T) (hcall : call.keeps key) :
    ∃ db2, c.call (World.up db) call = World.up db2 ∧ c.Retains key data db2 := by
  have hget : ∀ k2 now, ∃ db2, (c.Get k2 now (World.up db)).2 = World.up db2 ∧
      c.Retains key data db2 := by
    intro k2 now
    rcases c.Get_world_score k2 now db with hw | ⟨⟨score, hs⟩, hw⟩
    · exact ⟨db, hw, h⟩
    · refine ⟨_, hw, c.Retains_delete h [k2] ?_⟩
      simp only [List.mem_singleton]
      intro e
      subst e
      rw [h.2] at hs
      cases hs
  cases call with
  | set k2 v2 expire now roll => exact c.Retains_set hsep h k2 v2 expire now roll hcall
  | get k2 now => exact hget k2 now
  | getOrSet k2 factory now roll =>
    show ∃ db2, (c.GetOrSet k2 factory now roll (World.up db)).2 = World.up db2 ∧ _
    by_cases hk : k2 = key
    · subst hk
      unfold Cache.GetOrSet
      rw [c.Get_retained v now h hne hdec]
      by_cases hT : c.elemIsInterface = true
      · simp only [hT, if_true]
        exact ⟨db, rfl, h⟩
      · simp only [hT, if_false]
        exact ⟨db, rfl, h⟩
    · obtain ⟨db1, h1, r1⟩ := hget k2 now
      unfold Cache.GetOrSet
      rcases hx : c.Get k2 now (World.up db) with ⟨e, w1⟩
      rw [hx] at h1
      simp only at h1
      subst h1
      rcases e with ⟨value, found⟩ | _ | _
      · cases found
        · exact c.Retains_set hsep r1 k2 _ _ now roll hk
        · exact ⟨db1, rfl, r1⟩
      · exact ⟨db1, rfl, r1⟩
      · exact ⟨db1, rfl, r1⟩
  | delete ks =>
    show ∃ db2, (c.Delete ks (World.up db)).2 = World.up db2 ∧ _
    rw [Cache.Delete_up]
    split
    · exact ⟨db, rfl, h⟩
    · exact ⟨_, rfl, c.Retains_delete h ks hcall⟩
  | exist k2 now => exact c.Retains_exists h k2 now
  | clear now => exact absurd hcall id
  | clearExpired now => exact c.Retains_clearExpired h now
  | length now =>
    obtain ⟨db1, h1, r1⟩ := c.Retains_clearExpired h now
    show ∃ db2, (c.Length now (World.up db)).2 = World.up db2 ∧ _
    unfold Cache.Length
    rw [h1]
    exact ⟨db1, rfl, r1⟩
  | keys now =>
    obtain ⟨db1, h1, r1⟩ := c.Retains_clearExpired h now
    show ∃ db2, (c.Keys now (World.up db)).2 = World.up db2 ∧ _
    unfold Cache.Keys
    rw [h1]
    exact ⟨db1, rfl, r1⟩
  | getTTL k2 now =>
    show ∃ db2, (c.GetTTL k2 now (World.up db)).2 = World.up db2 ∧ _
    rw [Cache.GetTTL_up]
    exact ⟨db, rfl, h⟩
  | setTTL k2 expire now =>
    have hk : k2 ≠ key := hcall
    obtain ⟨db1, h1, r1⟩ := c.Retains_exists h k2 now
    show ∃ db2, (c.SetTTL k2 expire now (World.up db)).2 = World.up db2 ∧ _
    unfold Cache.SetTTL
    rcases hx : c.Exists k2 now (World.up db) with ⟨found, w1⟩
    rw [hx] at h1
    simp only at h1
    subst h1
    cases found
    · exact ⟨db1, rfl, r1⟩
    · simp only [World.exec_up, cmdZADD]
      refine ⟨_, rfl, ?_, ?_⟩
      · exact r1.1
      · simp only [Function.update_same]
        rw [kvGet_kvPut_ne _ _ (Ne.symm hk)]
        exact r1.2

theorem Cache.Retains_calls {T : Type} [Inhabited T] (c : Cache T) {key data : String}
    (v : T) (hsep : c.redis.safeTypeMapName ≠ c.dataName)
    (hne : data.length ≠ 0) (hdec : c.ser.Deserialize data default = .ok v)
    (cs : List (CacheCall T)) :
    ∀ db : Store, c.Retains key data db → (∀ call ∈ cs, call.keeps key) →
      ∃ db2, c.calls (World.up db) cs = World.up db2 ∧ c.Retains key data db2 := by
  induction cs with
  | nil =>
    intro db h _
    exact ⟨db, rfl, h⟩
  | cons call rest ih =>
    intro db h hcs
    obtain ⟨db1, h1, hr1⟩ := c.Retains_call v hsep hne hdec h call
      (hcs call (List.mem_cons_self _ _))
    obtain ⟨db2, h2, hr2⟩ := ih db1 hr1 (fun o ho => hcs o (List.mem_cons_of_mem _ ho))
    exact ⟨db2, by simp only [Cache.calls, List.foldl_cons, h1]; exact h2, hr2⟩

/-- C7 as stated fails, in six ways. (1) The empty string is round-tripped by
the serializer, but `Get` reports a miss for its empty encoding. (2) When the
key already has a score (it was set with a ttl of one second at instant 0),
`Set` without ttl keeps that score, and two seconds later `Get` reports a miss.
(3) When the name creator gives the hash of time markers the name of the data
hash and the draw is 0, the last block of `Set` overwrites the entry of the
key `m:data:cleanup`. (4) `SetTTL` of one second on the key, which is neither
`Delete` nor `Clear`, makes it expire: two seconds later `Get` reports a miss.
(5) A later `Set` of the key, which is neither `Delete` nor `Clear`, replaces
the value. (6) On a `Cache[any]` with the default serializer `Get` panics. -/
theorem cache_no_expiry_misses :
    (demoCache.config.DefaultExpire = 0 ∧
      (demoCache.Get "k" 0 (demoCache.Set "k" "" 0 0 1 (World.up Store.empty)).2.2).1
        = .returns ("", false)) ∧
    (kvGet "k" ((demoCache.Set "k" "v" 0 1 1
        (demoCache.Set "k" "old" Second 0 1 (World.up Store.empty)).2.2).2.2.db.zsets
          demoCache.expireName) = some 1000 ∧
      (demoCache.Get "k" 2000000000 (demoCache.Set "k" "v" 0 1 1
        (demoCache.Set "k" "old" Second 0 1 (World.up Store.empty)).2.2).2.2).1
        = .returns ("", false)) ∧
    (clashCache.Get "m:data:cleanup" 0
      (clashCache.Set "m:data:cleanup" "v" 0 0 0 (World.up Store.empty)).2.2).1
        = .returns ("0", true) ∧
    (demoCache.Get "k" 2000000000 (demoCache.SetTTL "k" Second 0
      (demoCache.Set "k" "v" 0 0 1 (World.up Store.empty)).2.2).2).1
        = .returns ("", false) ∧
    (demoCache.Get "k" 0 (demoCache.Set "k" "w" 0 0 1
      (demoCache.Set "k" "v" 0 0 1 (World.up Store.empty)).2.2).2.2).1
        = .returns ("w", true) ∧
    (anyCache.config.DefaultExpire = 0 ∧
      (anyCache.Get "k" 0
        (anyCache.Set "k" (some (.str "v")) 0 0 1 (World.up Store.empty)).2.2).1
        = .panics) := by
  decide

/-- C7, as amended. For every cache whose element type is not an interface
type, with `DefaultExpire = 0`, whose data hash is not the hash of time
markers, every store in which the key has no score, and every value whose
encoding is not empty and decodes back to the value, on a connection that
answers every command: after `Set(key, v, 0)` the key has no score in the
expiry set, and after any further calls of the cache (on any keys, at any
instants) other than `Clear` and than `Set`, `Delete` and `SetTTL` of the key,
`Get` of the key at any instant returns the value and true. -/
theorem cache_no_expiry {T : Type} [Inhabited T] (c : Cache T) (key : String) (v : T)
    (now : Time) (roll : Nat) (db : Store) (data : String)
    (hT : c.elemIsInterface = false)
    (hdef : c.config.DefaultExpire = 0)
    (hsep : c.redis.safeTypeMapName ≠ c.dataName)
    (hfresh : kvGet key (db.zsets c.expireName) = none)
    (henc : c.ser.Serialize v = .ok data) (hne : data.length ≠ 0)
    (hdec : c.ser.Deserialize data default = .ok v) :
    (c.Set key v 0 now roll (World.up db)).1 = none ∧
    kvGet key ((c.Set key v 0 now roll (World.up db)).2.2.db.zsets c.expireName) = none ∧
    ∀ (cs : List (CacheCall T)), (∀ call ∈ cs, call.keeps key) → ∀ t : Time,
      (c.Get key t (c.calls (c.Set key v 0 now roll (World.up db)).2.2 cs)).1
        = .returns (v, true) := by
  obtain ⟨b, db2, hset, hf⟩ := c.Set_up key v 0 now roll db data henc
  have h0 : ¬ ((0 : Duration) > 0) := by decide
  have hd : ¬ (c.config.DefaultExpire > 0) := by rw [hdef]; decide
  rw [if_neg h0, if_neg hd] at hf
  have hret : c.Retains key data db2 := by
    refine c.Retains_sameBut hsep ⟨?_, ?_⟩ hf
    · simp [cmdHSET, kvGet_kvPut_same]
    · simpa [cmdHSET] using hfresh
  rw [hset]
  refine ⟨rfl, hret.2, ?_⟩
  intro cs hcs t
  obtain ⟨db3, h3, hr3⟩ := c.Retains_calls v hsep hne hdec cs db2 hret hcs
  simp only [h3]
  rw [c.Get_retained v t hr3 hne hdec]
  simp [hT]

/-- Witness of C7: the string `v` is set without ttl at instant 0; another key
is set, expires and is read, the store is swept and counted, the other key is
set again through `GetOrSet`, given a ttl and deleted, and an hour later `v`
is still read. -/
theorem cache_no_expiry_witness :
    kvGet "k" ((demoCache.Set "k" "v" 0 0 0 (World.up Store.empty)).2.2.db.zsets
      demoCache.expireName) = none ∧
    (demoCache.Get "k" 3600000000000
      (demoCache.calls (demoCache.Set "k" "v" 0 0 0 (World.up Store.empty)).2.2
        [.set "j" "w" Second 1 0, .get "j" 5000000000, .clearExpired 6000000000,
          .length 6000000001, .getOrSet "j" (fun _ => ("x", 0)) 6000000002 1,
          .getOrSet "k" (fun _ => ("y", 0)) 6000000003 1,
          .setTTL "j" Second 6000000004, .delete ["j"]])).1
      = .returns ("v", true) :=
  have h := cache_no_expiry demoCache "k" "v" 0 0 Store.empty "v" rfl rfl (by decide) rfl rfl
    (by decide) rfl
  ⟨h.2.1, h.2.2 [.set "j" "w" Second 1 0, .get "j" 5000000000, .clearExpired 6000000000,
      .length 6000000001, .getOrSet "j" (fun _ => ("x", 0)) 6000000002 1,
      .getOrSet "k" (fun _ => ("y", 0)) 6000000003 1,
      .setTTL "j" Second 6000000004, .delete ["j"]]
    (by
      intro call hcall
      simp only [List.mem_cons, List.mem_singleton, List.not_mem_nil, or_false] at hcall
      rcases hcall with rfl | rfl | rfl | rfl | rfl | rfl | rfl | rfl
      · show "j" ≠ "k"
        decide
      · trivial
      · trivial
      · trivial
      · trivial
      · trivial
      · show "j" ≠ "k"
        decide
      · show "k" ∉ ["j"]
        decide) 3600000000000⟩

end RedisTool
